import Mathlib

/-!
# Verification of the PDM propositional logic engine

Shallow embedding of `src/logic_core.py` and `src/parser.py` of the
Propositional-Decision-Maker repository, together with proofs settling the
frozen specification claims.

Conventions of the embedding:
* Python `set[str]` becomes `Finset String`; Python `dict[str, bool]`
  (an insertion-ordered map) becomes an association list
  `List (String × Bool)` with first-match lookup and a `dictInsert`
  operation mirroring `d[k] = v` (overwrite in place, else append).
* Fallible code returns `Except ParseError`.
* Strings scanned character by character are modelled as `List Char`.
-/

namespace PDM

/-- AST of `logic_core.py`: the closed set of formula node kinds. -/
inductive Formula where
  | Atom (name : String)
  | Not (operand : Formula)
  | And (left : Formula) (right : Formula)
  | Or (left : Formula) (right : Formula)
  | Xor (left : Formula) (right : Formula)
  | Implies (left : Formula) (right : Formula)
  | Iff (left : Formula) (right : Formula)
deriving DecidableEq, Repr

/-- `Formula.atoms`: union of atom names reachable from a node
(`logic_core.py` lines 19-73). -/
def Formula.atoms : Formula → Finset String
  | .Atom n => {n}
  | .Not f => f.atoms
  | .And l r => l.atoms ∪ r.atoms
  | .Or l r => l.atoms ∪ r.atoms
  | .Xor l r => l.atoms ∪ r.atoms
  | .Implies l r => l.atoms ∪ r.atoms
  | .Iff l r => l.atoms ∪ r.atoms

/-- Value of key `k` in a Python dict modelled as an association list,
with default `false`: `assignment.get(name, False)`. -/
def dictGet (m : List (String × Bool)) (k : String) : Bool :=
  (m.lookup k).getD false

/-- Python `d[k] = v` on an insertion-ordered dict: overwrite the entry in
place when the key is present, else append it at the end. -/
def dictInsert (k : String) (v : Bool) (m : List (String × Bool)) :
    List (String × Bool) :=
  if m.any (fun p => p.1 = k) then
    m.map (fun p => if p.1 = k then (k, v) else p)
  else m ++ [(k, v)]

/-- `evaluate(formula, assignment)` of `logic_core.py` lines 79-104. -/
def evaluate : Formula → List (String × Bool) → Bool
  | .Atom n, m => dictGet m n
  | .Not f, m => !(evaluate f m)
  | .And l r, m => evaluate l m && evaluate r m
  | .Or l r, m => evaluate l m || evaluate r m
  | .Xor l r, m => xor (evaluate l m) (evaluate r m)
  | .Implies l r, m => !(evaluate l m) || evaluate r m
  | .Iff l r, m => evaluate l m == evaluate r m

/-- Code-point lexicographic comparison of character lists, the order by
which Python compares strings. Lean's builtin `String` order is the same
order semantically, but its decision procedure does not reduce inside the
kernel, so the embedding carries its own. -/
def strLeAux : List Char → List Char → Bool
  | [], _ => true
  | _ :: _, [] => false
  | a :: as, b :: bs =>
    if a.toNat < b.toNat then true
    else if b.toNat < a.toNat then false
    else strLeAux as bs

/-- Code-point lexicographic order on strings. -/
def strLe (a b : String) : Bool := strLeAux a.data b.data

/-- `strLe` as a relation. -/
def StrLe (a b : String) : Prop := strLe a b = true

instance : DecidableRel StrLe := fun a b => instDecidableEqBool (strLe a b) true

theorem char_toNat_inj (a b : Char) (h : a.toNat = b.toNat) : a = b := by
  apply Char.eq_of_val_eq
  cases a with | mk av hav =>
  cases b with | mk bv hbv =>
  show av = bv
  cases av with | mk ta =>
  cases bv with | mk tb =>
  exact congrArg UInt32.mk (BitVec.eq_of_toFin_eq (Fin.ext h))

theorem strLeAux_total (l1 l2 : List Char) :
    strLeAux l1 l2 = true ∨ strLeAux l2 l1 = true := by
  induction l1 generalizing l2 with
  | nil => left; rfl
  | cons a as ih =>
    cases l2 with
    | nil => right; rfl
    | cons b bs =>
      by_cases h1 : a.toNat < b.toNat
      · left; simp [strLeAux, h1]
      · by_cases h2 : b.toNat < a.toNat
        · right; simp [strLeAux, h2]
        · rcases ih bs with h | h
          · left; simp [strLeAux, h1, h2, h]
          · right; simp [strLeAux, h1, h2, h]

theorem strLeAux_trans (l1 l2 l3 : List Char) (h12 : strLeAux l1 l2 = true)
    (h23 : strLeAux l2 l3 = true) : strLeAux l1 l3 = true := by
  induction l1 generalizing l2 l3 with
  | nil => rfl
  | cons a as ih =>
    cases l2 with
    | nil => simp [strLeAux] at h12
    | cons b bs =>
      cases l3 with
      | nil => simp [strLeAux] at h23
      | cons c cs =>
        simp only [strLeAux] at h12 h23 ⊢
        by_cases hab : a.toNat < b.toNat
        · by_cases hbc : b.toNat < c.toNat
          · rw [if_pos (by omega)]
          · by_cases hcb : c.toNat < b.toNat
            · rw [if_neg hbc, if_pos hcb] at h23
              exact absurd h23 (by simp)
            · rw [if_pos (by omega)]
        · by_cases hba : b.toNat < a.toNat
          · rw [if_neg hab, if_pos hba] at h12
            exact absurd h12 (by simp)
          · rw [if_neg hab, if_neg hba] at h12
            by_cases hbc : b.toNat < c.toNat
            · rw [if_pos (by omega)]
            · by_cases hcb : c.toNat < b.toNat
              · rw [if_neg hbc, if_pos hcb] at h23
                exact absurd h23 (by simp)
              · rw [if_neg hbc, if_neg hcb] at h23
                rw [if_neg (by omega), if_neg (by omega)]
                exact ih bs cs h12 h23

theorem strLeAux_antisymm (l1 l2 : List Char) (h12 : strLeAux l1 l2 = true)
    (h21 : strLeAux l2 l1 = true) : l1 = l2 := by
  induction l1 generalizing l2 with
  | nil =>
    cases l2 with
    | nil => rfl
    | cons b bs => simp [strLeAux] at h21
  | cons a as ih =>
    cases l2 with
    | nil => simp [strLeAux] at h12
    | cons b bs =>
      simp only [strLeAux] at h12 h21
      by_cases hab : a.toNat < b.toNat
      · rw [if_neg (by omega), if_pos hab] at h21
        simp at h21
      · by_cases hba : b.toNat < a.toNat
        · rw [if_neg hab, if_pos hba] at h12
          exact absurd h12 (by simp)
        · rw [if_neg hab, if_neg hba] at h12
          rw [if_neg hba, if_neg hab] at h21
          have ha : a = b := char_toNat_inj a b (by omega)
          rw [ha, ih bs h12 h21]

instance : IsTotal String StrLe :=
  ⟨fun a b => strLeAux_total a.data b.data⟩

instance : IsTrans String StrLe :=
  ⟨fun a b c => strLeAux_trans a.data b.data c.data⟩

instance : IsAntisymm String StrLe :=
  ⟨fun a b h1 h2 => by
    cases a with | mk d1 =>
    cases b with | mk d2 =>
    exact congrArg String.mk (strLeAux_antisymm d1 d2 h1 h2)⟩

/-- Python `sorted(...)` applied to a set of strings. Implemented by
insertion sort over the kernel-computable code-point order;
well-definedness on the multiset uses that sorting is
permutation-invariant. -/
def sortedList (s : Finset String) : List String :=
  Quot.lift (List.insertionSort StrLe)
    (fun l1 l2 h => List.eq_of_perm_of_sorted
      (((List.perm_insertionSort _ l1).trans h).trans
        (List.perm_insertionSort _ l2).symm)
      (List.sorted_insertionSort _ l1) (List.sorted_insertionSort _ l2)) s.val

/-! ## Truth-table generator (`generate_truth_table`, `logic_core.py` 107-135) -/

/-- Key-order-preserving deduplication, as `dict.fromkeys`: keeps the first
occurrence of each element. -/
def dedupFirstAux (seen : List String) : List String → List String
  | [] => []
  | a :: as =>
    if a ∈ seen then dedupFirstAux seen as
    else a :: dedupFirstAux (a :: seen) as

/-- `list(dict.fromkeys(atoms))`. -/
def dedupFirst (l : List String) : List String := dedupFirstAux [] l

/-- Union of the atoms of the supplied formulas (`inferred_atoms`). -/
def inferredAtoms (formulas : List (String × Formula)) : Finset String :=
  formulas.foldl (fun s p => s ∪ p.2.atoms) ∅

/-- The working atom list of `generate_truth_table`: the caller-provided
list with duplicates removed (first occurrence order), else the sorted
union of the formulas' atoms. -/
def atomList (formulas : List (String × Formula)) (atoms : Option (List String)) :
    List String :=
  match atoms with
  | some l => dedupFirst l
  | none => sortedList (inferredAtoms formulas)

/-- `itertools.product([False, True], repeat=n)`: all boolean vectors of
length `n`, first coordinate slowest. -/
def prodBools : Nat → List (List Bool)
  | 0 => [[]]
  | n + 1 => ([false, true]).flatMap (fun b => (prodBools n).map (b :: ·))

/-- One row of the truth table before any filter column: the atom columns
(`{a: assignment[a] for a in atom_list}`) followed by one column per
supplied formula (`row[name] = evaluate(f, assignment)`). -/
def ttRow (formulas : List (String × Formula)) (al : List String) (vs : List Bool) :
    List (String × Bool) :=
  formulas.foldl (fun r p => dictInsert p.1 (evaluate p.2 (al.zip vs)) r) (al.zip vs)

/-- `generate_truth_table(formulas, atoms, filter_formula)`: rows of the
resulting data frame, in emission order. An assignment failing the filter
formula is skipped (`continue`); a surviving row gets the filter column
set to `True` before being appended. -/
def generate_truth_table (formulas : List (String × Formula))
    (atoms : Option (List String)) (filter_formula : Option (String × Formula)) :
    List (List (String × Bool)) :=
  let al := atomList formulas atoms
  (prodBools al.length).filterMap (fun vs =>
    let row := ttRow formulas al vs
    match filter_formula with
    | none => some row
    | some pf =>
      if evaluate pf.2 (al.zip vs) then some (dictInsert pf.1 true row) else none)

/-- `n`-bit big-endian binary expansion of `i`: the last entry is the
least-significant bit. -/
def natBits : Nat → Nat → List Bool
  | 0, _ => []
  | n + 1, i => natBits n (i / 2) ++ [i % 2 == 1]


/-! ## Tokenizer (`parser.py` 28-102) -/

/-- `ParseError` of `parser.py` line 28, carrying its message. -/
structure ParseError where
  message : String
deriving DecidableEq, Repr

/-- `Token` of `parser.py` lines 32-35. -/
structure Token where
  kind : String
  value : String
deriving DecidableEq, Repr

/-- The `KEYWORDS` table of `parser.py` lines 38-43. -/
def KEYWORDS : List (String × String) :=
  [("AND", "AND"), ("OR", "OR"), ("NOT", "NOT"), ("XOR", "XOR")]

/-- Python `str.isspace` for one character, exact on the Basic Latin and
Latin-1 Supplement blocks (code points up to 0xFF). Characters above that
range are not modelled (the tokenizer theorems restrict their inputs to
these blocks). -/
def pyIsSpace (c : Char) : Bool :=
  (9 ≤ c.toNat && c.toNat ≤ 13) || (28 ≤ c.toNat && c.toNat ≤ 32) ||
  c.toNat == 133 || c.toNat == 160

/-- Python `str.isalnum` for one character, exact on the Basic Latin and
Latin-1 Supplement blocks (code points up to 0xFF): ASCII digits and
letters plus the Latin-1 letters, ordinal indicators and numeric signs.
Characters above that range are not modelled. -/
def pyIsAlnum (c : Char) : Bool :=
  (48 ≤ c.toNat && c.toNat ≤ 57) || (65 ≤ c.toNat && c.toNat ≤ 90) ||
  (97 ≤ c.toNat && c.toNat ≤ 122) ||
  c.toNat == 170 || c.toNat == 178 || c.toNat == 179 || c.toNat == 181 ||
  c.toNat == 185 || c.toNat == 186 || (188 ≤ c.toNat && c.toNat ≤ 190) ||
  (192 ≤ c.toNat && c.toNat ≤ 214) || (216 ≤ c.toNat && c.toNat ≤ 246) ||
  (248 ≤ c.toNat && c.toNat ≤ 255)

/-- `_is_ident_char(ch)` (`parser.py` 46-47): `ch.isalnum() or ch in {"_"}`. -/
def isIdentChar (c : Char) : Bool := pyIsAlnum c || c == '_'

/-- ASCII uppercasing, standing in for Python `str.upper()` in the
keyword comparison: on the Latin-1 block the two can only differ on
characters whose Python uppercase forms are non-ASCII, and those compare
unequal to the four ASCII keywords under either mapping. -/
def asciiUpper (c : Char) : Char :=
  if 97 ≤ c.toNat && c.toNat ≤ 122 then Char.ofNat (c.toNat - 32) else c

/-- The message raised for an unexpected character (`parser.py` 100). -/
def unexpectedCharMessage (c : Char) (i : Nat) : String :=
  "Unexpected character '" ++ String.mk [c] ++ "' at position " ++ toString i ++ "."

/-- The scanning loop of `tokenize(text)` (`parser.py` 50-102) over the
remaining characters, `i` being the 0-based position of the first of them
in the original input. Structural in a fuel argument so that the
definition computes by kernel reduction; one unit of fuel is spent per
loop iteration and every iteration consumes at least one character, so
`length + 1` fuel never runs out (see `tokenizeFuel_no_fuel_error`). -/
def tokenizeFuel : Nat → Nat → List Char → Except ParseError (List Token)
  | 0, _, _ => .error ⟨"out of fuel"⟩
  | fuel + 1, i, cs =>
    match cs with
    | [] => .ok [⟨"EOF", ""⟩]
    | c :: cs2 =>
      if pyIsSpace c then tokenizeFuel fuel (i + 1) cs2
      else if c == '(' then (tokenizeFuel fuel (i + 1) cs2).map (⟨"(", "("⟩ :: ·)
      else if c == ')' then (tokenizeFuel fuel (i + 1) cs2).map (⟨")", ")"⟩ :: ·)
      else if c == '<' && cs2.take 2 == ['-', '>'] then
        (tokenizeFuel fuel (i + 3) (cs2.drop 2)).map (⟨"IFF", "<->"⟩ :: ·)
      else if c == '-' && cs2.take 1 == ['>'] then
        (tokenizeFuel fuel (i + 2) (cs2.drop 1)).map (⟨"IMPLIES", "->"⟩ :: ·)
      else if c == '&' then (tokenizeFuel fuel (i + 1) cs2).map (⟨"AND", "&"⟩ :: ·)
      else if c == '|' then (tokenizeFuel fuel (i + 1) cs2).map (⟨"OR", "|"⟩ :: ·)
      else if c == '~' then (tokenizeFuel fuel (i + 1) cs2).map (⟨"NOT", "~"⟩ :: ·)
      else if isIdentChar c then
        let run := c :: cs2.takeWhile isIdentChar
        let tok :=
          match KEYWORDS.lookup (String.mk (run.map asciiUpper)) with
          | some kind => Token.mk kind (String.mk run)
          | none => Token.mk "IDENT" (String.mk run)
        (tokenizeFuel fuel (i + run.length) (cs2.dropWhile isIdentChar)).map (tok :: ·)
      else
        .error ⟨unexpectedCharMessage c i⟩

/-- `tokenize(text)` (`parser.py` 50-102), the input as a character list. -/
def tokenize (text : List Char) : Except ParseError (List Token) :=
  tokenizeFuel (text.length + 1) 0 text

/-! ## Rules and forward chaining (`logic_core.py` 138-248) -/


/-- `Rule` of `logic_core.py` lines 138-146. -/
structure Rule where
  id : String
  premise : Formula
  conclusion : Formula
  description : String
deriving DecidableEq, Repr

/-- `Rule.conclusion_atoms()`. -/
def Rule.conclusion_atoms (r : Rule) : Finset String := r.conclusion.atoms

/-- `ForwardStep` of `logic_core.py` lines 181-186. -/
structure ForwardStep where
  step : Nat
  rule_id : String
  inferred : Finset String
  explanation : String
deriving DecidableEq

/-- `ForwardResult` of `logic_core.py` lines 189-193. -/
structure ForwardResult where
  final_facts : Finset String
  steps : List ForwardStep
  contradictions : List (String × String)
deriving DecidableEq

/-- The assignment `{a: (a in facts) for a in rule.premise.atoms()}` built
by `forward_chain` for a rule. Python iterates the set in an unspecified
order; the keys are distinct, so every enumeration denotes the same
mapping, fixed here in sorted order. -/
def premiseAssignment (r : Rule) (facts : Finset String) : List (String × Bool) :=
  (sortedList r.premise.atoms).map (fun a => (a, decide (a ∈ facts)))

/-- `_formula_to_atoms(formula, assignment)` (`logic_core.py` 196-204):
the atoms of `formula` whose forcing to `True` on top of `assignment`
makes `formula` evaluate true. -/
def formulaToAtoms (formula : Formula) (assignment : List (String × Bool)) :
    Finset String :=
  formula.atoms.filter
    (fun a => evaluate formula (dictInsert a true assignment) = true)

/-- `detect_contradictions(facts)` (`logic_core.py` 207-211). -/
def detect_contradictions (facts : Finset String) : List (String × String) :=
  let positives := facts.filter (fun f => ¬ f.startsWith "NOT ")
  let negatives := (facts.filter (fun f => f.startsWith "NOT ")).image
    (fun f => f.drop 4)
  (sortedList (positives ∩ negatives)).map
    (fun c => (c, "Contradiction between " ++ c ++ " and NOT " ++ c))

/-- The explanation sentence built by `forward_chain` when a rule fires. -/
def mkExplanation (counter : Nat) (r : Rule) (newAtoms : Finset String) : String :=
  "Step " ++ toString counter ++ ": " ++ r.id ++ " fired because " ++
    String.intercalate " and " (sortedList r.premise.atoms) ++
    " are True -> inferred " ++ String.intercalate ", " (sortedList newAtoms) ++ "."

/-- One full pass of the `for rule in rules` loop of `forward_chain`
(`logic_core.py` 221-243), returning the working fact set, the step
counter, the accumulated steps, and `fired_any`. -/
def onePass (facts : Finset String) (counter : Nat) (steps : List ForwardStep) :
    List Rule → Finset String × Nat × List ForwardStep × Bool
  | [] => (facts, counter, steps, false)
  | r :: rs =>
    let assignment := premiseAssignment r facts
    if evaluate r.premise assignment then
      let newAtoms := formulaToAtoms r.conclusion assignment \ facts
      if newAtoms = ∅ then onePass facts counter steps rs
      else
        let out := onePass (facts ∪ newAtoms) (counter + 1)
          (steps ++ [⟨counter, r.id, newAtoms, mkExplanation counter r newAtoms⟩]) rs
        (out.1, out.2.1, out.2.2.1, true)
    else onePass facts counter steps rs

/-- Union of the conclusion atoms of a rule list: the finite universe that
bounds the growth of the fact set. -/
def conclUniverse : List Rule → Finset String
  | [] => ∅
  | r :: rs => r.conclusion.atoms ∪ conclUniverse rs

theorem onePass_subset (facts : Finset String) (counter : Nat)
    (steps : List ForwardStep) (rules : List Rule) :
    facts ⊆ (onePass facts counter steps rules).1 := by
  induction rules generalizing facts counter steps with
  | nil => exact Finset.Subset.refl _
  | cons r rs ih =>
    simp only [onePass]
    by_cases h : evaluate r.premise (premiseAssignment r facts) = true
    · rw [if_pos h]
      by_cases h2 : formulaToAtoms r.conclusion (premiseAssignment r facts) \ facts = ∅
      · rw [if_pos h2]; exact ih facts counter steps
      · rw [if_neg h2]
        exact Finset.Subset.trans Finset.subset_union_left (ih _ _ _)
    · rw [if_neg h]; exact ih facts counter steps

theorem onePass_bound (facts : Finset String) (counter : Nat)
    (steps : List ForwardStep) (rules : List Rule) :
    (onePass facts counter steps rules).1 ⊆ facts ∪ conclUniverse rules := by
  induction rules generalizing facts counter steps with
  | nil => exact Finset.subset_union_left
  | cons r rs ih =>
    simp only [onePass]
    have hstep : ∀ f' c' s', f' ⊆ facts ∪ r.conclusion.atoms →
        (onePass f' c' s' rs).1 ⊆ facts ∪ conclUniverse (r :: rs) := by
      intro f' c' s' hf
      refine Finset.Subset.trans (ih f' c' s') ?_
      intro x hx
      rcases Finset.mem_union.1 hx with hx | hx
      · rcases Finset.mem_union.1 (hf hx) with hx | hx
        · exact Finset.mem_union_left _ hx
        · exact Finset.mem_union_right _ (Finset.mem_union_left _ hx)
      · exact Finset.mem_union_right _ (Finset.mem_union_right _ hx)
    by_cases h : evaluate r.premise (premiseAssignment r facts) = true
    · rw [if_pos h]
      by_cases h2 : formulaToAtoms r.conclusion (premiseAssignment r facts) \ facts = ∅
      · rw [if_pos h2]
        exact hstep facts counter steps Finset.subset_union_left
      · rw [if_neg h2]
        refine hstep _ _ _ ?_
        intro x hx
        rcases Finset.mem_union.1 hx with hx | hx
        · exact Finset.mem_union_left _ hx
        · have := Finset.mem_sdiff.1 hx
          exact Finset.mem_union_right _
            (Finset.mem_filter.1 (this.1)).1
    · rw [if_neg h]
      exact hstep facts counter steps Finset.subset_union_left

theorem onePass_fired (facts : Finset String) (counter : Nat)
    (steps : List ForwardStep) (rules : List Rule) :
    (onePass facts counter steps rules).2.2.2 = true →
    facts ⊂ (onePass facts counter steps rules).1 := by
  induction rules generalizing facts counter steps with
  | nil => intro h; exact absurd h (by simp [onePass])
  | cons r rs ih =>
    simp only [onePass]
    by_cases h : evaluate r.premise (premiseAssignment r facts) = true
    · rw [if_pos h]
      by_cases h2 : formulaToAtoms r.conclusion (premiseAssignment r facts) \ facts = ∅
      · rw [if_pos h2]; exact ih facts counter steps
      · rw [if_neg h2]
        intro _
        have hne := Finset.nonempty_of_ne_empty h2
        rcases hne with ⟨a, ha⟩
        have hgrow : facts ⊂ facts ∪
            (formulaToAtoms r.conclusion (premiseAssignment r facts) \ facts) := by
          refine Finset.ssubset_iff_of_subset Finset.subset_union_left |>.2 ?_
          exact ⟨a, Finset.mem_union_right _ ha, (Finset.mem_sdiff.1 ha).2⟩
        exact lt_of_lt_of_le hgrow (onePass_subset _ _ _ _)
    · rw [if_neg h]; exact ih facts counter steps

/-- The `while True` loop of `forward_chain` (`logic_core.py` 219-245):
run full passes until one fires nothing. Terminates because a firing pass
strictly grows the fact set inside the finite universe
`conclUniverse rules ∪ facts`. -/
def fcLoop (rules : List Rule) (facts : Finset String) (counter : Nat)
    (steps : List ForwardStep) : Finset String × Nat × List ForwardStep :=
  if h : (onePass facts counter steps rules).2.2.2 = true then
    fcLoop rules (onePass facts counter steps rules).1
      (onePass facts counter steps rules).2.1
      (onePass facts counter steps rules).2.2.1
  else
    ((onePass facts counter steps rules).1,
      (onePass facts counter steps rules).2.1,
      (onePass facts counter steps rules).2.2.1)
termination_by (conclUniverse rules ∪ facts).card - facts.card
decreasing_by
  have h1 : facts ⊂ (onePass facts counter steps rules).1 :=
    onePass_fired _ _ _ _ h
  have h2 : (onePass facts counter steps rules).1 ⊆ facts ∪ conclUniverse rules :=
    onePass_bound _ _ _ _
  have hcard1 : facts.card < (onePass facts counter steps rules).1.card :=
    Finset.card_lt_card h1
  have heq : conclUniverse rules ∪ (onePass facts counter steps rules).1 =
      conclUniverse rules ∪ facts := by
    apply Finset.Subset.antisymm
    · intro x hx
      rcases Finset.mem_union.1 hx with hx | hx
      · exact Finset.mem_union_left _ hx
      · rcases Finset.mem_union.1 (h2 hx) with hx | hx
        · exact Finset.mem_union_right _ hx
        · exact Finset.mem_union_left _ hx
    · exact Finset.union_subset_union (Finset.Subset.refl _) h1.subset
  have hcard2 : (onePass facts counter steps rules).1.card ≤
      (conclUniverse rules ∪ facts).card := by
    rw [← heq]
    exact Finset.card_le_card Finset.subset_union_right
  rw [heq]
  omega

/-- `forward_chain(initial_facts, rules)` (`logic_core.py` 214-248). -/
def forward_chain (initial_facts : Finset String) (rules : List Rule) :
    ForwardResult :=
  let out := fcLoop rules initial_facts 1 []
  ⟨out.1, out.2.2, detect_contradictions out.1⟩

/-! ## Backward chaining (`logic_core.py` 250-313) -/

/-- `ProofNode` of `logic_core.py` lines 250-256. -/
structure ProofNode where
  goal : String
  rule_id : Option String
  premises : List ProofNode
  succeeded : Bool
  message : String

/-- The `for atom in sorted(rule.premise.atoms())` loop of
`backward_chain`: prove each premise atom in turn, threading the shared
`visited` set through every recursive call, collecting every child node
(the loop does not stop at a failed child) and whether all succeeded.
`recurse` is the recursive entry at one fuel step less. -/
def bcPremises
    (recurse : String → Finset String → Option (ProofNode × Finset String)) :
    List String → Finset String → Option (List ProofNode × Bool × Finset String)
  | [], visited => some ([], true, visited)
  | a :: as, visited => do
    let (node, v') ← recurse a visited
    let (nodes, allOk, v'') ← bcPremises recurse as v'
    pure (node :: nodes, node.succeeded && allOk, v'')

/-- The `for rule in applicable_rules` loop of `backward_chain`: first rule
whose premises all succeed wins; a failed attempt is discarded but its
mutations of the shared `visited` set persist. -/
def bcTryRules
    (recurse : String → Finset String → Option (ProofNode × Finset String))
    (goal : String) :
    List Rule → Finset String → Option (ProofNode × Finset String)
  | [], visited =>
    some (⟨goal, none, [], false,
      "All applicable rules failed to prove this goal."⟩, visited)
  | r :: rs, visited => do
    let (nodes, allOk, v') ← bcPremises recurse (sortedList r.premise.atoms) visited
    if allOk then
      pure (⟨goal, some r.id, nodes, true,
        "Proved " ++ goal ++ " using rule " ++ r.id ++ "."⟩, v')
    else
      bcTryRules recurse goal rs v'

/-- `backward_chain(goal, facts, rules, visited)` (`logic_core.py`
259-313), fuel-indexed: `none` means the fuel bound was hit. The Python
`visited` set is passed by reference and mutated; the embedding threads it
through and returns it alongside the `ProofNode`. -/
def bcFuel : Nat → String → Finset String → List Rule → Finset String →
    Option (ProofNode × Finset String)
  | 0, _, _, _, _ => none
  | n + 1, goal, facts, rules, visited =>
    if goal ∈ facts then
      some (⟨goal, none, [], true, "Given as a fact."⟩, visited)
    else if goal ∈ visited then
      some (⟨goal, none, [], false,
        "Cycle detected while proving this goal."⟩, visited)
    else
      if (rules.filter (fun r => decide (goal ∈ r.conclusion_atoms))).isEmpty then
        some (⟨goal, none, [], false, "No rules conclude this goal."⟩,
          insert goal visited)
      else
        bcTryRules (fun a v => bcFuel n a facts rules v) goal
          (rules.filter (fun r => decide (goal ∈ r.conclusion_atoms)))
          (insert goal visited)

/-- Union of the premise atoms of a rule list: every sub-goal of the
backward-chaining recursion below the root lies in it. -/
def premiseUniverse : List Rule → Finset String
  | [] => ∅
  | r :: rs => r.premise.atoms ∪ premiseUniverse rs

/-- `backward_chain(goal, facts, rules)` with the default empty `visited`.
The fuel exceeds the deepest possible recursion (each recursive descent
inserts a fresh atom of `premiseUniverse rules ∪ {goal}` into `visited`),
so the fallback node is never reached — see `bcFuel_isSome`. -/
def backward_chain (goal : String) (facts : Finset String) (rules : List Rule) :
    ProofNode :=
  ((bcFuel ((premiseUniverse rules ∪ {goal}).card + 1) goal facts rules ∅).map
    (fun p => p.1)).getD ⟨goal, none, [], false, ""⟩

/-- Fuel-indexed version of the `while True` loop: `none` means the fuel
ran out before the fixpoint was reached. -/
def fcFuel (rules : List Rule) : Nat → Finset String → Nat → List ForwardStep →
    Option (Finset String × Nat × List ForwardStep)
  | 0, _, _, _ => none
  | n + 1, facts, counter, steps =>
    if (onePass facts counter steps rules).2.2.2 = true then
      fcFuel rules n (onePass facts counter steps rules).1
        (onePass facts counter steps rules).2.1
        (onePass facts counter steps rules).2.2.1
    else
      some ((onePass facts counter steps rules).1,
        (onePass facts counter steps rules).2.1,
        (onePass facts counter steps rules).2.2.1)

end PDM

namespace PDM

theorem mem_sortedList (s : Finset String) (a : String) :
    a ∈ sortedList s ↔ a ∈ s := by
  rcases s with ⟨val, nd⟩
  induction val using Quot.ind with
  | _ l =>
    show a ∈ List.insertionSort StrLe l ↔ _
    rw [List.Perm.mem_iff (List.perm_insertionSort _ l)]
    exact Iff.rfl

theorem dictGet_nil (b : String) : dictGet [] b = false := rfl

theorem lookup_cons_pair (pk : String) (pv : Bool) (m : List (String × Bool))
    (b : String) :
    (((pk, pv) :: m).lookup b) = if b = pk then some pv else m.lookup b := by
  by_cases h : b = pk
  · subst h; simp [List.lookup_cons]
  · have hb : (b == pk) = false := by simp [h]
    simp [List.lookup_cons, hb, h]

theorem lookup_map_graph (g : String → Bool) (l : List String) (b : String) :
    ((l.map (fun a => (a, g a))).lookup b) = if b ∈ l then some (g b) else none := by
  induction l with
  | nil => rfl
  | cons a as ih =>
    rw [List.map_cons, lookup_cons_pair, ih]
    by_cases h : b = a
    · subst h; simp
    · simp [h]

theorem lookup_replace_ne (k : String) (v : Bool) (m : List (String × Bool))
    (b : String) (hbk : b ≠ k) :
    ((m.map (fun p => if p.1 = k then (k, v) else p)).lookup b) = m.lookup b := by
  induction m with
  | nil => rfl
  | cons p m ih =>
    rcases p with ⟨pk, pv⟩
    by_cases hp : pk = k
    · subst hp
      rw [List.map_cons, if_pos rfl, lookup_cons_pair, lookup_cons_pair,
        if_neg hbk, if_neg hbk, ih]
    · rw [List.map_cons, if_neg hp, lookup_cons_pair, lookup_cons_pair, ih]

theorem lookup_replace_eq (k : String) (v : Bool) (m : List (String × Bool))
    (hk : m.any (fun p => p.1 = k) = true) :
    ((m.map (fun p => if p.1 = k then (k, v) else p)).lookup k) = some v := by
  induction m with
  | nil => simp at hk
  | cons p m ih =>
    rcases p with ⟨pk, pv⟩
    by_cases hp : pk = k
    · subst hp
      rw [List.map_cons, if_pos rfl, lookup_cons_pair, if_pos rfl]
    · simp only [List.any_cons, Bool.or_eq_true, decide_eq_true_eq] at hk
      rcases hk with hk | hk
      · exact absurd hk hp
      · rw [List.map_cons, if_neg hp, lookup_cons_pair,
          if_neg (fun he => hp he.symm)]
        exact ih hk

theorem lookup_append_of_none (m l2 : List (String × Bool)) (b : String)
    (h : m.lookup b = none) : ((m ++ l2).lookup b) = l2.lookup b := by
  induction m with
  | nil => rfl
  | cons p m ih =>
    rcases p with ⟨pk, pv⟩
    rw [lookup_cons_pair] at h
    by_cases hb : b = pk
    · rw [if_pos hb] at h; simp at h
    · rw [if_neg hb] at h
      rw [List.cons_append, lookup_cons_pair, if_neg hb]
      exact ih h

theorem any_eq_false_lookup (m : List (String × Bool)) (k : String)
    (h : m.any (fun p => p.1 = k) = false) : m.lookup k = none := by
  induction m with
  | nil => rfl
  | cons p m ih =>
    rcases p with ⟨pk, pv⟩
    simp only [List.any_cons, Bool.or_eq_false_iff, decide_eq_false_iff_not] at h
    rw [lookup_cons_pair, if_neg (fun he => h.1 he.symm)]
    exact ih h.2

theorem lookup_append_of_some (m l2 : List (String × Bool)) (b : String)
    (w : Bool) (h : m.lookup b = some w) : ((m ++ l2).lookup b) = some w := by
  induction m with
  | nil => simp at h
  | cons p m ih =>
    rcases p with ⟨pk, pv⟩
    rw [lookup_cons_pair] at h
    rw [List.cons_append, lookup_cons_pair]
    by_cases hb : b = pk
    · rw [if_pos hb] at h ⊢; exact h
    · rw [if_neg hb] at h ⊢; exact ih h

/-- Semantics of `dictInsert`: reading key `b` after writing `v` at key `k`
gives `v` at `k` and is unchanged elsewhere. -/
theorem dictGet_dictInsert (k : String) (v : Bool) (m : List (String × Bool))
    (b : String) :
    dictGet (dictInsert k v m) b = if b = k then v else dictGet m b := by
  unfold dictGet dictInsert
  by_cases hc : m.any (fun p => p.1 = k) = true
  · rw [if_pos hc]
    by_cases hb : b = k
    · subst hb; rw [if_pos rfl, lookup_replace_eq _ _ _ hc]; rfl
    · rw [if_neg hb, lookup_replace_ne _ _ _ _ hb]
  · rw [if_neg hc]
    have hnone := any_eq_false_lookup m k (Bool.eq_false_iff.2 hc)
    by_cases hb : b = k
    · subst hb
      rw [if_pos rfl, lookup_append_of_none _ _ _ hnone, lookup_cons_pair,
        if_pos rfl]
      rfl
    · rw [if_neg hb]
      by_cases hfound : m.lookup b = none
      · rw [lookup_append_of_none _ _ _ hfound, hfound, lookup_cons_pair,
          if_neg hb]
        rfl
      · rcases Option.ne_none_iff_exists'.1 hfound with ⟨w, hw⟩
        rw [hw, lookup_append_of_some _ _ _ _ hw]

/-- Semantics of the premise assignment of `forward_chain`: a premise atom
reads as its current fact-set membership, anything else as `false`. -/
theorem dictGet_premiseAssignment (r : Rule) (facts : Finset String) (b : String) :
    dictGet (premiseAssignment r facts) b =
      if b ∈ r.premise.atoms then decide (b ∈ facts) else false := by
  unfold dictGet premiseAssignment
  rw [lookup_map_graph]
  by_cases h : b ∈ sortedList r.premise.atoms
  · rw [if_pos h, if_pos ((mem_sortedList _ _).1 h)]; rfl
  · rw [if_neg h, if_neg (fun hb => h ((mem_sortedList _ _).2 hb))]; rfl

theorem natBits_length (n i : Nat) : (natBits n i).length = n := by
  induction n generalizing i with
  | zero => rfl
  | succ n ih => simp [natBits, ih]

theorem natBits_lt (n i : Nat) (h : i < 2 ^ n) :
    natBits (n + 1) i = false :: natBits n i := by
  induction n generalizing i with
  | zero =>
    interval_cases i
    rfl
  | succ n ih =>
    have hpow : 2 ^ (n + 1) = 2 * 2 ^ n := by ring
    have h2 : i / 2 < 2 ^ n := by omega
    show natBits (n + 1) (i / 2) ++ [i % 2 == 1] = _
    rw [ih (i / 2) h2]
    rfl

theorem natBits_ge (n i : Nat) (h1 : 2 ^ n ≤ i) (h2 : i < 2 ^ (n + 1)) :
    natBits (n + 1) i = true :: natBits n (i - 2 ^ n) := by
  induction n generalizing i with
  | zero =>
    interval_cases i
    rfl
  | succ n ih =>
    have hpow : 2 ^ (n + 1) = 2 * 2 ^ n := by ring
    have hpow2 : 2 ^ (n + 1 + 1) = 2 * 2 ^ (n + 1) := by ring
    have hd1 : 2 ^ n ≤ i / 2 := by omega
    have hd2 : i / 2 < 2 ^ (n + 1) := by omega
    show natBits (n + 1) (i / 2) ++ [i % 2 == 1] = _
    rw [ih (i / 2) hd1 hd2]
    have hq : i / 2 - 2 ^ n = (i - 2 ^ (n + 1)) / 2 := by omega
    have hr : i % 2 = (i - 2 ^ (n + 1)) % 2 := by omega
    show true :: natBits n (i / 2 - 2 ^ n) ++ [i % 2 == 1] =
      true :: (natBits n ((i - 2 ^ (n + 1)) / 2) ++ [(i - 2 ^ (n + 1)) % 2 == 1])
    rw [hq, hr]
    simp

theorem prodBools_eq_range (n : Nat) :
    prodBools n = (List.range (2 ^ n)).map (natBits n) := by
  induction n with
  | zero => rfl
  | succ n ih =>
    have hpow : 2 ^ (n + 1) = 2 ^ n + 2 ^ n := by ring
    rw [hpow, List.range_add, List.map_append]
    have hun : prodBools (n + 1) =
        (prodBools n).map (false :: ·) ++ (prodBools n).map (true :: ·) := by
      simp [prodBools]
    rw [hun, ih, List.map_map, List.map_map, List.map_map]
    congr 1
    · apply List.map_congr_left
      intro i hi
      rw [List.mem_range] at hi
      exact (natBits_lt n i hi).symm
    · apply List.map_congr_left
      intro i hi
      rw [List.mem_range] at hi
      have hge : natBits (n + 1) (2 ^ n + i) = true :: natBits n (2 ^ n + i - 2 ^ n) := by
        apply natBits_ge <;> omega
      have hsub : 2 ^ n + i - 2 ^ n = i := by omega
      rw [hsub] at hge
      simp only [Function.comp]
      rw [hge]

theorem prodBools_nodup (n : Nat) : (prodBools n).Nodup := by
  induction n with
  | zero => simp [prodBools]
  | succ n ih =>
    have hun : prodBools (n + 1) =
        (prodBools n).map (false :: ·) ++ (prodBools n).map (true :: ·) := by
      simp [prodBools]
    rw [hun]
    refine List.Nodup.append ?_ ?_ ?_
    · exact ih.map (fun a b h => by simpa using h)
    · exact ih.map (fun a b h => by simpa using h)
    · intro x hx hy
      rcases List.mem_map.1 hx with ⟨a, _, rfl⟩
      rcases List.mem_map.1 hy with ⟨b, _, hb⟩
      simp at hb

theorem filterMap_ite {α β : Type} (l : List α) (p : α → Bool) (g : α → β) :
    (l.filterMap fun v => if p v then some (g v) else none) = (l.filter p).map g := by
  induction l with
  | nil => rfl
  | cons a l ih =>
    by_cases h : p a <;> simp [List.filterMap_cons, List.filter_cons, h, ih]

/-- C7 (counterexample to the claim as stated): a call that supplies a
`filter_formula` is also a call to `generate_truth_table`, and it can
return fewer than `2^n` rows. Filtering by the formula `A` over the single
working atom `A` keeps one of the two assignments. -/
theorem generate_truth_table_filter_call_fewer_rows :
    (atomList [("F", Formula.Atom "A")] none).length = 1 ∧
    (generate_truth_table [("F", Formula.Atom "A")] none
        (some ("G", Formula.Atom "A"))).length = 1 ∧
    (generate_truth_table [("F", Formula.Atom "A")] none
        (some ("G", Formula.Atom "A"))).length ≠
      2 ^ (atomList [("F", Formula.Atom "A")] none).length := by
  have hA : atomList [("F", Formula.Atom "A")] none = ["A"] := rfl
  refine ⟨by rw [hA]; rfl, ?_, ?_⟩ <;>
    simp [generate_truth_table, hA, prodBools, ttRow, dictInsert, evaluate, dictGet]

/-- C7 (amended: restricted to calls that pass no `filter_formula`): with
`n` the size of the working atom list, the result has exactly `2^n` rows,
the rows are enumerated as a binary counter over the atom list with the
last atom as least-significant bit, each row holding every atom's value
and then the evaluated value of every supplied formula, and the `2^n`
enumerated assignments are pairwise distinct. -/
theorem generate_truth_table_counter_enumeration
    (formulas : List (String × Formula)) (atoms : Option (List String)) :
    generate_truth_table formulas atoms none =
      (List.range (2 ^ (atomList formulas atoms).length)).map
        (fun i => ttRow formulas (atomList formulas atoms)
          (natBits (atomList formulas atoms).length i)) ∧
    (generate_truth_table formulas atoms none).length =
      2 ^ (atomList formulas atoms).length ∧
    ((List.range (2 ^ (atomList formulas atoms).length)).map
        (fun i => (atomList formulas atoms).zip
          (natBits (atomList formulas atoms).length i))).Nodup := by
  set al := atomList formulas atoms with hal
  have hmain : generate_truth_table formulas atoms none =
      (List.range (2 ^ al.length)).map
        (fun i => ttRow formulas al (natBits al.length i)) := by
    show (prodBools al.length).filterMap _ = _
    rw [List.filterMap_congr (g := fun vs => some (ttRow formulas al vs))
      (fun vs _ => rfl)]
    rw [prodBools_eq_range, List.filterMap_map]
    rw [show ((fun vs => some (ttRow formulas al vs)) ∘ natBits al.length) =
      (some ∘ fun i => ttRow formulas al (natBits al.length i)) from rfl]
    rw [List.filterMap_eq_map]
  refine ⟨hmain, by rw [hmain]; simp, ?_⟩
  have h1 : ((List.range (2 ^ al.length)).map (natBits al.length)).Nodup := by
    rw [← prodBools_eq_range]; exact prodBools_nodup al.length
  have h2 : ((List.range (2 ^ al.length)).map
      (fun i => al.zip (natBits al.length i))) =
      (((List.range (2 ^ al.length)).map (natBits al.length)).map
        (fun vs => al.zip vs)) := by
    rw [List.map_map]; rfl
  rw [h2]
  apply List.Nodup.map_on ?_ h1
  intro x hx y hy hxy
  rcases List.mem_map.1 hx with ⟨i, hi, rfl⟩
  rcases List.mem_map.1 hy with ⟨j, hj, rfl⟩
  have lx : (natBits al.length i).length = al.length := natBits_length _ _
  have ly : (natBits al.length j).length = al.length := natBits_length _ _
  have := congrArg (List.map Prod.snd) hxy
  rwa [List.map_snd_zip _ _ (le_of_eq lx), List.map_snd_zip _ _ (le_of_eq ly)] at this

/-- C10: with a `filter_formula` `(fn, ff)` supplied, exactly the
enumerated assignments under which `ff` evaluates false are omitted, and
each surviving row gains the column `fn` set to `True` (via Python dict
insertion: overwrite in place if the key already exists, else append). -/
theorem generate_truth_table_filter_semantics
    (formulas : List (String × Formula)) (atoms : Option (List String))
    (fn : String) (ff : Formula) :
    generate_truth_table formulas atoms (some (fn, ff)) =
      ((((List.range (2 ^ (atomList formulas atoms).length)).map
            (natBits (atomList formulas atoms).length)).filter
          (fun vs => evaluate ff ((atomList formulas atoms).zip vs))).map
        (fun vs => dictInsert fn true (ttRow formulas (atomList formulas atoms) vs))) := by
  set al := atomList formulas atoms with hal
  show (prodBools al.length).filterMap _ = _
  rw [prodBools_eq_range]
  exact filterMap_ite _ _ _

/-- C8: `evaluate` is total over the seven node kinds and matches the
reference semantics: an `Atom` takes its value in the assignment and
defaults to `false` when the name is absent; `Not` is negation; `And`/`Or`
are conjunction/disjunction; `Xor` is exclusive-or; `Implies l r` is
`(not l) or r`; `Iff l r` is `l == r`. -/
theorem evaluate_semantics (m : List (String × Bool)) :
    (∀ n : String, evaluate (.Atom n) m =
        match m.lookup n with
        | some b => b
        | none => false) ∧
    (∀ f : Formula, evaluate (.Not f) m = !(evaluate f m)) ∧
    (∀ l r : Formula, evaluate (.And l r) m = (evaluate l m && evaluate r m)) ∧
    (∀ l r : Formula, evaluate (.Or l r) m = (evaluate l m || evaluate r m)) ∧
    (∀ l r : Formula, evaluate (.Xor l r) m = xor (evaluate l m) (evaluate r m)) ∧
    (∀ l r : Formula, evaluate (.Implies l r) m = (!(evaluate l m) || evaluate r m)) ∧
    (∀ l r : Formula, evaluate (.Iff l r) m = (evaluate l m == evaluate r m)) := by
  refine ⟨fun n => ?_, fun f => rfl, fun l r => rfl, fun l r => rfl,
    fun l r => rfl, fun l r => rfl, fun l r => rfl⟩
  show dictGet m n = _
  unfold dictGet
  cases m.lookup n <;> simp [Option.getD]

/-! ## Lemmas about the forward-chaining loop -/

theorem onePass_measure_lt (rules : List Rule) (facts : Finset String)
    (counter : Nat) (steps : List ForwardStep)
    (h : (onePass facts counter steps rules).2.2.2 = true) :
    (conclUniverse rules ∪ (onePass facts counter steps rules).1).card -
      (onePass facts counter steps rules).1.card <
    (conclUniverse rules ∪ facts).card - facts.card := by
  have h1 := onePass_fired facts counter steps rules h
  have h2 := onePass_bound facts counter steps rules
  have hcard1 := Finset.card_lt_card h1
  have heq : conclUniverse rules ∪ (onePass facts counter steps rules).1 =
      conclUniverse rules ∪ facts := by
    apply Finset.Subset.antisymm
    · intro x hx
      rcases Finset.mem_union.1 hx with hx | hx
      · exact Finset.mem_union_left _ hx
      · rcases Finset.mem_union.1 (h2 hx) with hx | hx
        · exact Finset.mem_union_right _ hx
        · exact Finset.mem_union_left _ hx
    · exact Finset.union_subset_union (Finset.Subset.refl _) h1.subset
  have hcard2 : (onePass facts counter steps rules).1.card ≤
      (conclUniverse rules ∪ facts).card := by
    rw [← heq]; exact Finset.card_le_card Finset.subset_union_right
  rw [heq]
  omega

theorem fcLoop_subset (rules : List Rule) (N : Nat) :
    ∀ facts counter steps,
      (conclUniverse rules ∪ facts).card - facts.card ≤ N →
      facts ⊆ (fcLoop rules facts counter steps).1 := by
  induction N with
  | zero =>
    intro facts counter steps hN
    rw [fcLoop]
    by_cases h : (onePass facts counter steps rules).2.2.2 = true
    · exact absurd (onePass_measure_lt rules facts counter steps h) (by omega)
    · rw [dif_neg h]
      exact onePass_subset facts counter steps rules
  | succ N ih =>
    intro facts counter steps hN
    rw [fcLoop]
    by_cases h : (onePass facts counter steps rules).2.2.2 = true
    · rw [dif_pos h]
      refine (onePass_subset facts counter steps rules).trans (ih _ _ _ ?_)
      have := onePass_measure_lt rules facts counter steps h
      omega
    · rw [dif_neg h]
      exact onePass_subset facts counter steps rules

theorem fcLoop_bound (rules : List Rule) (N : Nat) :
    ∀ facts counter steps,
      (conclUniverse rules ∪ facts).card - facts.card ≤ N →
      (fcLoop rules facts counter steps).1 ⊆ facts ∪ conclUniverse rules := by
  induction N with
  | zero =>
    intro facts counter steps hN
    rw [fcLoop]
    by_cases h : (onePass facts counter steps rules).2.2.2 = true
    · exact absurd (onePass_measure_lt rules facts counter steps h) (by omega)
    · rw [dif_neg h]
      exact onePass_bound facts counter steps rules
  | succ N ih =>
    intro facts counter steps hN
    rw [fcLoop]
    by_cases h : (onePass facts counter steps rules).2.2.2 = true
    · rw [dif_pos h]
      have hm := onePass_measure_lt rules facts counter steps h
      refine (ih _ _ _ (by omega)).trans ?_
      intro x hx
      rcases Finset.mem_union.1 hx with hx | hx
      · exact onePass_bound facts counter steps rules hx
      · exact Finset.mem_union_right _ hx
    · rw [dif_neg h]
      exact onePass_bound facts counter steps rules

theorem fcFuel_eq_fcLoop (rules : List Rule) (n : Nat) :
    ∀ facts counter steps,
      (conclUniverse rules ∪ facts).card - facts.card < n →
      fcFuel rules n facts counter steps = some (fcLoop rules facts counter steps) := by
  induction n with
  | zero => intro facts counter steps h; omega
  | succ n ih =>
    intro facts counter steps hN
    rw [fcLoop]
    by_cases h : (onePass facts counter steps rules).2.2.2 = true
    · rw [dif_pos h]
      show (if (onePass facts counter steps rules).2.2.2 = true then _ else _) = _
      rw [if_pos h]
      have := onePass_measure_lt rules facts counter steps h
      exact ih _ _ _ (by omega)
    · rw [dif_neg h]
      show (if (onePass facts counter steps rules).2.2.2 = true then _ else _) = _
      rw [if_neg h]

/-- C5: `forward_chain` terminates for every finite initial fact set and
rule list. The fuelled rendering of the `while True` loop reaches the
fixpoint of `fcLoop` within `(conclUniverse rules).card + 1` passes;
moreover a pass never shrinks the working fact set, and a pass that fired
strictly enlarged it with atoms drawn from the finite universe of
conclusion atoms (a pass that fires nothing ends the loop by
construction of `fcLoop`). -/
theorem forward_chain_terminates (initial_facts : Finset String) (rules : List Rule) :
    fcFuel rules ((conclUniverse rules).card + 1) initial_facts 1 [] =
      some (fcLoop rules initial_facts 1 []) ∧
    (∀ facts counter steps, facts ⊆ (onePass facts counter steps rules).1) ∧
    (∀ facts counter steps, (onePass facts counter steps rules).2.2.2 = true →
      facts ⊂ (onePass facts counter steps rules).1 ∧
      (onePass facts counter steps rules).1 ⊆ facts ∪ conclUniverse rules) := by
  refine ⟨?_, fun facts c s => onePass_subset facts c s rules,
    fun facts c s h => ⟨onePass_fired facts c s rules h, onePass_bound facts c s rules⟩⟩
  apply fcFuel_eq_fcLoop
  have h1 : (conclUniverse rules ∪ initial_facts).card ≤
      (conclUniverse rules).card + initial_facts.card := Finset.card_union_le _ _
  omega

/-- Witness for C5 at a concrete input: with rule `A -> B` and fact `A`
the single pass fires, strictly growing the fact set inside the universe. -/
theorem forward_chain_terminates_witness :
    ({"A"} : Finset String) ⊂
      (onePass {"A"} 1 [] [⟨"R1", Formula.Atom "A", Formula.Atom "B", "d"⟩]).1 ∧
    (onePass {"A"} 1 [] [⟨"R1", Formula.Atom "A", Formula.Atom "B", "d"⟩]).1 ⊆
      {"A"} ∪ conclUniverse [⟨"R1", Formula.Atom "A", Formula.Atom "B", "d"⟩] :=
  (forward_chain_terminates {"A"}
    [⟨"R1", Formula.Atom "A", Formula.Atom "B", "d"⟩]).2.2 {"A"} 1 [] (by decide)

/-- C6: the final fact set of a forward-chaining run is a superset of the
initial facts, and the run is deterministic: equal inputs yield equal
final fact sets (the embedding is a pure function of its inputs, so the
second part is definitional). -/
theorem forward_chain_monotone_deterministic (i1 i2 : Finset String)
    (r1 r2 : List Rule) (hi : i1 = i2) (hr : r1 = r2) :
    i1 ⊆ (forward_chain i1 r1).final_facts ∧
    (forward_chain i1 r1).final_facts = (forward_chain i2 r2).final_facts := by
  subst hi
  subst hr
  refine ⟨?_, rfl⟩
  show i1 ⊆ (fcLoop r1 i1 1 []).1
  exact fcLoop_subset r1 ((conclUniverse r1 ∪ i1).card - i1.card) i1 1 [] le_rfl

/-- Witness for C6 at a concrete input. -/
theorem forward_chain_monotone_deterministic_witness :
    ({"A"} : Finset String) ⊆
      (forward_chain {"A"} [⟨"R1", Formula.Atom "A", Formula.Atom "B", "d"⟩]).final_facts ∧
    (forward_chain {"A"} [⟨"R1", Formula.Atom "A", Formula.Atom "B", "d"⟩]).final_facts =
      (forward_chain {"A"} [⟨"R1", Formula.Atom "A", Formula.Atom "B", "d"⟩]).final_facts :=
  forward_chain_monotone_deterministic {"A"} {"A"}
    [⟨"R1", Formula.Atom "A", Formula.Atom "B", "d"⟩]
    [⟨"R1", Formula.Atom "A", Formula.Atom "B", "d"⟩] rfl rfl

/-- C3 (amended): inside `forward_chain`, when a rule's premise holds, the
newly contributed atoms are exactly the conclusion atoms `a` not already
in the fact set such that the conclusion evaluates true with `a` forced
true on top of the assignment restricted to the rule's **premise** atoms
(each mapped to its current fact membership; every atom outside the
premise and different from `a` reads as false) — not on top of the whole
current fact set. -/
theorem forward_chain_contribution (r : Rule) (facts : Finset String) (a : String) :
    (a ∈ formulaToAtoms r.conclusion (premiseAssignment r facts) \ facts ↔
      a ∈ r.conclusion.atoms ∧ a ∉ facts ∧
        evaluate r.conclusion (dictInsert a true (premiseAssignment r facts)) = true) ∧
    (∀ b, dictGet (dictInsert a true (premiseAssignment r facts)) b =
      if b = a then true
      else if b ∈ r.premise.atoms then decide (b ∈ facts) else false) := by
  constructor
  · simp only [Finset.mem_sdiff, formulaToAtoms, Finset.mem_filter]
    tauto
  · intro b
    rw [dictGet_dictInsert, dictGet_premiseAssignment]

/-- The contribution rule in the words of the spec (claim C3): an atom of
the conclusion is contributed iff it is not yet a fact and the conclusion
evaluates true under the assignment that forces that atom true while every
currently-known fact atom stays true and all remaining atoms are false. -/
def specContribution (facts : Finset String) (conclusion : Formula) : Finset String :=
  conclusion.atoms.filter (fun a => a ∉ facts ∧
    evaluate conclusion
      (dictInsert a true ((sortedList facts).map (fun b => (b, true)))) = true)

/-- A rule whose conclusion `X XOR Y` separates the two contribution rules
when `X` is already a fact but is not a premise atom. -/
def ruleXor : Rule :=
  ⟨"R1", Formula.Atom "A", Formula.Xor (Formula.Atom "X") (Formula.Atom "Y"), "d"⟩

/-- C3 (counterexample to the claim as stated): with facts `{A, X}` and
rule `A -> (X XOR Y)`, the code contributes `Y` — its test assignment is
restricted to the premise atom `A`, so `X` reads as false and `X XOR Y`
comes out true — whereas the claim's whole-fact-set test contributes
nothing (`X XOR Y` is false with both `X` and `Y` true). `forward_chain`
indeed ends with `Y` derived. -/
theorem forward_chain_contribution_counterexample :
    formulaToAtoms ruleXor.conclusion (premiseAssignment ruleXor {"A", "X"}) \
      ({"A", "X"} : Finset String) = {"Y"} ∧
    specContribution {"A", "X"} ruleXor.conclusion = ∅ ∧
    (forward_chain {"A", "X"} [ruleXor]).final_facts = {"A", "X", "Y"} := by
  refine ⟨by decide, by decide, ?_⟩
  have h1 : fcFuel [ruleXor] 2 {"A", "X"} 1 [] =
      some (fcLoop [ruleXor] {"A", "X"} 1 []) := by
    apply fcFuel_eq_fcLoop
    decide
  have h2 : (fcFuel [ruleXor] 2 {"A", "X"} 1 []).map (fun o => o.1) =
      some ({"A", "X", "Y"} : Finset String) := by decide
  rw [h1] at h2
  simp only [Option.map_some'] at h2
  exact Option.some.inj h2

/-! ## Order (in)dependence of the forward-chaining fixpoint (claim C1) -/

/-- Formulas built from atoms, conjunction and disjunction only. On this
fragment premise evaluation and the contribution computation are monotone
in the fact set. -/
def positive : Formula → Bool
  | .Atom _ => true
  | .And l r => positive l && positive r
  | .Or l r => positive l && positive r
  | _ => false

/-- Rule `NOT A -> B`: fires only while `A` is underivable. -/
def ruleNotA : Rule := ⟨"R1", Formula.Not (Formula.Atom "A"), Formula.Atom "B", "d"⟩

/-- Rule `NOT C -> A`: derives `A` from the empty fact set. -/
def ruleNotC : Rule := ⟨"R2", Formula.Not (Formula.Atom "C"), Formula.Atom "A", "d"⟩

theorem forward_chain_facts_eq_fcLoop (init : Finset String) (rules : List Rule)
    (n : Nat) (hn : (conclUniverse rules ∪ init).card - init.card < n) :
    (fcFuel rules n init 1 []).map (fun o => o.1) =
      some (forward_chain init rules).final_facts := by
  rw [fcFuel_eq_fcLoop rules n init 1 [] hn]
  rfl

/-- C1 (counterexample to the claim as stated): swapping the two rules
`NOT A -> B` and `NOT C -> A` changes the final fact set. Run first,
`NOT A -> B` fires from the empty fact set and `B` is derived; run after
`NOT C -> A` has derived `A`, it never fires. -/
theorem forward_chain_order_dependent_counterexample :
    List.Perm [ruleNotA, ruleNotC] [ruleNotC, ruleNotA] ∧
    (forward_chain ∅ [ruleNotA, ruleNotC]).final_facts = {"B", "A"} ∧
    (forward_chain ∅ [ruleNotC, ruleNotA]).final_facts = {"A"} ∧
    (forward_chain ∅ [ruleNotA, ruleNotC]).final_facts ≠
      (forward_chain ∅ [ruleNotC, ruleNotA]).final_facts := by
  have e1 : (forward_chain ∅ [ruleNotA, ruleNotC]).final_facts = {"B", "A"} := by
    have h1 := forward_chain_facts_eq_fcLoop ∅ [ruleNotA, ruleNotC] 3 (by decide)
    have h2 : (fcFuel [ruleNotA, ruleNotC] 3 ∅ 1 []).map (fun o => o.1) =
        some ({"B", "A"} : Finset String) := by decide
    rw [h1] at h2
    exact Option.some.inj h2
  have e2 : (forward_chain ∅ [ruleNotC, ruleNotA]).final_facts = {"A"} := by
    have h1 := forward_chain_facts_eq_fcLoop ∅ [ruleNotC, ruleNotA] 3 (by decide)
    have h2 : (fcFuel [ruleNotC, ruleNotA] 3 ∅ 1 []).map (fun o => o.1) =
        some ({"A"} : Finset String) := by decide
    rw [h1] at h2
    exact Option.some.inj h2
  refine ⟨by decide, e1, e2, ?_⟩
  rw [e1, e2]
  decide

/-- Monotonicity of `evaluate` on positive formulas, for assignments that
are pointwise larger. -/
theorem evaluate_mono (f : Formula) (m1 m2 : List (String × Bool))
    (hpos : positive f = true)
    (h : ∀ b, dictGet m1 b = true → dictGet m2 b = true) :
    evaluate f m1 = true → evaluate f m2 = true := by
  induction f with
  | Atom n => exact h n
  | Not f ihf => simp [positive] at hpos
  | And l r ihl ihr =>
    simp only [positive, Bool.and_eq_true] at hpos
    simp only [evaluate, Bool.and_eq_true]
    exact fun hlr => ⟨ihl hpos.1 hlr.1, ihr hpos.2 hlr.2⟩
  | Or l r ihl ihr =>
    simp only [positive, Bool.and_eq_true] at hpos
    simp only [evaluate, Bool.or_eq_true]
    rintro (hl | hr)
    · exact Or.inl (ihl hpos.1 hl)
    · exact Or.inr (ihr hpos.2 hr)
  | Xor l r ihl ihr => simp [positive] at hpos
  | Implies l r ihl ihr => simp [positive] at hpos
  | Iff l r ihl ihr => simp [positive] at hpos

theorem premiseAssignment_mono (r : Rule) (S T : Finset String) (hST : S ⊆ T)
    (b : String) (h : dictGet (premiseAssignment r S) b = true) :
    dictGet (premiseAssignment r T) b = true := by
  rw [dictGet_premiseAssignment] at h ⊢
  by_cases hb : b ∈ r.premise.atoms
  · rw [if_pos hb] at h ⊢
    simp only [decide_eq_true_eq] at h ⊢
    exact hST h
  · rw [if_neg hb] at h
    exact absurd h (by simp)

theorem premiseHolds_mono (r : Rule) (S T : Finset String)
    (hpos : positive r.premise = true) (hST : S ⊆ T)
    (h : evaluate r.premise (premiseAssignment r S) = true) :
    evaluate r.premise (premiseAssignment r T) = true :=
  evaluate_mono r.premise _ _ hpos (premiseAssignment_mono r S T hST) h

theorem formulaToAtoms_mono (r : Rule) (S T : Finset String)
    (hpos : positive r.conclusion = true) (hST : S ⊆ T) :
    formulaToAtoms r.conclusion (premiseAssignment r S) ⊆
      formulaToAtoms r.conclusion (premiseAssignment r T) := by
  intro a ha
  rw [formulaToAtoms, Finset.mem_filter] at ha ⊢
  refine ⟨ha.1, ?_⟩
  refine evaluate_mono r.conclusion _ _ hpos ?_ ha.2
  intro b hb
  rw [dictGet_dictInsert] at hb ⊢
  by_cases hba : b = a
  · rw [if_pos hba]
  · rw [if_neg hba] at hb ⊢
    exact premiseAssignment_mono r S T hST b hb

/-- A fact set closed under every rule of the list: no rule whose premise
holds can contribute a new atom. This is exactly the state in which a full
pass of `forward_chain` fires nothing. -/
def RuleClosed (rules : List Rule) (S : Finset String) : Prop :=
  ∀ r ∈ rules, evaluate r.premise (premiseAssignment r S) = true →
    formulaToAtoms r.conclusion (premiseAssignment r S) ⊆ S

theorem onePass_not_fired (facts : Finset String) (counter : Nat)
    (steps : List ForwardStep) (rules : List Rule)
    (h : (onePass facts counter steps rules).2.2.2 = false) :
    (onePass facts counter steps rules).1 = facts ∧ RuleClosed rules facts := by
  induction rules generalizing counter steps with
  | nil => exact ⟨rfl, fun r hr => absurd hr (List.not_mem_nil r)⟩
  | cons r rs ih =>
    simp only [onePass] at h ⊢
    by_cases hp : evaluate r.premise (premiseAssignment r facts) = true
    · rw [if_pos hp] at h ⊢
      by_cases h2 : formulaToAtoms r.conclusion (premiseAssignment r facts) \ facts = ∅
      · rw [if_pos h2] at h ⊢
        rcases ih counter steps h with ⟨hfix, hclosed⟩
        refine ⟨hfix, fun r' hr' => ?_⟩
        rcases List.mem_cons.1 hr' with hr' | hr'
        · subst hr'
          intro _
          intro x hx
          by_contra hxf
          exact absurd (Finset.eq_empty_iff_forall_not_mem.1 h2 x)
            (fun hc => hc (Finset.mem_sdiff.2 ⟨hx, hxf⟩))
        · exact hclosed r' hr'
      · rw [if_neg h2] at h
        simp at h
    · rw [if_neg hp] at h ⊢
      rcases ih counter steps h with ⟨hfix, hclosed⟩
      refine ⟨hfix, fun r' hr' => ?_⟩
      rcases List.mem_cons.1 hr' with hr' | hr'
      · subst hr'
        intro hcontra
        exact absurd hcontra hp
      · exact hclosed r' hr'

theorem fcLoop_closed (rules : List Rule) (N : Nat) :
    ∀ facts counter steps,
      (conclUniverse rules ∪ facts).card - facts.card ≤ N →
      RuleClosed rules (fcLoop rules facts counter steps).1 := by
  induction N with
  | zero =>
    intro facts counter steps hN
    rw [fcLoop]
    by_cases h : (onePass facts counter steps rules).2.2.2 = true
    · exact absurd (onePass_measure_lt rules facts counter steps h) (by omega)
    · rw [dif_neg h]
      have := onePass_not_fired facts counter steps rules (Bool.eq_false_iff.2 h)
      show RuleClosed rules (onePass facts counter steps rules).1
      rw [this.1]
      exact this.2
  | succ N ih =>
    intro facts counter steps hN
    rw [fcLoop]
    by_cases h : (onePass facts counter steps rules).2.2.2 = true
    · rw [dif_pos h]
      have := onePass_measure_lt rules facts counter steps h
      exact ih _ _ _ (by omega)
    · rw [dif_neg h]
      have := onePass_not_fired facts counter steps rules (Bool.eq_false_iff.2 h)
      show RuleClosed rules (onePass facts counter steps rules).1
      rw [this.1]
      exact this.2

theorem onePass_below_closed (rules sub : List Rule) (T : Finset String)
    (hsub : ∀ r ∈ sub, r ∈ rules)
    (hpos : ∀ r ∈ rules, positive r.premise = true ∧ positive r.conclusion = true)
    (hT : RuleClosed rules T) :
    ∀ facts counter steps, facts ⊆ T → (onePass facts counter steps sub).1 ⊆ T := by
  induction sub with
  | nil => intro facts counter steps hf; exact hf
  | cons r rs ih =>
    intro facts counter steps hf
    have hr : r ∈ rules := hsub r (List.mem_cons_self r rs)
    have hrs : ∀ r' ∈ rs, r' ∈ rules :=
      fun r' hr' => hsub r' (List.mem_cons_of_mem r hr')
    simp only [onePass]
    by_cases hp : evaluate r.premise (premiseAssignment r facts) = true
    · rw [if_pos hp]
      by_cases h2 : formulaToAtoms r.conclusion (premiseAssignment r facts) \ facts = ∅
      · rw [if_pos h2]
        exact ih hrs facts counter steps hf
      · rw [if_neg h2]
        have hpT : evaluate r.premise (premiseAssignment r T) = true :=
          premiseHolds_mono r facts T (hpos r hr).1 hf hp
        have hcT : formulaToAtoms r.conclusion (premiseAssignment r facts) ⊆ T :=
          (formulaToAtoms_mono r facts T (hpos r hr).2 hf).trans (hT r hr hpT)
        have hunion : facts ∪
            (formulaToAtoms r.conclusion (premiseAssignment r facts) \ facts) ⊆ T := by
          intro x hx
          rcases Finset.mem_union.1 hx with hx | hx
          · exact hf hx
          · exact hcT (Finset.mem_sdiff.1 hx).1
        exact ih hrs _ _ _ hunion
    · rw [if_neg hp]
      exact ih hrs facts counter steps hf

theorem fcLoop_below_closed (rules : List Rule) (T : Finset String)
    (hpos : ∀ r ∈ rules, positive r.premise = true ∧ positive r.conclusion = true)
    (hT : RuleClosed rules T) (N : Nat) :
    ∀ facts counter steps,
      (conclUniverse rules ∪ facts).card - facts.card ≤ N →
      facts ⊆ T → (fcLoop rules facts counter steps).1 ⊆ T := by
  induction N with
  | zero =>
    intro facts counter steps hN hf
    rw [fcLoop]
    by_cases h : (onePass facts counter steps rules).2.2.2 = true
    · exact absurd (onePass_measure_lt rules facts counter steps h) (by omega)
    · rw [dif_neg h]
      exact onePass_below_closed rules rules T (fun r hr => hr) hpos hT
        facts counter steps hf
  | succ N ih =>
    intro facts counter steps hN hf
    rw [fcLoop]
    by_cases h : (onePass facts counter steps rules).2.2.2 = true
    · rw [dif_pos h]
      have hm := onePass_measure_lt rules facts counter steps h
      exact ih _ _ _ (by omega)
        (onePass_below_closed rules rules T (fun r hr => hr) hpos hT
          facts counter steps hf)
    · rw [dif_neg h]
      exact onePass_below_closed rules rules T (fun r hr => hr) hpos hT
        facts counter steps hf

/-- C1 (amended): for rule lists whose premises and conclusions use only
atoms, `AND` and `OR` (the monotone fragment — the counterexample uses a
`NOT` premise), the final fact set of `forward_chain` is the same for
every permutation of the rules. -/
theorem forward_chain_order_independent (init : Finset String)
    (rules1 rules2 : List Rule) (hperm : List.Perm rules1 rules2)
    (hpos : ∀ r ∈ rules1, positive r.premise = true ∧ positive r.conclusion = true) :
    (forward_chain init rules1).final_facts = (forward_chain init rules2).final_facts := by
  have hpos2 : ∀ r ∈ rules2, positive r.premise = true ∧ positive r.conclusion = true :=
    fun r hr => hpos r (hperm.mem_iff.2 hr)
  have hclosed1 : RuleClosed rules1 (forward_chain init rules1).final_facts := by
    show RuleClosed rules1 (fcLoop rules1 init 1 []).1
    exact fcLoop_closed rules1 _ init 1 [] le_rfl
  have hclosed2 : RuleClosed rules2 (forward_chain init rules2).final_facts := by
    show RuleClosed rules2 (fcLoop rules2 init 1 []).1
    exact fcLoop_closed rules2 _ init 1 [] le_rfl
  have hclosed1' : RuleClosed rules2 (forward_chain init rules1).final_facts :=
    fun r hr => hclosed1 r (hperm.mem_iff.2 hr)
  have hclosed2' : RuleClosed rules1 (forward_chain init rules2).final_facts :=
    fun r hr => hclosed2 r (hperm.mem_iff.1 hr)
  have hsub1 : init ⊆ (forward_chain init rules1).final_facts :=
    fcLoop_subset rules1 _ init 1 [] le_rfl
  have hsub2 : init ⊆ (forward_chain init rules2).final_facts :=
    fcLoop_subset rules2 _ init 1 [] le_rfl
  apply Finset.Subset.antisymm
  · exact fcLoop_below_closed rules1 _ hpos hclosed2' _ init 1 [] le_rfl hsub2
  · exact fcLoop_below_closed rules2 _ hpos2 hclosed1' _ init 1 [] le_rfl hsub1

/-! ## Lemmas about the backward-chaining search (claim C4) -/

theorem bcPremises_grow
    (recurse : String → Finset String → Option (ProofNode × Finset String))
    (hgrow : ∀ a v p v', recurse a v = some (p, v') → v ⊆ v') :
    ∀ atoms v ns ok v', bcPremises recurse atoms v = some (ns, ok, v') → v ⊆ v' := by
  intro atoms
  induction atoms with
  | nil =>
    intro v ns ok v' h
    simp only [bcPremises, Option.some.injEq, Prod.mk.injEq] at h
    rw [← h.2.2]
  | cons a as ih =>
    intro v ns ok v' h
    simp only [bcPremises, Option.bind_eq_bind] at h
    rcases hrec : recurse a v with _ | ⟨node, v1⟩ <;> rw [hrec] at h
    · simp at h
    · simp only [Option.some_bind] at h
      rcases hrest : bcPremises recurse as v1 with _ | ⟨ns1, ok1, v2⟩ <;>
        rw [hrest] at h
      · simp at h
      · simp only [Option.some_bind, Option.pure_def, Option.some.injEq,
          Prod.mk.injEq] at h
        rw [← h.2.2]
        exact (hgrow a v node v1 hrec).trans (ih v1 ns1 ok1 v2 hrest)

theorem bcTryRules_grow
    (recurse : String → Finset String → Option (ProofNode × Finset String))
    (hgrow : ∀ a v p v', recurse a v = some (p, v') → v ⊆ v') (goal : String) :
    ∀ rs v p v', bcTryRules recurse goal rs v = some (p, v') → v ⊆ v' := by
  intro rs
  induction rs with
  | nil =>
    intro v p v' h
    simp only [bcTryRules, Option.some.injEq, Prod.mk.injEq] at h
    rw [← h.2]
  | cons r rs ih =>
    intro v p v' h
    simp only [bcTryRules, Option.bind_eq_bind] at h
    rcases hprem : bcPremises recurse (sortedList r.premise.atoms) v with
      _ | ⟨ns, ok, v1⟩ <;> rw [hprem] at h
    · simp at h
    · simp only [Option.some_bind] at h
      have hv : v ⊆ v1 := bcPremises_grow recurse hgrow _ v ns ok v1 hprem
      by_cases hok : ok = true
      · rw [if_pos hok] at h
        simp only [Option.pure_def, Option.some.injEq, Prod.mk.injEq] at h
        rw [← h.2]
        exact hv
      · rw [if_neg hok] at h
        exact hv.trans (ih v1 p v' h)

theorem bcFuel_grow (facts : Finset String) (rules : List Rule) :
    ∀ n goal visited p v',
      bcFuel n goal facts rules visited = some (p, v') → visited ⊆ v' := by
  intro n
  induction n with
  | zero => intro goal visited p v' h; simp [bcFuel] at h
  | succ n ih =>
    intro goal visited p v' h
    simp only [bcFuel] at h
    by_cases hf : goal ∈ facts
    · rw [if_pos hf] at h
      simp only [Option.some.injEq, Prod.mk.injEq] at h
      rw [← h.2]
    · rw [if_neg hf] at h
      by_cases hv : goal ∈ visited
      · rw [if_pos hv] at h
        simp only [Option.some.injEq, Prod.mk.injEq] at h
        rw [← h.2]
      · rw [if_neg hv] at h
        by_cases he :
            (rules.filter (fun r => decide (goal ∈ r.conclusion_atoms))).isEmpty = true
        · rw [if_pos he] at h
          simp only [Option.some.injEq, Prod.mk.injEq] at h
          rw [← h.2]
          exact Finset.subset_insert _ _
        · rw [if_neg he] at h
          exact (Finset.subset_insert goal visited).trans
            (bcTryRules_grow _ (fun a v p v' hh => ih a v p v' hh) goal _ _ p v' h)

theorem bcTryRules_message
    (recurse : String → Finset String → Option (ProofNode × Finset String))
    (goal : String) :
    ∀ rs v p v', bcTryRules recurse goal rs v = some (p, v') →
      p.message = "All applicable rules failed to prove this goal." ∨
      ∃ rid, p.message = "Proved " ++ goal ++ " using rule " ++ rid ++ "." := by
  intro rs
  induction rs with
  | nil =>
    intro v p v' h
    simp only [bcTryRules, Option.some.injEq, Prod.mk.injEq] at h
    left
    rw [← h.1]
  | cons r rs ih =>
    intro v p v' h
    simp only [bcTryRules, Option.bind_eq_bind] at h
    rcases hprem : bcPremises recurse (sortedList r.premise.atoms) v with
      _ | ⟨ns, ok, v1⟩ <;> rw [hprem] at h
    · simp at h
    · simp only [Option.some_bind] at h
      by_cases hok : ok = true
      · rw [if_pos hok] at h
        simp only [Option.pure_def, Option.some.injEq, Prod.mk.injEq] at h
        right
        exact ⟨r.id, by rw [← h.1]⟩
      · rw [if_neg hok] at h
        exact ih v1 p v' h

theorem proved_message_ne_cycle (goal rid : String) :
    ("Proved " ++ goal ++ " using rule " ++ rid ++ "." : String) ≠
      "Cycle detected while proving this goal." := by
  intro h
  have hd := congrArg (fun s => s.data.head?) h
  cases goal with | mk gd =>
  cases rid with | mk idd =>
  simp [String.data_append] at hd

/-- C4 (amended): a call of the backward-chaining recursion answers its
goal with the cycle-detected failure exactly when the goal is not a given
fact and is already in the shared `visited` set at entry — the set
accumulated over the whole search so far, including completed and
abandoned sibling branches, not merely the current recursion path. -/
theorem backward_chain_cycle_iff (n : Nat) (goal : String) (facts : Finset String)
    (rules : List Rule) (visited : Finset String) (node : ProofNode)
    (v' : Finset String)
    (h : bcFuel (n + 1) goal facts rules visited = some (node, v')) :
    node.message = "Cycle detected while proving this goal." ↔
      goal ∉ facts ∧ goal ∈ visited := by
  simp only [bcFuel] at h
  by_cases hf : goal ∈ facts
  · rw [if_pos hf] at h
    simp only [Option.some.injEq, Prod.mk.injEq] at h
    rw [← h.1]
    constructor
    · intro hmsg
      simp at hmsg
    · intro hc
      exact absurd hf hc.1
  · rw [if_neg hf] at h
    by_cases hv : goal ∈ visited
    · rw [if_pos hv] at h
      simp only [Option.some.injEq, Prod.mk.injEq] at h
      rw [← h.1]
      simp [hf, hv]
    · rw [if_neg hv] at h
      have hne : node.message ≠ "Cycle detected while proving this goal." := by
        by_cases he :
            (rules.filter (fun r => decide (goal ∈ r.conclusion_atoms))).isEmpty = true
        · rw [if_pos he] at h
          simp only [Option.some.injEq, Prod.mk.injEq] at h
          rw [← h.1]
          intro hmsg
          simp at hmsg
        · rw [if_neg he] at h
          rcases bcTryRules_message _ goal _ _ node v' h with hmsg | ⟨rid, hmsg⟩
          · rw [hmsg]; decide
          · rw [hmsg]; exact proved_message_ne_cycle goal rid
      constructor
      · intro hmsg; exact absurd hmsg hne
      · intro hc; exact absurd hc.2 hv

/-- Witness for the amended C4 at a concrete input: goal `X`, no facts, no
rules, `X` already in the shared visited set. -/
theorem backward_chain_cycle_iff_witness :
    ((⟨"X", none, [], false,
        "Cycle detected while proving this goal."⟩ : ProofNode).message =
      "Cycle detected while proving this goal." ↔
      "X" ∉ (∅ : Finset String) ∧ "X" ∈ ({"X"} : Finset String)) :=
  backward_chain_cycle_iff 1 "X" ∅ []
    {"X"} ⟨"X", none, [], false, "Cycle detected while proving this goal."⟩
    {"X"} rfl

theorem mem_premiseUniverse (rules : List Rule) (r : Rule) (hr : r ∈ rules) :
    r.premise.atoms ⊆ premiseUniverse rules := by
  induction rules with
  | nil => exact absurd hr (List.not_mem_nil r)
  | cons r0 rs ih =>
    rcases List.mem_cons.1 hr with hr | hr
    · subst hr; exact Finset.subset_union_left
    · exact (ih hr).trans Finset.subset_union_right

theorem bc_measure_lt (U : Finset String) (goal a : String)
    (visited v' : Finset String) (ha : a ∈ U)
    (hgv : insert goal visited ⊆ v') (hgnv : goal ∉ visited) :
    ((U ∪ {a}) \ v').card < ((U ∪ {goal}) \ visited).card := by
  have hUa : U ∪ {a} = U := Finset.union_eq_left.2 (Finset.singleton_subset_iff.2 ha)
  rw [hUa]
  apply Finset.card_lt_card
  constructor
  · intro x hx
    rcases Finset.mem_sdiff.1 hx with ⟨hxU, hxv⟩
    refine Finset.mem_sdiff.2 ⟨Finset.mem_union_left _ hxU, fun hc => ?_⟩
    exact hxv (hgv (Finset.mem_insert_of_mem hc))
  · intro hc
    have hgoal : goal ∈ (U ∪ {goal}) \ visited :=
      Finset.mem_sdiff.2 ⟨Finset.mem_union_right _ (Finset.mem_singleton_self goal), hgnv⟩
    have := hc hgoal
    rcases Finset.mem_sdiff.1 this with ⟨_, hgv'⟩
    exact hgv' (hgv (Finset.mem_insert_self goal visited))

theorem bcPremises_isSome
    (recurse : String → Finset String → Option (ProofNode × Finset String))
    (hgrow : ∀ a v p v', recurse a v = some (p, v') → v ⊆ v')
    (base : Finset String) (good : String → Prop)
    (hrec : ∀ a, good a → ∀ v, base ⊆ v → (recurse a v).isSome = true) :
    ∀ atoms, (∀ a ∈ atoms, good a) → ∀ v, base ⊆ v →
      (bcPremises recurse atoms v).isSome = true := by
  intro atoms
  induction atoms with
  | nil => intro _ v hb; simp [bcPremises]
  | cons a as ih =>
    intro hgood v hb
    have h1 := hrec a (hgood a (List.mem_cons_self a as)) v hb
    rcases Option.isSome_iff_exists.1 h1 with ⟨⟨node, v1⟩, heq⟩
    have hb1 : base ⊆ v1 := hb.trans (hgrow a v node v1 heq)
    have h2 := ih (fun x hx => hgood x (List.mem_cons_of_mem a hx)) v1 hb1
    rcases Option.isSome_iff_exists.1 h2 with ⟨⟨ns, ok, v2⟩, heq2⟩
    simp [bcPremises, heq, heq2]

theorem bcTryRules_isSome
    (recurse : String → Finset String → Option (ProofNode × Finset String))
    (hgrow : ∀ a v p v', recurse a v = some (p, v') → v ⊆ v')
    (base : Finset String) (good : String → Prop)
    (hrec : ∀ a, good a → ∀ v, base ⊆ v → (recurse a v).isSome = true)
    (goal : String) :
    ∀ rs, (∀ r ∈ rs, ∀ a ∈ sortedList r.premise.atoms, good a) → ∀ v, base ⊆ v →
      (bcTryRules recurse goal rs v).isSome = true := by
  intro rs
  induction rs with
  | nil => intro _ v hb; simp [bcTryRules]
  | cons r rs ih =>
    intro hgood v hb
    have h1 := bcPremises_isSome recurse hgrow base good hrec
      (sortedList r.premise.atoms) (hgood r (List.mem_cons_self r rs)) v hb
    rcases Option.isSome_iff_exists.1 h1 with ⟨⟨ns, ok, v1⟩, heq⟩
    have hb1 : base ⊆ v1 :=
      hb.trans (bcPremises_grow recurse hgrow _ v ns ok v1 heq)
    by_cases hok : ok = true
    · simp [bcTryRules, heq, hok]
    · have h2 := ih (fun x hx => hgood x (List.mem_cons_of_mem r hx)) v1 hb1
      simp only [bcTryRules, Option.bind_eq_bind, heq, Option.some_bind, if_neg hok]
      exact h2

/-- The backward-chaining recursion needs no more fuel than the number of
atoms it can ever add to the shared visited set. -/
theorem bcFuel_isSome (facts : Finset String) (rules : List Rule) :
    ∀ n goal visited,
      ((premiseUniverse rules ∪ {goal}) \ visited).card < n →
      (bcFuel n goal facts rules visited).isSome = true := by
  intro n
  induction n with
  | zero => intro goal visited h; omega
  | succ n ih =>
    intro goal visited hN
    simp only [bcFuel]
    by_cases hf : goal ∈ facts
    · rw [if_pos hf]; rfl
    · rw [if_neg hf]
      by_cases hv : goal ∈ visited
      · rw [if_pos hv]; rfl
      · rw [if_neg hv]
        by_cases he :
            (rules.filter (fun r => decide (goal ∈ r.conclusion_atoms))).isEmpty = true
        · rw [if_pos he]; rfl
        · rw [if_neg he]
          apply bcTryRules_isSome (fun a v => bcFuel n a facts rules v)
            (fun a v p v' hh => bcFuel_grow facts rules n a v p v' hh)
            (insert goal visited) (fun a => a ∈ premiseUniverse rules)
          · intro a ha v hb
            apply ih
            have hlt := bc_measure_lt (premiseUniverse rules) goal a visited v ha hb hv
            omega
          · intro r hr a haa
            have hrr : r ∈ rules := (List.mem_filter.1 hr).1
            exact mem_premiseUniverse rules r hrr
              ((mem_sortedList _ _).1 haa)
          · exact Finset.Subset.refl _

/-- `backward_chain` never hits its fuel fallback: the fuelled recursion
returns its node. -/
theorem backward_chain_eq_bcFuel (goal : String) (facts : Finset String)
    (rules : List Rule) :
    ∃ v', bcFuel ((premiseUniverse rules ∪ {goal}).card + 1) goal facts rules ∅ =
      some (backward_chain goal facts rules, v') := by
  have h := bcFuel_isSome facts rules ((premiseUniverse rules ∪ {goal}).card + 1)
    goal ∅ (by simp)
  rcases Option.isSome_iff_exists.1 h with ⟨⟨p, v'⟩, heq⟩
  refine ⟨v', ?_⟩
  have hb : backward_chain goal facts rules = p := by
    unfold backward_chain
    rw [heq]
    rfl
  rw [heq, hb]

/-- The premises loop of the cycle guard as claim C4 words it: same
collection of child nodes, but no shared mutable set is threaded back. -/
def bcPathPremises (recurse : String → Option ProofNode) :
    List String → Option (List ProofNode × Bool)
  | [] => some ([], true)
  | a :: as => do
    let node ← recurse a
    let (nodes, allOk) ← bcPathPremises recurse as
    pure (node :: nodes, node.succeeded && allOk)

/-- The rules loop of the path-scoped variant. -/
def bcPathTryRules (recurse : String → Option ProofNode) (goal : String) :
    List Rule → Option ProofNode
  | [] =>
    some ⟨goal, none, [], false, "All applicable rules failed to prove this goal."⟩
  | r :: rs => do
    let (nodes, allOk) ← bcPathPremises recurse (sortedList r.premise.atoms)
    if allOk then
      pure ⟨goal, some r.id, nodes, true,
        "Proved " ++ goal ++ " using rule " ++ r.id ++ "."⟩
    else bcPathTryRules recurse goal rs

/-- Backward chaining with the cycle guard scoped as claim C4 (and spec
§4.7 step 2) describe it: the guard set is the **current recursion path**
only — extended going into a sub-goal and implicitly restored on return,
never shared between sibling branches or alternative rules. Used solely to
compare the claim's reading against the code's shared-set behaviour. -/
def bcPathFuel : Nat → String → Finset String → List Rule → Finset String →
    Option ProofNode
  | 0, _, _, _, _ => none
  | n + 1, goal, facts, rules, path =>
    if goal ∈ facts then some ⟨goal, none, [], true, "Given as a fact."⟩
    else if goal ∈ path then
      some ⟨goal, none, [], false, "Cycle detected while proving this goal."⟩
    else
      if (rules.filter (fun r => decide (goal ∈ r.conclusion_atoms))).isEmpty then
        some ⟨goal, none, [], false, "No rules conclude this goal."⟩
      else
        bcPathTryRules (fun a => bcPathFuel n a facts rules (insert goal path))
          goal (rules.filter (fun r => decide (goal ∈ r.conclusion_atoms)))

/-- `P AND Q -> T`. -/
def ruleT : Rule :=
  ⟨"R1", Formula.And (Formula.Atom "P") (Formula.Atom "Q"), Formula.Atom "T", "d"⟩

/-- `C -> P`. -/
def ruleP : Rule := ⟨"R2", Formula.Atom "C", Formula.Atom "P", "d"⟩

/-- `C -> Q`. -/
def ruleQ : Rule := ⟨"R3", Formula.Atom "C", Formula.Atom "Q", "d"⟩

/-- `B -> C`. -/
def ruleC : Rule := ⟨"R4", Formula.Atom "B", Formula.Atom "C", "d"⟩

/-- C4 (counterexample to the claim as stated): with fact `B` and rules
`P AND Q -> T`, `C -> P`, `C -> Q`, `B -> C`, the goal `T` is provable —
and the path-scoped reading of the cycle guard proves it — but the code's
`visited` set is shared across the whole search: after `C` is proved under
`P`, the attempt on the independent branch `Q` finds `C` already visited
(though `C` is not on the path `T, Q`), fails it as a cycle, and the whole
proof of `T` fails. -/
theorem backward_chain_shared_visited_counterexample :
    (backward_chain "T" {"B"} [ruleT, ruleP, ruleQ, ruleC]).succeeded = false ∧
    (bcPathFuel 6 "T" {"B"} [ruleT, ruleP, ruleQ, ruleC] ∅).map
      (fun p => p.succeeded) = some true := by
  exact ⟨by decide, by decide⟩

/-- Witness for C1 (amended) at a concrete input: two monotone rules in
both orders derive the same facts. -/
theorem forward_chain_order_independent_witness :
    (forward_chain {"A"}
      [⟨"R1", Formula.Atom "A", Formula.Atom "B", "d"⟩,
       ⟨"R2", Formula.Atom "B", Formula.Atom "C", "d"⟩]).final_facts =
    (forward_chain {"A"}
      [⟨"R2", Formula.Atom "B", Formula.Atom "C", "d"⟩,
       ⟨"R1", Formula.Atom "A", Formula.Atom "B", "d"⟩]).final_facts :=
  forward_chain_order_independent {"A"}
    [⟨"R1", Formula.Atom "A", Formula.Atom "B", "d"⟩,
     ⟨"R2", Formula.Atom "B", Formula.Atom "C", "d"⟩]
    [⟨"R2", Formula.Atom "B", Formula.Atom "C", "d"⟩,
     ⟨"R1", Formula.Atom "A", Formula.Atom "B", "d"⟩]
    (by decide) (by decide)


/-! ## Tokenizer error behaviour (claim C9) -/

/-- The identifier character class the claim states: `[A-Za-z0-9_]`. -/
def asciiIdentChar (c : Char) : Bool :=
  (48 ≤ c.toNat && c.toNat ≤ 57) || (65 ≤ c.toNat && c.toNat ≤ 90) ||
  (97 ≤ c.toNat && c.toNat ≤ 122) || c == '_'

/-- C9 (counterexample to the claim as stated): `é` (U+00E9) is outside
`[A-Za-z0-9_]`, yet `tokenize` accepts it as an identifier instead of
raising a syntax error, because Python `str.isalnum` is Unicode-aware. -/
theorem tokenize_unicode_ident_counterexample :
    asciiIdentChar 'é' = false ∧
    tokenize ['é'] = .ok [⟨"IDENT", "é"⟩, ⟨"EOF", ""⟩] :=
  ⟨by decide, rfl⟩

/-- A character the scanner cannot start any token with: not whitespace,
not a parenthesis, not starting one of the operators `& | ~ -> <->` (for
`-` and `<` this depends on the following characters), and not an
identifier character. -/
def UnrecognizedAt (c : Char) (rest : List Char) : Prop :=
  pyIsSpace c = false ∧ c ≠ '(' ∧ c ≠ ')' ∧
  ¬(c = '<' ∧ rest.take 2 = ['-', '>']) ∧
  ¬(c = '-' ∧ rest.take 1 = ['>']) ∧
  c ≠ '&' ∧ c ≠ '|' ∧ c ≠ '~' ∧ isIdentChar c = false

theorem tokenizeFuel_error_onset (fuel i : Nat) (c : Char) (rest : List Char)
    (hbad : UnrecognizedAt c rest) :
    tokenizeFuel (fuel + 1) i (c :: rest) = .error ⟨unexpectedCharMessage c i⟩ := by
  obtain ⟨h1, h2, h3, h4, h5, h6, h7, h8, h9⟩ := hbad
  show (if pyIsSpace c then _ else _) = _
  rw [if_neg (by simp [h1]), if_neg (by simp [h2]), if_neg (by simp [h3]),
    if_neg (by simp only [Bool.and_eq_true, beq_iff_eq]; exact h4),
    if_neg (by simp only [Bool.and_eq_true, beq_iff_eq]; exact h5),
    if_neg (by simp [h6]), if_neg (by simp [h7]), if_neg (by simp [h8]),
    if_neg (by simp [h9])]

theorem except_map_error {e : ParseError} {f : List Token → List Token}
    {x : Except ParseError (List Token)} (h : x.map f = .error e) :
    x = .error e := by
  cases x with
  | error e2 =>
    have he : e2 = e := by simpa [Except.map] using h
    rw [he]
  | ok v => simp [Except.map] at h

theorem tokenizeFuel_consume {fuel : Nat}
    (ih : ∀ cs, cs.length < fuel → ∀ i e, tokenizeFuel fuel i cs = .error e →
      ∃ k c rest, cs.drop k = c :: rest ∧ UnrecognizedAt c rest ∧
        e = ⟨unexpectedCharMessage c (i + k)⟩)
    (cs : List Char) (m : Nat) (hm : 0 < m) (hpos : 0 < cs.length)
    (hlen : cs.length ≤ fuel) (i : Nat) (e : ParseError)
    (h : tokenizeFuel fuel (i + m) (cs.drop m) = .error e) :
    ∃ k c rest, cs.drop k = c :: rest ∧ UnrecognizedAt c rest ∧
      e = ⟨unexpectedCharMessage c (i + k)⟩ := by
  have hlen2 : (cs.drop m).length < fuel := by
    rw [List.length_drop]
    omega
  rcases ih (cs.drop m) hlen2 (i + m) e h with ⟨k, c0, rest, hdrop, hbad, hmsg⟩
  refine ⟨m + k, c0, rest, ?_, hbad, ?_⟩
  · rw [← List.drop_drop k m cs, hdrop]
  · rw [hmsg]
    congr 2
    omega

theorem tokenizeFuel_error_source (fuel : Nat) :
    ∀ cs, cs.length < fuel → ∀ i e, tokenizeFuel fuel i cs = .error e →
      ∃ k c rest, cs.drop k = c :: rest ∧ UnrecognizedAt c rest ∧
        e = ⟨unexpectedCharMessage c (i + k)⟩ := by
  induction fuel with
  | zero => intro cs hcs; omega
  | succ fuel ih =>
    intro cs hcs i e h
    cases cs with
    | nil => exact absurd h (by simp [tokenizeFuel])
    | cons c cs2 =>
      have hle : (c :: cs2).length ≤ fuel := by
        simpa using Nat.lt_succ_iff.1 hcs
      have hpos : 0 < (c :: cs2).length := by simp
      rw [show tokenizeFuel (fuel + 1) i (c :: cs2) =
        (if pyIsSpace c then tokenizeFuel fuel (i + 1) cs2
        else if c == '(' then (tokenizeFuel fuel (i + 1) cs2).map (⟨"(", "("⟩ :: ·)
        else if c == ')' then (tokenizeFuel fuel (i + 1) cs2).map (⟨")", ")"⟩ :: ·)
        else if c == '<' && cs2.take 2 == ['-', '>'] then
          (tokenizeFuel fuel (i + 3) (cs2.drop 2)).map (⟨"IFF", "<->"⟩ :: ·)
        else if c == '-' && cs2.take 1 == ['>'] then
          (tokenizeFuel fuel (i + 2) (cs2.drop 1)).map (⟨"IMPLIES", "->"⟩ :: ·)
        else if c == '&' then (tokenizeFuel fuel (i + 1) cs2).map (⟨"AND", "&"⟩ :: ·)
        else if c == '|' then (tokenizeFuel fuel (i + 1) cs2).map (⟨"OR", "|"⟩ :: ·)
        else if c == '~' then (tokenizeFuel fuel (i + 1) cs2).map (⟨"NOT", "~"⟩ :: ·)
        else if isIdentChar c then
          (tokenizeFuel fuel (i + (c :: cs2.takeWhile isIdentChar).length)
            (cs2.dropWhile isIdentChar)).map
            ((match KEYWORDS.lookup
                (String.mk ((c :: cs2.takeWhile isIdentChar).map asciiUpper)) with
              | some kind => Token.mk kind (String.mk (c :: cs2.takeWhile isIdentChar))
              | none => Token.mk "IDENT" (String.mk (c :: cs2.takeWhile isIdentChar))) :: ·)
        else .error ⟨unexpectedCharMessage c i⟩) from rfl] at h
      by_cases b1 : pyIsSpace c = true
      · rw [if_pos b1] at h
        exact tokenizeFuel_consume ih (c :: cs2) 1 (by omega) hpos hle i e h
      · rw [if_neg b1] at h
        by_cases b2 : (c == '(') = true
        · rw [if_pos b2] at h
          exact tokenizeFuel_consume ih (c :: cs2) 1 (by omega) hpos hle i e
            (except_map_error h)
        · rw [if_neg b2] at h
          by_cases b3 : (c == ')') = true
          · rw [if_pos b3] at h
            exact tokenizeFuel_consume ih (c :: cs2) 1 (by omega) hpos hle i e
              (except_map_error h)
          · rw [if_neg b3] at h
            by_cases b4 : (c == '<' && cs2.take 2 == ['-', '>']) = true
            · rw [if_pos b4] at h
              have h2 := except_map_error h
              have hdr : (c :: cs2).drop 3 = cs2.drop 2 := rfl
              rw [← hdr] at h2
              exact tokenizeFuel_consume ih (c :: cs2) 3 (by omega) hpos hle i e h2
            · rw [if_neg b4] at h
              by_cases b5 : (c == '-' && cs2.take 1 == ['>']) = true
              · rw [if_pos b5] at h
                have h2 := except_map_error h
                have hdr : (c :: cs2).drop 2 = cs2.drop 1 := rfl
                rw [← hdr] at h2
                exact tokenizeFuel_consume ih (c :: cs2) 2 (by omega) hpos hle i e h2
              · rw [if_neg b5] at h
                by_cases b6 : (c == '&') = true
                · rw [if_pos b6] at h
                  exact tokenizeFuel_consume ih (c :: cs2) 1 (by omega) hpos hle i e
                    (except_map_error h)
                · rw [if_neg b6] at h
                  by_cases b7 : (c == '|') = true
                  · rw [if_pos b7] at h
                    exact tokenizeFuel_consume ih (c :: cs2) 1 (by omega) hpos hle i e
                      (except_map_error h)
                  · rw [if_neg b7] at h
                    by_cases b8 : (c == '~') = true
                    · rw [if_pos b8] at h
                      exact tokenizeFuel_consume ih (c :: cs2) 1 (by omega) hpos hle
                        i e (except_map_error h)
                    · rw [if_neg b8] at h
                      by_cases b9 : isIdentChar c = true
                      · rw [if_pos b9] at h
                        have h2 := except_map_error h
                        have hdr : (c :: cs2).drop
                            (c :: cs2.takeWhile isIdentChar).length =
                            cs2.dropWhile isIdentChar := by
                          show cs2.drop (cs2.takeWhile isIdentChar).length = _
                          have hsp : cs2.drop (cs2.takeWhile isIdentChar).length =
                              ((cs2.takeWhile isIdentChar) ++
                                (cs2.dropWhile isIdentChar)).drop
                                (cs2.takeWhile isIdentChar).length := by
                            rw [List.takeWhile_append_dropWhile]
                          rw [hsp, List.drop_left]
                        rw [← hdr] at h2
                        exact tokenizeFuel_consume ih (c :: cs2)
                          (c :: cs2.takeWhile isIdentChar).length (by simp)
                          hpos hle i e h2
                      · rw [if_neg b9] at h
                        refine ⟨0, c, cs2, rfl, ?_, ?_⟩
                        · refine ⟨Bool.eq_false_iff.2 b1, ?_, ?_, ?_, ?_, ?_, ?_, ?_,
                            Bool.eq_false_iff.2 b9⟩
                          · intro hc; exact b2 (by simp [hc])
                          · intro hc; exact b3 (by simp [hc])
                          · intro hc
                            refine b4 ?_
                            simp only [Bool.and_eq_true, beq_iff_eq]
                            exact hc
                          · intro hc
                            refine b5 ?_
                            simp only [Bool.and_eq_true, beq_iff_eq]
                            exact hc
                          · intro hc; exact b6 (by simp [hc])
                          · intro hc; exact b7 (by simp [hc])
                          · intro hc; exact b8 (by simp [hc])
                        · have he : e = ⟨unexpectedCharMessage c i⟩ := by
                            injection h with hh
                            rw [hh]
                          rw [he]
                          congr 2


theorem KEYWORDS_lookup_ne_ident (u kind : String)
    (h : KEYWORDS.lookup u = some kind) : kind ≠ "IDENT" := by
  simp only [KEYWORDS, List.lookup] at h
  repeat' split at h
  all_goals first
    | (injection h with h2; rw [← h2]; decide)
    | exact Option.noConfusion h

theorem tokenizeFuel_ident_tokens (fuel : Nat) :
    ∀ cs i toks, tokenizeFuel fuel i cs = .ok toks →
      ∀ t ∈ toks, t.kind = "IDENT" →
        t.value.data ≠ [] ∧ ∀ ch ∈ t.value.data, isIdentChar ch = true := by
  induction fuel with
  | zero => intro cs i toks h; exact absurd h (by simp [tokenizeFuel])
  | succ fuel ih =>
    intro cs i toks h
    cases cs with
    | nil =>
      have ht : toks = [⟨"EOF", ""⟩] := by
        have : Except.ok (ε := ParseError) [Token.mk "EOF" ""] = .ok toks := h
        injection this with h2
        rw [h2]
      subst ht
      intro t ht hkind
      rcases List.mem_singleton.1 ht with rfl
      exact absurd hkind (by decide)
    | cons c cs2 =>
      rw [show tokenizeFuel (fuel + 1) i (c :: cs2) =
        (if pyIsSpace c then tokenizeFuel fuel (i + 1) cs2
        else if c == '(' then (tokenizeFuel fuel (i + 1) cs2).map (⟨"(", "("⟩ :: ·)
        else if c == ')' then (tokenizeFuel fuel (i + 1) cs2).map (⟨")", ")"⟩ :: ·)
        else if c == '<' && cs2.take 2 == ['-', '>'] then
          (tokenizeFuel fuel (i + 3) (cs2.drop 2)).map (⟨"IFF", "<->"⟩ :: ·)
        else if c == '-' && cs2.take 1 == ['>'] then
          (tokenizeFuel fuel (i + 2) (cs2.drop 1)).map (⟨"IMPLIES", "->"⟩ :: ·)
        else if c == '&' then (tokenizeFuel fuel (i + 1) cs2).map (⟨"AND", "&"⟩ :: ·)
        else if c == '|' then (tokenizeFuel fuel (i + 1) cs2).map (⟨"OR", "|"⟩ :: ·)
        else if c == '~' then (tokenizeFuel fuel (i + 1) cs2).map (⟨"NOT", "~"⟩ :: ·)
        else if isIdentChar c then
          (tokenizeFuel fuel (i + (c :: cs2.takeWhile isIdentChar).length)
            (cs2.dropWhile isIdentChar)).map
            ((match KEYWORDS.lookup
                (String.mk ((c :: cs2.takeWhile isIdentChar).map asciiUpper)) with
              | some kind => Token.mk kind (String.mk (c :: cs2.takeWhile isIdentChar))
              | none => Token.mk "IDENT" (String.mk (c :: cs2.takeWhile isIdentChar))) :: ·)
        else .error ⟨unexpectedCharMessage c i⟩) from rfl] at h
      by_cases b1 : pyIsSpace c = true
      · rw [if_pos b1] at h
        exact ih cs2 (i + 1) toks h
      · rw [if_neg b1] at h
        have hmap : ∀ (tok : Token) (x : Except ParseError (List Token)),
            tok.kind ≠ "IDENT" →
            x.map (tok :: ·) = .ok toks →
            (∀ cs3 i3, x = tokenizeFuel fuel i3 cs3 → cs3 = cs3) →
            ∀ cs3 i3, x = tokenizeFuel fuel i3 cs3 →
            ∀ t ∈ toks, t.kind = "IDENT" →
              t.value.data ≠ [] ∧ ∀ ch ∈ t.value.data, isIdentChar ch = true := by
          intro tok x hkind hx _ cs3 i3 hxeq t ht hkind2
          rcases x with e | toks2
          · exact absurd hx (by simp [Except.map])
          · have htoks : toks = tok :: toks2 := by
              have : Except.ok (ε := ParseError) (tok :: toks2) = .ok toks := hx
              injection this with h2
              rw [h2]
            subst htoks
            rcases List.mem_cons.1 ht with rfl | ht2
            · exact absurd hkind2 hkind
            · exact ih cs3 i3 toks2 hxeq.symm t ht2 hkind2
        by_cases b2 : (c == '(') = true
        · rw [if_pos b2] at h
          exact hmap _ _ (by decide) h (fun _ _ _ => rfl) cs2 (i + 1) rfl
        · rw [if_neg b2] at h
          by_cases b3 : (c == ')') = true
          · rw [if_pos b3] at h
            exact hmap _ _ (by decide) h (fun _ _ _ => rfl) cs2 (i + 1) rfl
          · rw [if_neg b3] at h
            by_cases b4 : (c == '<' && cs2.take 2 == ['-', '>']) = true
            · rw [if_pos b4] at h
              exact hmap _ _ (by decide) h (fun _ _ _ => rfl) (cs2.drop 2) (i + 3) rfl
            · rw [if_neg b4] at h
              by_cases b5 : (c == '-' && cs2.take 1 == ['>']) = true
              · rw [if_pos b5] at h
                exact hmap _ _ (by decide) h (fun _ _ _ => rfl) (cs2.drop 1) (i + 2) rfl
              · rw [if_neg b5] at h
                by_cases b6 : (c == '&') = true
                · rw [if_pos b6] at h
                  exact hmap _ _ (by decide) h (fun _ _ _ => rfl) cs2 (i + 1) rfl
                · rw [if_neg b6] at h
                  by_cases b7 : (c == '|') = true
                  · rw [if_pos b7] at h
                    exact hmap _ _ (by decide) h (fun _ _ _ => rfl) cs2 (i + 1) rfl
                  · rw [if_neg b7] at h
                    by_cases b8 : (c == '~') = true
                    · rw [if_pos b8] at h
                      exact hmap _ _ (by decide) h (fun _ _ _ => rfl) cs2 (i + 1) rfl
                    · rw [if_neg b8] at h
                      by_cases b9 : isIdentChar c = true
                      · rw [if_pos b9] at h
                        rcases hk : KEYWORDS.lookup
                            (String.mk ((c :: cs2.takeWhile isIdentChar).map
                              asciiUpper)) with _ | kind
                        all_goals rw [hk] at h
                        · -- not a keyword: an IDENT token made of identifier chars
                          have h' : (tokenizeFuel fuel
                              (i + (c :: cs2.takeWhile isIdentChar).length)
                              (cs2.dropWhile isIdentChar)).map
                              ((Token.mk "IDENT"
                                (String.mk (c :: cs2.takeWhile isIdentChar))) :: ·) =
                              .ok toks := h
                          rcases hx : tokenizeFuel fuel
                              (i + (c :: cs2.takeWhile isIdentChar).length)
                              (cs2.dropWhile isIdentChar) with e | toks2
                          all_goals rw [hx] at h'
                          · exact absurd h' (by simp [Except.map])
                          · have htoks : toks =
                                Token.mk "IDENT"
                                  (String.mk (c :: cs2.takeWhile isIdentChar)) :: toks2 := by
                              have h2 : Except.ok (ε := ParseError)
                                  (Token.mk "IDENT"
                                    (String.mk (c :: cs2.takeWhile isIdentChar)) :: toks2) =
                                  .ok toks := h'
                              injection h2 with h3
                              rw [h3]
                            subst htoks
                            intro t ht hkind
                            rcases List.mem_cons.1 ht with rfl | ht2
                            · refine ⟨by simp, ?_⟩
                              intro ch hch
                              rcases List.mem_cons.1 hch with rfl | hch2
                              · exact b9
                              · exact List.mem_takeWhile_imp hch2
                            · exact ih _ _ toks2 hx t ht2 hkind
                        · -- a keyword token: its kind is never IDENT
                          exact hmap _ _ (KEYWORDS_lookup_ne_ident _ _ hk) h
                            (fun _ _ _ => rfl) (cs2.dropWhile isIdentChar)
                            (i + (c :: cs2.takeWhile isIdentChar).length) rfl
                      · rw [if_neg b9] at h
                        exact absurd h (by simp)

/-- C9 (amended): on inputs from the modelled Basic Latin and Latin-1
blocks, `tokenize` raises `ParseError`, carrying the offending character
and its 0-based position, precisely at characters that are neither
whitespace, nor parentheses, nor the start of one of `& | ~ -> <->`, nor
identifier characters — where the identifier class is Python
`str.isalnum` plus underscore (on ASCII exactly `[A-Za-z0-9_]`, but wider
on Latin-1, e.g. `é`): (i) reaching such a character at position `i`
fails with exactly that character and position; (ii) every error arises
that way; (iii) identifier tokens are nonempty and consist only of
identifier-class characters. -/
theorem tokenize_unexpected_character
    (cs : List Char) (hlatin : ∀ ch ∈ cs, ch.toNat ≤ 255) :
    (∀ fuel i c rest, UnrecognizedAt c rest →
      tokenizeFuel (fuel + 1) i (c :: rest) = .error ⟨unexpectedCharMessage c i⟩) ∧
    (∀ e, tokenize cs = .error e →
      ∃ k c rest, cs.drop k = c :: rest ∧ UnrecognizedAt c rest ∧
        e = ⟨unexpectedCharMessage c k⟩) ∧
    (∀ toks, tokenize cs = .ok toks → ∀ t ∈ toks, t.kind = "IDENT" →
      t.value.data ≠ [] ∧ ∀ ch ∈ t.value.data, isIdentChar ch = true) := by
  refine ⟨fun fuel i c rest hbad => tokenizeFuel_error_onset fuel i c rest hbad,
    fun e he => ?_, fun toks ht => tokenizeFuel_ident_tokens _ cs 0 toks ht⟩
  have := tokenizeFuel_error_source (cs.length + 1) cs (by omega) 0 e he
  simpa using this

/-- Witness for C9 (amended) at a concrete input: `@` is unrecognized and
the scan fails on it at position 0 with that message. -/
theorem tokenize_unexpected_character_witness :
    tokenizeFuel 1 0 ['@'] = .error ⟨unexpectedCharMessage '@' 0⟩ :=
  (tokenize_unexpected_character ['@'] (by decide)).1 0 0 '@' []
    (by unfold UnrecognizedAt; decide)



/-! ## Parser (`parser.py` 105-212) and pretty-printer -/

/-- Operator precedence, loosest (1, `IFF`) to tightest (7, atoms),
following the grammar `iff < implies < or < xor < and < not < primary`. -/
def prec : Formula → Nat
  | .Iff _ _ => 1
  | .Implies _ _ => 2
  | .Or _ _ => 3
  | .Xor _ _ => 4
  | .And _ _ => 5
  | .Not _ => 6
  | .Atom _ => 7

/-- Wrap a rendered child in parentheses when the flag holds. -/
def wrapIf (b : Bool) (s : List Char) : List Char :=
  if b then '(' :: s ++ [')'] else s

/-- Modelled from the spec: `formula_to_str` is imported from the parser
module by `app.py` (line 19) but its definition is absent from the
sources. Per spec §4.2 it renders a formula back to canonical text with
the same precedence table, wrapping a child in parentheses iff the
child's operator precedence is strictly lower than its parent's. The
operators are written in the word/symbol forms used throughout the
repository (`NOT`/`AND`/`OR`/`XOR`, `->`, `<->`), separated by single
spaces. -/
def formula_to_str : Formula → List Char
  | .Atom n => n.data
  | .Not f => "NOT ".data ++ wrapIf (decide (prec f < 6)) (formula_to_str f)
  | .And l r =>
    wrapIf (decide (prec l < 5)) (formula_to_str l) ++ " AND ".data ++
      wrapIf (decide (prec r < 5)) (formula_to_str r)
  | .Or l r =>
    wrapIf (decide (prec l < 3)) (formula_to_str l) ++ " OR ".data ++
      wrapIf (decide (prec r < 3)) (formula_to_str r)
  | .Xor l r =>
    wrapIf (decide (prec l < 4)) (formula_to_str l) ++ " XOR ".data ++
      wrapIf (decide (prec r < 4)) (formula_to_str r)
  | .Implies l r =>
    wrapIf (decide (prec l < 2)) (formula_to_str l) ++ " -> ".data ++
      wrapIf (decide (prec r < 2)) (formula_to_str r)
  | .Iff l r =>
    wrapIf (decide (prec l < 1)) (formula_to_str l) ++ " <-> ".data ++
      wrapIf (decide (prec r < 1)) (formula_to_str r)

/-- The loop token kind of each binary-operator level. -/
def levelOpKind : Nat → String
  | 1 => "IFF"
  | 2 => "IMPLIES"
  | 3 => "OR"
  | 4 => "XOR"
  | _ => "AND"

/-- The AST constructor of each binary-operator level. -/
def levelBuild : Nat → Formula → Formula → Formula
  | 1 => .Iff
  | 2 => .Implies
  | 3 => .Or
  | 4 => .Xor
  | _ => .And

/-- The token the tokenizer produces for each binary operator as printed
by `formula_to_str`. -/
def opToken : Nat → Token
  | 1 => ⟨"IFF", "<->"⟩
  | 2 => ⟨"IMPLIES", "->"⟩
  | 3 => ⟨"OR", "OR"⟩
  | 4 => ⟨"XOR", "XOR"⟩
  | _ => ⟨"AND", "AND"⟩

/-- Wrap a token list in parenthesis tokens when the flag holds. -/
def tokWrapIf (b : Bool) (ts : List Token) : List Token :=
  if b then ⟨"(", "("⟩ :: ts ++ [⟨")", ")"⟩] else ts

/-- The token sequence of the canonical rendering of a formula: what
`tokenize` produces on `formula_to_str` output (`print_tokenizes`). -/
def toksF : Formula → List Token
  | .Atom n => [⟨"IDENT", n⟩]
  | .Not f => ⟨"NOT", "NOT"⟩ :: tokWrapIf (decide (prec f < 6)) (toksF f)
  | .And l r =>
    tokWrapIf (decide (prec l < 5)) (toksF l) ++ opToken 5 ::
      tokWrapIf (decide (prec r < 5)) (toksF r)
  | .Or l r =>
    tokWrapIf (decide (prec l < 3)) (toksF l) ++ opToken 3 ::
      tokWrapIf (decide (prec r < 3)) (toksF r)
  | .Xor l r =>
    tokWrapIf (decide (prec l < 4)) (toksF l) ++ opToken 4 ::
      tokWrapIf (decide (prec r < 4)) (toksF r)
  | .Implies l r =>
    tokWrapIf (decide (prec l < 2)) (toksF l) ++ opToken 2 ::
      tokWrapIf (decide (prec r < 2)) (toksF r)
  | .Iff l r =>
    tokWrapIf (decide (prec l < 1)) (toksF l) ++ opToken 1 ::
      tokWrapIf (decide (prec r < 1)) (toksF r)

/-- A call of the recursive-descent parser of `parser.py`:
`.level n ts` is `parse_iff` (n = 1) down through `parse_implies`,
`parse_or`, `parse_xor`, `parse_and` (n = 5), `parse_unary` (n = 6) and
`parse_primary` (n = 7) on the remaining tokens; `.loop n acc ts` is the
`while self.accept(op)` loop of level `n` with `acc` the left fold so
far. -/
inductive ParserCall where
  | level (n : Nat) (ts : List Token)
  | loop (n : Nat) (acc : Formula) (ts : List Token)

/-- The recursive-descent parser (`parser.py` 105-202), all seven grammar
levels and their left-fold loops in one fuel-indexed function (the source
spreads them over one method per level; the fuel only bounds the call
depth and never runs out at the generous bound used by `parse_formula`).
`total` is the token count, used to report the 0-based token position in
the `expect` error message. -/
def parserGo (total : Nat) : Nat → ParserCall → Except ParseError (Formula × List Token)
  | 0, _ => .error ⟨"out of fuel"⟩
  | fuel + 1, .level n ts =>
    if n ≤ 5 then do
      let (node, ts1) ← parserGo total fuel (.level (n + 1) ts)
      parserGo total fuel (.loop n node ts1)
    else if n = 6 then
      match ts with
      | t :: ts1 =>
        if t.kind = "NOT" then do
          let (operand, ts2) ← parserGo total fuel (.level 6 ts1)
          pure (.Not operand, ts2)
        else parserGo total fuel (.level 7 ts)
      | [] => parserGo total fuel (.level 7 ts)
    else
      match ts with
      | t :: ts1 =>
        if t.kind = "(" then do
          let (node, ts2) ← parserGo total fuel (.level 1 ts1)
          match ts2 with
          | t2 :: ts3 =>
            if t2.kind = ")" then pure (node, ts3)
            else .error ⟨"Expected ) but found " ++ t2.kind ++ " at position " ++
              toString (total - (t2 :: ts3).length) ++ "."⟩
          | [] => .error ⟨"Expected ) but found EOF at position " ++
              toString total ++ "."⟩
        else if t.kind = "IDENT" then pure (.Atom t.value, ts1)
        else .error ⟨"Unexpected token '" ++ t.value ++
          "' where an atom or '(' was expected."⟩
      | [] => .error ⟨"Unexpected token '' where an atom or '(' was expected."⟩
  | fuel + 1, .loop n acc ts =>
    match ts with
    | t :: ts1 =>
      if t.kind = levelOpKind n then do
        let (r, ts2) ← parserGo total fuel (.level (n + 1) ts1)
        parserGo total fuel (.loop n (levelBuild n acc r) ts2)
      else pure (acc, t :: ts1)
    | [] => pure (acc, [])

/-- `parse_formula(text)` (`parser.py` 205-212): tokenize, parse one
`expr`, and fail on trailing input other than the `EOF` token. -/
def parse_formula (text : List Char) : Except ParseError Formula := do
  let toks ← tokenize text
  let (node, rest) ← parserGo toks.length (16 * toks.length + 16) (.level 1 toks)
  match rest with
  | t :: _ =>
    if t.kind = "EOF" then pure node
    else .error ⟨"Unexpected token '" ++ t.value ++ "' after end of formula."⟩
  | [] => pure node

/-- Atom names that the tokenizer reads back as single `IDENT` tokens:
nonempty, made of identifier characters, and not a keyword when
uppercased. Every formula the parser can output satisfies this. -/
def validIdent (s : String) : Bool :=
  !s.data.isEmpty && s.data.all isIdentChar &&
    (KEYWORDS.lookup (String.mk (s.data.map asciiUpper))).isNone

/-- All atom names of a formula are `validIdent`. -/
def wfAtoms : Formula → Bool
  | .Atom n => validIdent n
  | .Not f => wfAtoms f
  | .And l r => wfAtoms l && wfAtoms r
  | .Or l r => wfAtoms l && wfAtoms r
  | .Xor l r => wfAtoms l && wfAtoms r
  | .Implies l r => wfAtoms l && wfAtoms r
  | .Iff l r => wfAtoms l && wfAtoms r

/-- No binary node has a right child of its own precedence level: the
shape on which the strict-inequality parenthesisation rule survives the
left-associative re-parse. -/
def rightAssocSafe : Formula → Bool
  | .Atom _ => true
  | .Not f => rightAssocSafe f
  | .And l r => rightAssocSafe l && rightAssocSafe r && !(prec r == 5)
  | .Or l r => rightAssocSafe l && rightAssocSafe r && !(prec r == 3)
  | .Xor l r => rightAssocSafe l && rightAssocSafe r && !(prec r == 4)
  | .Implies l r => rightAssocSafe l && rightAssocSafe r && !(prec r == 2)
  | .Iff l r => rightAssocSafe l && rightAssocSafe r && !(prec r == 1)

/-- Number of AST nodes, the induction measure of the round-trip proof. -/
def fsize : Formula → Nat
  | .Atom _ => 1
  | .Not f => fsize f + 1
  | .And l r => fsize l + fsize r + 1
  | .Or l r => fsize l + fsize r + 1
  | .Xor l r => fsize l + fsize r + 1
  | .Implies l r => fsize l + fsize r + 1
  | .Iff l r => fsize l + fsize r + 1



/-! ## Round trip: tokenizing printed output -/

/-- A continuation is safe to append after an identifier when its first
character cannot extend the identifier run. -/
def safeHead : List Char → Prop
  | [] => True
  | c :: _ => isIdentChar c = false

theorem string_mk_data (s : String) : String.mk s.data = s := by
  cases s
  rfl

theorem except_map_map {α β γ : Type} (g : β → γ) (h : α → β)
    (x : Except ParseError α) :
    (x.map h).map g = x.map (fun a => g (h a)) := by
  cases x <;> rfl

theorem takeWhile_append_of_all {α : Type} (p : α → Bool) :
    ∀ (l1 l2 : List α), (∀ x ∈ l1, p x = true) →
      (l1 ++ l2).takeWhile p = l1 ++ l2.takeWhile p := by
  intro l1
  induction l1 with
  | nil => intro l2 _; rfl
  | cons a l ih =>
    intro l2 h
    simp only [List.cons_append, List.takeWhile_cons, h a (by simp), if_true]
    rw [ih l2 (fun x hx => h x (by simp [hx]))]

theorem dropWhile_append_of_all {α : Type} (p : α → Bool) :
    ∀ (l1 l2 : List α), (∀ x ∈ l1, p x = true) →
      (l1 ++ l2).dropWhile p = l2.dropWhile p := by
  intro l1
  induction l1 with
  | nil => intro l2 _; rfl
  | cons a l ih =>
    intro l2 h
    simp only [List.cons_append, List.dropWhile_cons, h a (by simp), if_true]
    exact ih l2 (fun x hx => h x (by simp [hx]))

theorem takeWhile_safeHead {s : List Char} (hs : safeHead s) :
    s.takeWhile isIdentChar = [] := by
  cases s with
  | nil => rfl
  | cons c s2 =>
    simp only [safeHead] at hs
    simp [List.takeWhile_cons, hs]

theorem dropWhile_safeHead {s : List Char} (hs : safeHead s) :
    s.dropWhile isIdentChar = s := by
  cases s with
  | nil => rfl
  | cons c s2 =>
    simp only [safeHead] at hs
    simp [List.dropWhile_cons, hs]

/-- The code-point ranges of identifier characters. -/
theorem identChar_toNat {c : Char} (h : isIdentChar c = true) :
    (48 ≤ c.toNat ∧ c.toNat ≤ 57) ∨ (65 ≤ c.toNat ∧ c.toNat ≤ 90) ∨
    (97 ≤ c.toNat ∧ c.toNat ≤ 122) ∨ (170 ≤ c.toNat ∧ c.toNat ≤ 255) ∨
    c.toNat = 95 := by
  simp only [isIdentChar, pyIsAlnum, Bool.or_eq_true, Bool.and_eq_true,
    decide_eq_true_eq, beq_iff_eq] at h
  rcases h with h | h
  · omega
  · subst h
    decide

/-- An identifier character is not whitespace and not one of the operator
characters the tokenizer tests before the identifier branch. -/
theorem identChar_not_op {c : Char} (h : isIdentChar c = true) :
    pyIsSpace c = false ∧ (c == '(') = false ∧ (c == ')') = false ∧
    (c == '<') = false ∧ (c == '-') = false ∧ (c == '&') = false ∧
    (c == '|') = false ∧ (c == '~') = false := by
  have ht := identChar_toNat h
  have hne : ∀ x : Char, x.toNat < 48 ∨ x.toNat = 60 ∨ x.toNat = 124 ∨
      x.toNat = 126 → (c == x) = false := by
    intro x hx
    apply Bool.eq_false_iff.2
    intro hbe
    have hcx := eq_of_beq hbe
    subst hcx
    omega
  have hsp : ¬ pyIsSpace c = true := by
    simp only [pyIsSpace, Bool.or_eq_true, Bool.and_eq_true, decide_eq_true_eq,
      beq_iff_eq]
    omega
  exact ⟨Bool.eq_false_iff.2 hsp, hne '(' (by decide), hne ')' (by decide),
    hne '<' (by decide), hne '-' (by decide), hne '&' (by decide),
    hne '|' (by decide), hne '~' (by decide)⟩


/-- The tokenizer's result does not depend on the fuel, as long as the
fuel exceeds the number of remaining characters. -/
theorem tokenizeFuel_irrel :
    ∀ fuel1, ∀ cs : List Char, cs.length < fuel1 → ∀ fuel2, cs.length < fuel2 →
      ∀ i, tokenizeFuel fuel1 i cs = tokenizeFuel fuel2 i cs := by
  intro fuel1
  induction fuel1 with
  | zero => intro cs h; omega
  | succ fuel ih =>
    intro cs hcs fuel2 hcs2 i
    cases fuel2 with
    | zero => omega
    | succ fuel2 =>
    cases cs with
    | nil => rfl
    | cons c cs2 =>
      have hlen : cs2.length + 1 < fuel + 1 := by simpa using hcs
      have hlen2 : cs2.length + 1 < fuel2 + 1 := by simpa using hcs2
      rw [show tokenizeFuel (fuel + 1) i (c :: cs2) =
        (if pyIsSpace c then tokenizeFuel fuel (i + 1) cs2
        else if c == '(' then (tokenizeFuel fuel (i + 1) cs2).map (⟨"(", "("⟩ :: ·)
        else if c == ')' then (tokenizeFuel fuel (i + 1) cs2).map (⟨")", ")"⟩ :: ·)
        else if c == '<' && cs2.take 2 == ['-', '>'] then
          (tokenizeFuel fuel (i + 3) (cs2.drop 2)).map (⟨"IFF", "<->"⟩ :: ·)
        else if c == '-' && cs2.take 1 == ['>'] then
          (tokenizeFuel fuel (i + 2) (cs2.drop 1)).map (⟨"IMPLIES", "->"⟩ :: ·)
        else if c == '&' then (tokenizeFuel fuel (i + 1) cs2).map (⟨"AND", "&"⟩ :: ·)
        else if c == '|' then (tokenizeFuel fuel (i + 1) cs2).map (⟨"OR", "|"⟩ :: ·)
        else if c == '~' then (tokenizeFuel fuel (i + 1) cs2).map (⟨"NOT", "~"⟩ :: ·)
        else if isIdentChar c then
          (tokenizeFuel fuel (i + (c :: cs2.takeWhile isIdentChar).length)
            (cs2.dropWhile isIdentChar)).map
            ((match KEYWORDS.lookup
                (String.mk ((c :: cs2.takeWhile isIdentChar).map asciiUpper)) with
              | some kind => Token.mk kind (String.mk (c :: cs2.takeWhile isIdentChar))
              | none => Token.mk "IDENT" (String.mk (c :: cs2.takeWhile isIdentChar))) :: ·)
        else .error ⟨unexpectedCharMessage c i⟩) from rfl]
      rw [show tokenizeFuel (fuel2 + 1) i (c :: cs2) =
        (if pyIsSpace c then tokenizeFuel fuel2 (i + 1) cs2
        else if c == '(' then (tokenizeFuel fuel2 (i + 1) cs2).map (⟨"(", "("⟩ :: ·)
        else if c == ')' then (tokenizeFuel fuel2 (i + 1) cs2).map (⟨")", ")"⟩ :: ·)
        else if c == '<' && cs2.take 2 == ['-', '>'] then
          (tokenizeFuel fuel2 (i + 3) (cs2.drop 2)).map (⟨"IFF", "<->"⟩ :: ·)
        else if c == '-' && cs2.take 1 == ['>'] then
          (tokenizeFuel fuel2 (i + 2) (cs2.drop 1)).map (⟨"IMPLIES", "->"⟩ :: ·)
        else if c == '&' then (tokenizeFuel fuel2 (i + 1) cs2).map (⟨"AND", "&"⟩ :: ·)
        else if c == '|' then (tokenizeFuel fuel2 (i + 1) cs2).map (⟨"OR", "|"⟩ :: ·)
        else if c == '~' then (tokenizeFuel fuel2 (i + 1) cs2).map (⟨"NOT", "~"⟩ :: ·)
        else if isIdentChar c then
          (tokenizeFuel fuel2 (i + (c :: cs2.takeWhile isIdentChar).length)
            (cs2.dropWhile isIdentChar)).map
            ((match KEYWORDS.lookup
                (String.mk ((c :: cs2.takeWhile isIdentChar).map asciiUpper)) with
              | some kind => Token.mk kind (String.mk (c :: cs2.takeWhile isIdentChar))
              | none => Token.mk "IDENT" (String.mk (c :: cs2.takeWhile isIdentChar))) :: ·)
        else .error ⟨unexpectedCharMessage c i⟩) from rfl]
      by_cases b1 : pyIsSpace c = true
      · rw [if_pos b1, if_pos b1]
        exact ih cs2 (by omega) fuel2 (by omega) (i + 1)
      · rw [if_neg b1, if_neg b1]
        by_cases b2 : (c == '(') = true
        · rw [if_pos b2, if_pos b2]
          rw [ih cs2 (by omega) fuel2 (by omega) (i + 1)]
        · rw [if_neg b2, if_neg b2]
          by_cases b3 : (c == ')') = true
          · rw [if_pos b3, if_pos b3]
            rw [ih cs2 (by omega) fuel2 (by omega) (i + 1)]
          · rw [if_neg b3, if_neg b3]
            by_cases b4 : (c == '<' && cs2.take 2 == ['-', '>']) = true
            · rw [if_pos b4, if_pos b4]
              rw [ih (cs2.drop 2) (by rw [List.length_drop]; omega) fuel2 (by rw [List.length_drop]; omega) (i + 3)]
            · rw [if_neg b4, if_neg b4]
              by_cases b5 : (c == '-' && cs2.take 1 == ['>']) = true
              · rw [if_pos b5, if_pos b5]
                rw [ih (cs2.drop 1) (by rw [List.length_drop]; omega) fuel2 (by rw [List.length_drop]; omega) (i + 2)]
              · rw [if_neg b5, if_neg b5]
                by_cases b6 : (c == '&') = true
                · rw [if_pos b6, if_pos b6]
                  rw [ih cs2 (by omega) fuel2 (by omega) (i + 1)]
                · rw [if_neg b6, if_neg b6]
                  by_cases b7 : (c == '|') = true
                  · rw [if_pos b7, if_pos b7]
                    rw [ih cs2 (by omega) fuel2 (by omega) (i + 1)]
                  · rw [if_neg b7, if_neg b7]
                    by_cases b8 : (c == '~') = true
                    · rw [if_pos b8, if_pos b8]
                      rw [ih cs2 (by omega) fuel2 (by omega) (i + 1)]
                    · rw [if_neg b8, if_neg b8]
                      by_cases b9 : isIdentChar c = true
                      · rw [if_pos b9, if_pos b9]
                        rw [ih (cs2.dropWhile isIdentChar) (by have := (List.dropWhile_sublist (l := cs2) (p := isIdentChar)).length_le; omega) fuel2 (by have := (List.dropWhile_sublist (l := cs2) (p := isIdentChar)).length_le; omega) (i + (c :: cs2.takeWhile isIdentChar).length)]
                      · rw [if_neg b9, if_neg b9]


/-- One tokenizer iteration over a space. -/
theorem tokenizeStep_space (fuel i : Nat) (cs : List Char) :
    tokenizeFuel (fuel + 1) i (' ' :: cs) = tokenizeFuel fuel (i + 1) cs := rfl

/-- One tokenizer iteration over an opening parenthesis. -/
theorem tokenizeStep_lparen (fuel i : Nat) (cs : List Char) :
    tokenizeFuel (fuel + 1) i ('(' :: cs) =
      (tokenizeFuel fuel (i + 1) cs).map (⟨"(", "("⟩ :: ·) := rfl

/-- One tokenizer iteration over a closing parenthesis. -/
theorem tokenizeStep_rparen (fuel i : Nat) (cs : List Char) :
    tokenizeFuel (fuel + 1) i (')' :: cs) =
      (tokenizeFuel fuel (i + 1) cs).map (⟨")", ")"⟩ :: ·) := rfl

/-- One tokenizer iteration over the `->` operator. -/
theorem tokenizeStep_implies (fuel i : Nat) (cs : List Char) :
    tokenizeFuel (fuel + 1) i ('-' :: '>' :: cs) =
      (tokenizeFuel fuel (i + 2) cs).map (⟨"IMPLIES", "->"⟩ :: ·) := rfl

/-- One tokenizer iteration over the `<->` operator. -/
theorem tokenizeStep_iff (fuel i : Nat) (cs : List Char) :
    tokenizeFuel (fuel + 1) i ('<' :: '-' :: '>' :: cs) =
      (tokenizeFuel fuel (i + 3) cs).map (⟨"IFF", "<->"⟩ :: ·) := rfl

/-- One tokenizer iteration over an identifier run followed by a
continuation that cannot extend the run. -/
theorem tokenizeStep_ident (fuel i : Nat) (c : Char) (w s : List Char)
    (hw : ∀ ch ∈ c :: w, isIdentChar ch = true) (hs : safeHead s) :
    tokenizeFuel (fuel + 1) i (c :: (w ++ s)) =
      (tokenizeFuel fuel (i + (c :: w).length) s).map
        ((match KEYWORDS.lookup (String.mk ((c :: w).map asciiUpper)) with
          | some kind => Token.mk kind (String.mk (c :: w))
          | none => Token.mk "IDENT" (String.mk (c :: w))) :: ·) := by
  have hc := hw c (by simp)
  have hno := identChar_not_op hc
  rw [show tokenizeFuel (fuel + 1) i (c :: (w ++ s)) =
    (if pyIsSpace c then tokenizeFuel fuel (i + 1) (w ++ s)
    else if c == '(' then (tokenizeFuel fuel (i + 1) (w ++ s)).map (⟨"(", "("⟩ :: ·)
    else if c == ')' then (tokenizeFuel fuel (i + 1) (w ++ s)).map (⟨")", ")"⟩ :: ·)
    else if c == '<' && (w ++ s).take 2 == ['-', '>'] then
      (tokenizeFuel fuel (i + 3) ((w ++ s).drop 2)).map (⟨"IFF", "<->"⟩ :: ·)
    else if c == '-' && (w ++ s).take 1 == ['>'] then
      (tokenizeFuel fuel (i + 2) ((w ++ s).drop 1)).map (⟨"IMPLIES", "->"⟩ :: ·)
    else if c == '&' then (tokenizeFuel fuel (i + 1) (w ++ s)).map (⟨"AND", "&"⟩ :: ·)
    else if c == '|' then (tokenizeFuel fuel (i + 1) (w ++ s)).map (⟨"OR", "|"⟩ :: ·)
    else if c == '~' then (tokenizeFuel fuel (i + 1) (w ++ s)).map (⟨"NOT", "~"⟩ :: ·)
    else if isIdentChar c then
      (tokenizeFuel fuel (i + (c :: (w ++ s).takeWhile isIdentChar).length)
        ((w ++ s).dropWhile isIdentChar)).map
        ((match KEYWORDS.lookup
            (String.mk ((c :: (w ++ s).takeWhile isIdentChar).map asciiUpper)) with
          | some kind => Token.mk kind (String.mk (c :: (w ++ s).takeWhile isIdentChar))
          | none => Token.mk "IDENT" (String.mk (c :: (w ++ s).takeWhile isIdentChar))) :: ·)
    else .error ⟨unexpectedCharMessage c i⟩) from rfl]
  rw [if_neg (by simp [hno.1]), if_neg (by simp [hno.2.1]),
    if_neg (by simp [hno.2.2.1]), if_neg (by simp [hno.2.2.2.1]),
    if_neg (by simp [hno.2.2.2.2.1]), if_neg (by simp [hno.2.2.2.2.2.1]),
    if_neg (by simp [hno.2.2.2.2.2.2.1]), if_neg (by simp [hno.2.2.2.2.2.2.2]),
    if_pos hc]
  rw [takeWhile_append_of_all isIdentChar w s (fun x hx => hw x (by simp [hx])),
    dropWhile_append_of_all isIdentChar w s (fun x hx => hw x (by simp [hx])),
    takeWhile_safeHead hs, dropWhile_safeHead hs, List.append_nil]


theorem fsize_pos (f : Formula) : 1 ≤ fsize f := by
  cases f <;> simp [fsize]

theorem prec_pos (f : Formula) : 1 ≤ prec f := by
  cases f <;> simp [prec]

/-- Tokenizing an optionally parenthesised rendering of a subformula,
given the rule for the bare rendering. -/
theorem tokenizeWrap (g : Formula)
    (IH : ∀ (s : List Char) (i fuel1 fuel2 : Nat), safeHead s →
      (formula_to_str g ++ s).length < fuel1 → s.length < fuel2 →
      tokenizeFuel fuel1 i (formula_to_str g ++ s) =
        (tokenizeFuel fuel2 (i + (formula_to_str g).length) s).map
          (fun t => toksF g ++ t))
    (b : Bool) (s : List Char) (i fuel1 fuel2 : Nat) (hs : safeHead s)
    (h1 : (wrapIf b (formula_to_str g) ++ s).length < fuel1)
    (h2 : s.length < fuel2) :
    tokenizeFuel fuel1 i (wrapIf b (formula_to_str g) ++ s) =
      (tokenizeFuel fuel2 (i + (wrapIf b (formula_to_str g)).length) s).map
        (fun t => tokWrapIf b (toksF g) ++ t) := by
  cases b with
  | false => exact IH s i fuel1 fuel2 hs h1 h2
  | true =>
    have hlen : (wrapIf true (formula_to_str g) ++ s).length =
        (formula_to_str g).length + s.length + 2 := by
      simp [wrapIf]
      omega
    have hshape : wrapIf true (formula_to_str g) ++ s =
        '(' :: (formula_to_str g ++ (')' :: s)) := by
      simp [wrapIf]
    cases fuel1 with
    | zero => omega
    | succ m =>
      rw [hshape, tokenizeStep_lparen]
      rw [IH (')' :: s) (i + 1) m (fuel2 + 1)
        (by show isIdentChar ')' = false; rfl)
        (by simp only [List.length_append, List.length_cons]; omega)
        (by simp only [List.length_cons]; omega)]
      rw [tokenizeStep_rparen]
      rw [except_map_map, except_map_map]
      have hidx : i + 1 + (formula_to_str g).length + 1 =
          i + (wrapIf true (formula_to_str g)).length := by
        simp [wrapIf]
        omega
      rw [hidx]
      congr 1
      funext t
      show (⟨"(", "("⟩ : Token) :: (toksF g ++ (⟨")", ")"⟩ :: t)) =
        tokWrapIf true (toksF g) ++ t
      simp [tokWrapIf]


/-- Tokenizing a word-operator infix rendering `left W right` (with `W`
one of `AND`, `OR`, `XOR`), given the rules for both children. -/
theorem tokenize_word_binop (gl gr : Formula) (bl br : Bool) (c : Char) (w : List Char)
    (IHl : ∀ (s : List Char) (i fuel1 fuel2 : Nat), safeHead s →
      (formula_to_str gl ++ s).length < fuel1 → s.length < fuel2 →
      tokenizeFuel fuel1 i (formula_to_str gl ++ s) =
        (tokenizeFuel fuel2 (i + (formula_to_str gl).length) s).map
          (fun t => toksF gl ++ t))
    (IHr : ∀ (s : List Char) (i fuel1 fuel2 : Nat), safeHead s →
      (formula_to_str gr ++ s).length < fuel1 → s.length < fuel2 →
      tokenizeFuel fuel1 i (formula_to_str gr ++ s) =
        (tokenizeFuel fuel2 (i + (formula_to_str gr).length) s).map
          (fun t => toksF gr ++ t))
    (hw : ∀ ch ∈ c :: w, isIdentChar ch = true)
    (s : List Char) (i fuel1 fuel2 : Nat) (hs : safeHead s)
    (h1 : (wrapIf bl (formula_to_str gl) ++
      (' ' :: (c :: (w ++ (' ' :: (wrapIf br (formula_to_str gr) ++ s)))))).length < fuel1)
    (h2 : s.length < fuel2) :
    tokenizeFuel fuel1 i (wrapIf bl (formula_to_str gl) ++
      (' ' :: (c :: (w ++ (' ' :: (wrapIf br (formula_to_str gr) ++ s)))))) =
      (tokenizeFuel fuel2 (i + ((wrapIf bl (formula_to_str gl)).length +
          (c :: w).length + 2 + (wrapIf br (formula_to_str gr)).length)) s).map
        (fun t => (tokWrapIf bl (toksF gl) ++
          (match KEYWORDS.lookup (String.mk ((c :: w).map asciiUpper)) with
            | some kind => Token.mk kind (String.mk (c :: w))
            | none => Token.mk "IDENT" (String.mk (c :: w))) ::
          tokWrapIf br (toksF gr)) ++ t) := by
  rw [tokenizeWrap gl IHl bl
      (' ' :: (c :: (w ++ (' ' :: (wrapIf br (formula_to_str gr) ++ s))))) i fuel1
      ((wrapIf br (formula_to_str gr) ++ s).length + w.length + 4)
      (by show isIdentChar ' ' = false; rfl)
      h1
      (by simp only [List.length_cons, List.length_append]; omega)]
  rw [show (wrapIf br (formula_to_str gr) ++ s).length + w.length + 4 =
      ((wrapIf br (formula_to_str gr) ++ s).length + w.length + 3) + 1 from rfl]
  rw [tokenizeStep_space]
  rw [show (wrapIf br (formula_to_str gr) ++ s).length + w.length + 3 =
      ((wrapIf br (formula_to_str gr) ++ s).length + w.length + 2) + 1 from rfl]
  rw [tokenizeStep_ident _ _ c w (' ' :: (wrapIf br (formula_to_str gr) ++ s)) hw
      (by show isIdentChar ' ' = false; rfl)]
  rw [show (wrapIf br (formula_to_str gr) ++ s).length + w.length + 2 =
      ((wrapIf br (formula_to_str gr) ++ s).length + w.length + 1) + 1 from rfl]
  rw [tokenizeStep_space]
  rw [tokenizeWrap gr IHr br s _ ((wrapIf br (formula_to_str gr) ++ s).length + w.length + 1)
      fuel2 hs (by simp only [List.length_append]; omega) h2]
  rw [except_map_map, except_map_map]
  have hidx : i + (wrapIf bl (formula_to_str gl)).length + 1 + (c :: w).length + 1 +
      (wrapIf br (formula_to_str gr)).length =
      i + ((wrapIf bl (formula_to_str gl)).length + (c :: w).length + 2 +
        (wrapIf br (formula_to_str gr)).length) := by omega
  rw [hidx]
  congr 1
  funext t
  simp only [List.cons_append, List.append_assoc]


/-- Tokenizing a `left -> right` rendering, given the rules for both children. -/
theorem tokenize_implies_binop (gl gr : Formula) (bl br : Bool)
    (IHl : ∀ (s : List Char) (i fuel1 fuel2 : Nat), safeHead s →
      (formula_to_str gl ++ s).length < fuel1 → s.length < fuel2 →
      tokenizeFuel fuel1 i (formula_to_str gl ++ s) =
        (tokenizeFuel fuel2 (i + (formula_to_str gl).length) s).map
          (fun t => toksF gl ++ t))
    (IHr : ∀ (s : List Char) (i fuel1 fuel2 : Nat), safeHead s →
      (formula_to_str gr ++ s).length < fuel1 → s.length < fuel2 →
      tokenizeFuel fuel1 i (formula_to_str gr ++ s) =
        (tokenizeFuel fuel2 (i + (formula_to_str gr).length) s).map
          (fun t => toksF gr ++ t))
    (s : List Char) (i fuel1 fuel2 : Nat) (hs : safeHead s)
    (h1 : (wrapIf bl (formula_to_str gl) ++
      (' ' :: ('-' :: '>' :: (' ' :: (wrapIf br (formula_to_str gr) ++ s))))).length < fuel1)
    (h2 : s.length < fuel2) :
    tokenizeFuel fuel1 i (wrapIf bl (formula_to_str gl) ++
      (' ' :: ('-' :: '>' :: (' ' :: (wrapIf br (formula_to_str gr) ++ s))))) =
      (tokenizeFuel fuel2 (i + ((wrapIf bl (formula_to_str gl)).length +
          2 + 2 + (wrapIf br (formula_to_str gr)).length)) s).map
        (fun t => (tokWrapIf bl (toksF gl) ++ (⟨"IMPLIES", "->"⟩ : Token) ::
          tokWrapIf br (toksF gr)) ++ t) := by
  rw [tokenizeWrap gl IHl bl
      (' ' :: ('-' :: '>' :: (' ' :: (wrapIf br (formula_to_str gr) ++ s)))) i fuel1
      ((wrapIf br (formula_to_str gr) ++ s).length + 5)
      (by show isIdentChar ' ' = false; rfl)
      h1
      (by simp only [List.length_cons, List.length_append]; omega)]
  rw [show (wrapIf br (formula_to_str gr) ++ s).length + 5 =
      ((wrapIf br (formula_to_str gr) ++ s).length + 4) + 1 from rfl]
  rw [tokenizeStep_space]
  rw [show (wrapIf br (formula_to_str gr) ++ s).length + 4 =
      ((wrapIf br (formula_to_str gr) ++ s).length + 3) + 1 from rfl]
  rw [tokenizeStep_implies]
  rw [show (wrapIf br (formula_to_str gr) ++ s).length + 3 =
      ((wrapIf br (formula_to_str gr) ++ s).length + 2) + 1 from rfl]
  rw [tokenizeStep_space]
  rw [tokenizeWrap gr IHr br s _
      ((wrapIf br (formula_to_str gr) ++ s).length + 2)
      fuel2 hs (by simp only [List.length_append]; omega) h2]
  rw [except_map_map, except_map_map]
  have hidx : i + (wrapIf bl (formula_to_str gl)).length + 1 + 2 + 1 +
      (wrapIf br (formula_to_str gr)).length =
      i + ((wrapIf bl (formula_to_str gl)).length + 2 + 2 +
        (wrapIf br (formula_to_str gr)).length) := by omega
  rw [hidx]
  congr 1
  funext t
  simp only [List.cons_append, List.append_assoc]

/-- Tokenizing a `left <-> right` rendering, given the rules for both children. -/
theorem tokenize_iff_binop (gl gr : Formula) (bl br : Bool)
    (IHl : ∀ (s : List Char) (i fuel1 fuel2 : Nat), safeHead s →
      (formula_to_str gl ++ s).length < fuel1 → s.length < fuel2 →
      tokenizeFuel fuel1 i (formula_to_str gl ++ s) =
        (tokenizeFuel fuel2 (i + (formula_to_str gl).length) s).map
          (fun t => toksF gl ++ t))
    (IHr : ∀ (s : List Char) (i fuel1 fuel2 : Nat), safeHead s →
      (formula_to_str gr ++ s).length < fuel1 → s.length < fuel2 →
      tokenizeFuel fuel1 i (formula_to_str gr ++ s) =
        (tokenizeFuel fuel2 (i + (formula_to_str gr).length) s).map
          (fun t => toksF gr ++ t))
    (s : List Char) (i fuel1 fuel2 : Nat) (hs : safeHead s)
    (h1 : (wrapIf bl (formula_to_str gl) ++
      (' ' :: ('<' :: '-' :: '>' :: (' ' :: (wrapIf br (formula_to_str gr) ++ s))))).length < fuel1)
    (h2 : s.length < fuel2) :
    tokenizeFuel fuel1 i (wrapIf bl (formula_to_str gl) ++
      (' ' :: ('<' :: '-' :: '>' :: (' ' :: (wrapIf br (formula_to_str gr) ++ s))))) =
      (tokenizeFuel fuel2 (i + ((wrapIf bl (formula_to_str gl)).length +
          3 + 2 + (wrapIf br (formula_to_str gr)).length)) s).map
        (fun t => (tokWrapIf bl (toksF gl) ++ (⟨"IFF", "<->"⟩ : Token) ::
          tokWrapIf br (toksF gr)) ++ t) := by
  rw [tokenizeWrap gl IHl bl
      (' ' :: ('<' :: '-' :: '>' :: (' ' :: (wrapIf br (formula_to_str gr) ++ s)))) i fuel1
      ((wrapIf br (formula_to_str gr) ++ s).length + 6)
      (by show isIdentChar ' ' = false; rfl)
      h1
      (by simp only [List.length_cons, List.length_append]; omega)]
  rw [show (wrapIf br (formula_to_str gr) ++ s).length + 6 =
      ((wrapIf br (formula_to_str gr) ++ s).length + 5) + 1 from rfl]
  rw [tokenizeStep_space]
  rw [show (wrapIf br (formula_to_str gr) ++ s).length + 5 =
      ((wrapIf br (formula_to_str gr) ++ s).length + 4) + 1 from rfl]
  rw [tokenizeStep_iff]
  rw [show (wrapIf br (formula_to_str gr) ++ s).length + 4 =
      ((wrapIf br (formula_to_str gr) ++ s).length + 3) + 1 from rfl]
  rw [tokenizeStep_space]
  rw [tokenizeWrap gr IHr br s _
      ((wrapIf br (formula_to_str gr) ++ s).length + 3)
      fuel2 hs (by simp only [List.length_append]; omega) h2]
  rw [except_map_map, except_map_map]
  have hidx : i + (wrapIf bl (formula_to_str gl)).length + 1 + 3 + 1 +
      (wrapIf br (formula_to_str gr)).length =
      i + ((wrapIf bl (formula_to_str gl)).length + 3 + 2 +
        (wrapIf br (formula_to_str gr)).length) := by omega
  rw [hidx]
  congr 1
  funext t
  simp only [List.cons_append, List.append_assoc]


/-- Tokenizing the canonical rendering of a formula, followed by any safe
continuation, yields its token sequence `toksF` followed by the
continuation's tokens. -/
theorem print_tokenizes :
    ∀ (N : Nat) (f : Formula), fsize f ≤ N → wfAtoms f = true →
    ∀ (s : List Char) (i fuel1 fuel2 : Nat), safeHead s →
      (formula_to_str f ++ s).length < fuel1 → s.length < fuel2 →
      tokenizeFuel fuel1 i (formula_to_str f ++ s) =
        (tokenizeFuel fuel2 (i + (formula_to_str f).length) s).map
          (fun t => toksF f ++ t) := by
  intro N
  induction N with
  | zero =>
    intro f hf
    have := fsize_pos f
    omega
  | succ N ih =>
    intro f hf hwf s i fuel1 fuel2 hs h1 h2
    cases f with
    | Atom n =>
      have hv : validIdent n = true := hwf
      simp only [validIdent, Bool.and_eq_true] at hv
      obtain ⟨⟨hne, hall⟩, hlk⟩ := hv
      rw [List.all_eq_true] at hall
      have hne' : n.data ≠ [] := by
        intro hd
        rw [hd] at hne
        simp at hne
      obtain ⟨c, w, hdata⟩ : ∃ c w, n.data = c :: w := by
        cases hd : n.data with
        | nil => exact absurd hd hne'
        | cons c w => exact ⟨c, w, rfl⟩
      have hprint : formula_to_str (Formula.Atom n) = c :: w := by
        rw [← hdata]
        rfl
      rw [hprint] at h1 ⊢
      rw [List.cons_append] at h1 ⊢
      cases fuel1 with
      | zero =>
        simp only [List.length_cons, List.length_append] at h1
        omega
      | succ m =>
        rw [tokenizeStep_ident m i c w s (hdata ▸ hall) hs]
        have hlk2 : KEYWORDS.lookup (String.mk ((c :: w).map asciiUpper)) = none := by
          rw [← hdata]
          exact Option.isNone_iff_eq_none.1 hlk
        rw [hlk2]
        rw [tokenizeFuel_irrel m s
          (by simp only [List.length_cons, List.length_append] at h1; omega) fuel2 h2]
        have hmk : String.mk (c :: w) = n := by
          rw [← hdata]
        rw [hmk]
        rfl
    | Not g =>
      simp only [fsize] at hf
      have hszg : fsize g ≤ N := by omega
      have hwg : wfAtoms g = true := hwf
      have hdn : "NOT ".data = ['N', 'O', 'T', ' '] := rfl
      have hshape : formula_to_str (Formula.Not g) ++ s =
          'N' :: (['O', 'T'] ++ (' ' :: (wrapIf (decide (prec g < 6)) (formula_to_str g) ++ s))) := by
        show ("NOT ".data ++ wrapIf (decide (prec g < 6)) (formula_to_str g)) ++ s = _
        rw [hdn]
        simp [List.cons_append, List.append_assoc]
      have hlen : (formula_to_str (Formula.Not g) ++ s).length =
          (wrapIf (decide (prec g < 6)) (formula_to_str g) ++ s).length + 4 := by
        rw [hshape]
        simp only [List.length_cons, List.length_append, List.length_nil]
        omega
      rw [hlen] at h1
      obtain ⟨m, rfl⟩ : ∃ m, fuel1 = m + 1 + 1 := ⟨fuel1 - 2, by omega⟩
      rw [hshape]
      rw [tokenizeStep_ident (m + 1) i 'N' ['O', 'T']
          (' ' :: (wrapIf (decide (prec g < 6)) (formula_to_str g) ++ s))
          (by decide) (by show isIdentChar ' ' = false; rfl)]
      rw [tokenizeStep_space]
      rw [tokenizeWrap g (ih g hszg hwg) (decide (prec g < 6)) s _ m fuel2 hs
          (by omega) h2]
      rw [except_map_map]
      have hdl : ("NOT ".data).length = 4 := rfl
      have hidx : i + ('N' :: ['O', 'T']).length + 1 +
          (wrapIf (decide (prec g < 6)) (formula_to_str g)).length =
          i + (formula_to_str (Formula.Not g)).length := by
        show _ = i + ("NOT ".data ++ wrapIf (decide (prec g < 6)) (formula_to_str g)).length
        rw [List.length_append, hdl]
        simp only [List.length_cons, List.length_nil]
        omega
      rw [hidx]
      congr 1
    | And l r =>
      simp only [fsize] at hf
      simp only [wfAtoms, Bool.and_eq_true] at hwf
      have hszl : fsize l ≤ N := by have := fsize_pos r; omega
      have hszr : fsize r ≤ N := by have := fsize_pos l; omega
      have hd : " AND ".data = [' ', 'A', 'N', 'D', ' '] := rfl
      have hshape : formula_to_str (Formula.And l r) ++ s =
          wrapIf (decide (prec l < 5)) (formula_to_str l) ++ (' ' :: ('A' :: (['N', 'D'] ++ (' ' :: (wrapIf (decide (prec r < 5)) (formula_to_str r) ++ s))))) := by
        show (wrapIf (decide (prec l < 5)) (formula_to_str l) ++ " AND ".data ++ wrapIf (decide (prec r < 5)) (formula_to_str r)) ++ s = _
        rw [hd]
        simp [List.cons_append, List.append_assoc]
      rw [hshape] at h1 ⊢
      rw [tokenize_word_binop l r _ _ 'A' ['N', 'D']
          (ih l hszl hwf.1) (ih r hszr hwf.2) (by decide) s i fuel1 fuel2 hs h1 h2]
      have hdl : (" AND ".data).length = 5 := rfl
      have hidx : i + ((wrapIf (decide (prec l < 5)) (formula_to_str l)).length + ('A' :: ['N', 'D']).length + 2 + (wrapIf (decide (prec r < 5)) (formula_to_str r)).length) =
          i + (formula_to_str (Formula.And l r)).length := by
        show _ = i + ((wrapIf (decide (prec l < 5)) (formula_to_str l) ++ " AND ".data ++ wrapIf (decide (prec r < 5)) (formula_to_str r))).length
        rw [List.length_append, List.length_append, hdl]
        try simp only [List.length_cons, List.length_nil]
        try omega
      rw [hidx]
      try congr 1
    | Or l r =>
      simp only [fsize] at hf
      simp only [wfAtoms, Bool.and_eq_true] at hwf
      have hszl : fsize l ≤ N := by have := fsize_pos r; omega
      have hszr : fsize r ≤ N := by have := fsize_pos l; omega
      have hd : " OR ".data = [' ', 'O', 'R', ' '] := rfl
      have hshape : formula_to_str (Formula.Or l r) ++ s =
          wrapIf (decide (prec l < 3)) (formula_to_str l) ++ (' ' :: ('O' :: (['R'] ++ (' ' :: (wrapIf (decide (prec r < 3)) (formula_to_str r) ++ s))))) := by
        show (wrapIf (decide (prec l < 3)) (formula_to_str l) ++ " OR ".data ++ wrapIf (decide (prec r < 3)) (formula_to_str r)) ++ s = _
        rw [hd]
        simp [List.cons_append, List.append_assoc]
      rw [hshape] at h1 ⊢
      rw [tokenize_word_binop l r _ _ 'O' ['R']
          (ih l hszl hwf.1) (ih r hszr hwf.2) (by decide) s i fuel1 fuel2 hs h1 h2]
      have hdl : (" OR ".data).length = 4 := rfl
      have hidx : i + ((wrapIf (decide (prec l < 3)) (formula_to_str l)).length + ('O' :: ['R']).length + 2 + (wrapIf (decide (prec r < 3)) (formula_to_str r)).length) =
          i + (formula_to_str (Formula.Or l r)).length := by
        show _ = i + ((wrapIf (decide (prec l < 3)) (formula_to_str l) ++ " OR ".data ++ wrapIf (decide (prec r < 3)) (formula_to_str r))).length
        rw [List.length_append, List.length_append, hdl]
        try simp only [List.length_cons, List.length_nil]
        try omega
      rw [hidx]
      try congr 1
    | Xor l r =>
      simp only [fsize] at hf
      simp only [wfAtoms, Bool.and_eq_true] at hwf
      have hszl : fsize l ≤ N := by have := fsize_pos r; omega
      have hszr : fsize r ≤ N := by have := fsize_pos l; omega
      have hd : " XOR ".data = [' ', 'X', 'O', 'R', ' '] := rfl
      have hshape : formula_to_str (Formula.Xor l r) ++ s =
          wrapIf (decide (prec l < 4)) (formula_to_str l) ++ (' ' :: ('X' :: (['O', 'R'] ++ (' ' :: (wrapIf (decide (prec r < 4)) (formula_to_str r) ++ s))))) := by
        show (wrapIf (decide (prec l < 4)) (formula_to_str l) ++ " XOR ".data ++ wrapIf (decide (prec r < 4)) (formula_to_str r)) ++ s = _
        rw [hd]
        simp [List.cons_append, List.append_assoc]
      rw [hshape] at h1 ⊢
      rw [tokenize_word_binop l r _ _ 'X' ['O', 'R']
          (ih l hszl hwf.1) (ih r hszr hwf.2) (by decide) s i fuel1 fuel2 hs h1 h2]
      have hdl : (" XOR ".data).length = 5 := rfl
      have hidx : i + ((wrapIf (decide (prec l < 4)) (formula_to_str l)).length + ('X' :: ['O', 'R']).length + 2 + (wrapIf (decide (prec r < 4)) (formula_to_str r)).length) =
          i + (formula_to_str (Formula.Xor l r)).length := by
        show _ = i + ((wrapIf (decide (prec l < 4)) (formula_to_str l) ++ " XOR ".data ++ wrapIf (decide (prec r < 4)) (formula_to_str r))).length
        rw [List.length_append, List.length_append, hdl]
        try simp only [List.length_cons, List.length_nil]
        try omega
      rw [hidx]
      try congr 1
    | Implies l r =>
      simp only [fsize] at hf
      simp only [wfAtoms, Bool.and_eq_true] at hwf
      have hszl : fsize l ≤ N := by have := fsize_pos r; omega
      have hszr : fsize r ≤ N := by have := fsize_pos l; omega
      have hd : " -> ".data = [' ', '-', '>', ' '] := rfl
      have hshape : formula_to_str (Formula.Implies l r) ++ s =
          wrapIf (decide (prec l < 2)) (formula_to_str l) ++ (' ' :: ('-' :: '>' :: (' ' :: (wrapIf (decide (prec r < 2)) (formula_to_str r) ++ s)))) := by
        show (wrapIf (decide (prec l < 2)) (formula_to_str l) ++ " -> ".data ++ wrapIf (decide (prec r < 2)) (formula_to_str r)) ++ s = _
        rw [hd]
        simp [List.cons_append, List.append_assoc]
      rw [hshape] at h1 ⊢
      rw [tokenize_implies_binop l r _ _
          (ih l hszl hwf.1) (ih r hszr hwf.2) s i fuel1 fuel2 hs h1 h2]
      have hdl : (" -> ".data).length = 4 := rfl
      have hidx : i + ((wrapIf (decide (prec l < 2)) (formula_to_str l)).length + 2 + 2 + (wrapIf (decide (prec r < 2)) (formula_to_str r)).length) =
          i + (formula_to_str (Formula.Implies l r)).length := by
        show _ = i + ((wrapIf (decide (prec l < 2)) (formula_to_str l) ++ " -> ".data ++ wrapIf (decide (prec r < 2)) (formula_to_str r))).length
        rw [List.length_append, List.length_append, hdl]
        try simp only [List.length_cons, List.length_nil]
        try omega
      rw [hidx]
      try congr 1
    | Iff l r =>
      simp only [fsize] at hf
      simp only [wfAtoms, Bool.and_eq_true] at hwf
      have hszl : fsize l ≤ N := by have := fsize_pos r; omega
      have hszr : fsize r ≤ N := by have := fsize_pos l; omega
      have hd : " <-> ".data = [' ', '<', '-', '>', ' '] := rfl
      have hshape : formula_to_str (Formula.Iff l r) ++ s =
          wrapIf (decide (prec l < 1)) (formula_to_str l) ++ (' ' :: ('<' :: '-' :: '>' :: (' ' :: (wrapIf (decide (prec r < 1)) (formula_to_str r) ++ s)))) := by
        show (wrapIf (decide (prec l < 1)) (formula_to_str l) ++ " <-> ".data ++ wrapIf (decide (prec r < 1)) (formula_to_str r)) ++ s = _
        rw [hd]
        simp [List.cons_append, List.append_assoc]
      rw [hshape] at h1 ⊢
      rw [tokenize_iff_binop l r _ _
          (ih l hszl hwf.1) (ih r hszr hwf.2) s i fuel1 fuel2 hs h1 h2]
      have hdl : (" <-> ".data).length = 5 := rfl
      have hidx : i + ((wrapIf (decide (prec l < 1)) (formula_to_str l)).length + 3 + 2 + (wrapIf (decide (prec r < 1)) (formula_to_str r)).length) =
          i + (formula_to_str (Formula.Iff l r)).length := by
        show _ = i + ((wrapIf (decide (prec l < 1)) (formula_to_str l) ++ " <-> ".data ++ wrapIf (decide (prec r < 1)) (formula_to_str r))).length
        rw [List.length_append, List.length_append, hdl]
        try simp only [List.length_cons, List.length_nil]
        try omega
      rw [hidx]
      try congr 1


/-- The formula below the maximal chain of level-`p` nodes along the left
spine (the first `parse_<level>` call's result before the loop folds). -/
def spineHead (p : Nat) : Formula → Formula
  | .Iff l r => if p = 1 then spineHead p l else .Iff l r
  | .Implies l r => if p = 2 then spineHead p l else .Implies l r
  | .Or l r => if p = 3 then spineHead p l else .Or l r
  | .Xor l r => if p = 4 then spineHead p l else .Xor l r
  | .And l r => if p = 5 then spineHead p l else .And l r
  | f => f

/-- The right subtrees of the maximal chain of level-`p` nodes along the
left spine, outermost last (the operands the level-`p` loop folds in). -/
def spineArgs (p : Nat) : Formula → List Formula
  | .Iff l r => if p = 1 then spineArgs p l ++ [r] else []
  | .Implies l r => if p = 2 then spineArgs p l ++ [r] else []
  | .Or l r => if p = 3 then spineArgs p l ++ [r] else []
  | .Xor l r => if p = 4 then spineArgs p l ++ [r] else []
  | .And l r => if p = 5 then spineArgs p l ++ [r] else []
  | _ => []

/-- The token tail contributed by the loop operands of a level-`p` chain. -/
def spineToks (p : Nat) : List Formula → List Token
  | [] => []
  | r :: rs =>
    (opToken p :: tokWrapIf (decide (prec r < p)) (toksF r)) ++ spineToks p rs

/-- Total node count of a list of formulas. -/
def sumF : List Formula → Nat
  | [] => 0
  | f :: fs => fsize f + sumF fs

theorem spineToks_append (p : Nat) :
    ∀ xs ys : List Formula, spineToks p (xs ++ ys) = spineToks p xs ++ spineToks p ys := by
  intro xs
  induction xs with
  | nil => intro ys; rfl
  | cons x xs ih => intro ys; simp [spineToks, ih, List.append_assoc]

theorem sumF_append : ∀ xs ys : List Formula, sumF (xs ++ ys) = sumF xs + sumF ys := by
  intro xs
  induction xs with
  | nil => intro ys; simp [sumF]
  | cons x xs ih => intro ys; simp [sumF, ih]; omega

theorem fsize_le_sumF : ∀ (rs : List Formula) (r : Formula), r ∈ rs → fsize r ≤ sumF rs := by
  intro rs
  induction rs with
  | nil => intro r hr; cases hr
  | cons x xs ih =>
    intro r hr
    rcases List.mem_cons.1 hr with h | h
    · subst h; simp [sumF]; try omega
    · have := ih r h; simp [sumF]; try omega

theorem spine_of_ne (p : Nat) (f : Formula) (h : prec f ≠ p) :
    spineHead p f = f ∧ spineArgs p f = [] := by
  cases f with
  | Atom n => exact ⟨rfl, rfl⟩
  | Not g => exact ⟨rfl, rfl⟩
  | Iff l r =>
    have hp : ¬(p = 1) := fun hp => h (by simp [prec, hp])
    simp [spineHead, spineArgs, hp]
  | Implies l r =>
    have hp : ¬(p = 2) := fun hp => h (by simp [prec, hp])
    simp [spineHead, spineArgs, hp]
  | Or l r =>
    have hp : ¬(p = 3) := fun hp => h (by simp [prec, hp])
    simp [spineHead, spineArgs, hp]
  | Xor l r =>
    have hp : ¬(p = 4) := fun hp => h (by simp [prec, hp])
    simp [spineHead, spineArgs, hp]
  | And l r =>
    have hp : ¬(p = 5) := fun hp => h (by simp [prec, hp])
    simp [spineHead, spineArgs, hp]

theorem spine_foldl (p : Nat) : ∀ f : Formula,
    (spineArgs p f).foldl (levelBuild p) (spineHead p f) = f := by
  intro f
  induction f with
  | Atom n => rfl
  | Not g ih => rfl
  | Iff l r ihl ihr =>
    by_cases hp : p = 1
    · subst hp
      simp only [spineHead, spineArgs, reduceIte]
      rw [List.foldl_append, ihl]
      rfl
    · simp [spineHead, spineArgs, hp]
  | Implies l r ihl ihr =>
    by_cases hp : p = 2
    · subst hp
      simp only [spineHead, spineArgs, reduceIte]
      rw [List.foldl_append, ihl]
      rfl
    · simp [spineHead, spineArgs, hp]
  | Or l r ihl ihr =>
    by_cases hp : p = 3
    · subst hp
      simp only [spineHead, spineArgs, reduceIte]
      rw [List.foldl_append, ihl]
      rfl
    · simp [spineHead, spineArgs, hp]
  | Xor l r ihl ihr =>
    by_cases hp : p = 4
    · subst hp
      simp only [spineHead, spineArgs, reduceIte]
      rw [List.foldl_append, ihl]
      rfl
    · simp [spineHead, spineArgs, hp]
  | And l r ihl ihr =>
    by_cases hp : p = 5
    · subst hp
      simp only [spineHead, spineArgs, reduceIte]
      rw [List.foldl_append, ihl]
      rfl
    · simp [spineHead, spineArgs, hp]

theorem spine_head_prec (p : Nat) (hp5 : p ≤ 5) : ∀ f : Formula,
    prec (spineHead p f) ≠ p := by
  intro f
  induction f with
  | Atom n => simp [spineHead, prec]; omega
  | Not g ih => simp [spineHead, prec]; omega
  | Iff l r ihl ihr =>
    by_cases hp : p = 1
    · subst hp; simpa [spineHead] using ihl
    · simp [spineHead, hp, prec]; omega
  | Implies l r ihl ihr =>
    by_cases hp : p = 2
    · subst hp; simpa [spineHead] using ihl
    · simp [spineHead, hp, prec]; omega
  | Or l r ihl ihr =>
    by_cases hp : p = 3
    · subst hp; simpa [spineHead] using ihl
    · simp [spineHead, hp, prec]; omega
  | Xor l r ihl ihr =>
    by_cases hp : p = 4
    · subst hp; simpa [spineHead] using ihl
    · simp [spineHead, hp, prec]; omega
  | And l r ihl ihr =>
    by_cases hp : p = 5
    · subst hp; simpa [spineHead] using ihl
    · simp [spineHead, hp, prec]; omega


/-- The token sequence of a formula whose top level is the binary level
`p` splits into its spine head's tokens followed by the loop tail. -/
theorem spine_toks (p : Nat) (hp1 : 1 ≤ p) (hp5 : p ≤ 5) : ∀ f : Formula, prec f = p →
    toksF f = tokWrapIf (decide (prec (spineHead p f) < p)) (toksF (spineHead p f)) ++
      spineToks p (spineArgs p f) := by
  intro f
  induction f with
  | Atom n => intro h; simp [prec] at h; omega
  | Not g ih => intro h; simp [prec] at h; omega
  | Iff l r ihl ihr =>
    intro h
    have hp : p = 1 := by simp [prec] at h; omega
    subst hp
    by_cases hl : prec l = 1
    · have hw : decide (prec l < 1) = false := by simp [hl]
      simp only [toksF, spineHead, spineArgs, reduceIte]
      rw [spineToks_append, ihl hl, hw]
      simp [tokWrapIf, spineToks, List.append_assoc]
    · have h1 : spineHead 1 l = l := (spine_of_ne 1 l hl).1
      have h2 : spineArgs 1 l = [] := (spine_of_ne 1 l hl).2
      simp only [toksF, spineHead, spineArgs, reduceIte, h1, h2]
      simp [spineToks, List.append_assoc]
  | Implies l r ihl ihr =>
    intro h
    have hp : p = 2 := by simp [prec] at h; omega
    subst hp
    by_cases hl : prec l = 2
    · have hw : decide (prec l < 2) = false := by simp [hl]
      simp only [toksF, spineHead, spineArgs, reduceIte]
      rw [spineToks_append, ihl hl, hw]
      simp [tokWrapIf, spineToks, List.append_assoc]
    · have h1 : spineHead 2 l = l := (spine_of_ne 2 l hl).1
      have h2 : spineArgs 2 l = [] := (spine_of_ne 2 l hl).2
      simp only [toksF, spineHead, spineArgs, reduceIte, h1, h2]
      simp [spineToks, List.append_assoc]
  | Or l r ihl ihr =>
    intro h
    have hp : p = 3 := by simp [prec] at h; omega
    subst hp
    by_cases hl : prec l = 3
    · have hw : decide (prec l < 3) = false := by simp [hl]
      simp only [toksF, spineHead, spineArgs, reduceIte]
      rw [spineToks_append, ihl hl, hw]
      simp [tokWrapIf, spineToks, List.append_assoc]
    · have h1 : spineHead 3 l = l := (spine_of_ne 3 l hl).1
      have h2 : spineArgs 3 l = [] := (spine_of_ne 3 l hl).2
      simp only [toksF, spineHead, spineArgs, reduceIte, h1, h2]
      simp [spineToks, List.append_assoc]
  | Xor l r ihl ihr =>
    intro h
    have hp : p = 4 := by simp [prec] at h; omega
    subst hp
    by_cases hl : prec l = 4
    · have hw : decide (prec l < 4) = false := by simp [hl]
      simp only [toksF, spineHead, spineArgs, reduceIte]
      rw [spineToks_append, ihl hl, hw]
      simp [tokWrapIf, spineToks, List.append_assoc]
    · have h1 : spineHead 4 l = l := (spine_of_ne 4 l hl).1
      have h2 : spineArgs 4 l = [] := (spine_of_ne 4 l hl).2
      simp only [toksF, spineHead, spineArgs, reduceIte, h1, h2]
      simp [spineToks, List.append_assoc]
  | And l r ihl ihr =>
    intro h
    have hp : p = 5 := by simp [prec] at h; omega
    subst hp
    by_cases hl : prec l = 5
    · have hw : decide (prec l < 5) = false := by simp [hl]
      simp only [toksF, spineHead, spineArgs, reduceIte]
      rw [spineToks_append, ihl hl, hw]
      simp [tokWrapIf, spineToks, List.append_assoc]
    · have h1 : spineHead 5 l = l := (spine_of_ne 5 l hl).1
      have h2 : spineArgs 5 l = [] := (spine_of_ne 5 l hl).2
      simp only [toksF, spineHead, spineArgs, reduceIte, h1, h2]
      simp [spineToks, List.append_assoc]

theorem spine_size (p : Nat) (hp1 : 1 ≤ p) (hp5 : p ≤ 5) : ∀ f : Formula, prec f = p →
    fsize f = fsize (spineHead p f) + sumF (spineArgs p f) + (spineArgs p f).length := by
  intro f
  induction f with
  | Atom n => intro h; simp [prec] at h; omega
  | Not g ih => intro h; simp [prec] at h; omega
  | Iff l r ihl ihr =>
    intro h
    have hp : p = 1 := by simp [prec] at h; omega
    subst hp
    by_cases hl : prec l = 1
    · simp only [fsize, spineHead, spineArgs, reduceIte]
      rw [sumF_append]
      have := ihl hl
      simp only [fsize] at this ⊢
      simp [sumF, List.length_append]
      try omega
    · have h1 : spineHead 1 l = l := (spine_of_ne 1 l hl).1
      have h2 : spineArgs 1 l = [] := (spine_of_ne 1 l hl).2
      simp only [fsize, spineHead, spineArgs, reduceIte, h1, h2]
      simp [sumF]
      try omega
  | Implies l r ihl ihr =>
    intro h
    have hp : p = 2 := by simp [prec] at h; omega
    subst hp
    by_cases hl : prec l = 2
    · simp only [fsize, spineHead, spineArgs, reduceIte]
      rw [sumF_append]
      have := ihl hl
      simp only [fsize] at this ⊢
      simp [sumF, List.length_append]
      try omega
    · have h1 : spineHead 2 l = l := (spine_of_ne 2 l hl).1
      have h2 : spineArgs 2 l = [] := (spine_of_ne 2 l hl).2
      simp only [fsize, spineHead, spineArgs, reduceIte, h1, h2]
      simp [sumF]
      try omega
  | Or l r ihl ihr =>
    intro h
    have hp : p = 3 := by simp [prec] at h; omega
    subst hp
    by_cases hl : prec l = 3
    · simp only [fsize, spineHead, spineArgs, reduceIte]
      rw [sumF_append]
      have := ihl hl
      simp only [fsize] at this ⊢
      simp [sumF, List.length_append]
      try omega
    · have h1 : spineHead 3 l = l := (spine_of_ne 3 l hl).1
      have h2 : spineArgs 3 l = [] := (spine_of_ne 3 l hl).2
      simp only [fsize, spineHead, spineArgs, reduceIte, h1, h2]
      simp [sumF]
      try omega
  | Xor l r ihl ihr =>
    intro h
    have hp : p = 4 := by simp [prec] at h; omega
    subst hp
    by_cases hl : prec l = 4
    · simp only [fsize, spineHead, spineArgs, reduceIte]
      rw [sumF_append]
      have := ihl hl
      simp only [fsize] at this ⊢
      simp [sumF, List.length_append]
      try omega
    · have h1 : spineHead 4 l = l := (spine_of_ne 4 l hl).1
      have h2 : spineArgs 4 l = [] := (spine_of_ne 4 l hl).2
      simp only [fsize, spineHead, spineArgs, reduceIte, h1, h2]
      simp [sumF]
      try omega
  | And l r ihl ihr =>
    intro h
    have hp : p = 5 := by simp [prec] at h; omega
    subst hp
    by_cases hl : prec l = 5
    · simp only [fsize, spineHead, spineArgs, reduceIte]
      rw [sumF_append]
      have := ihl hl
      simp only [fsize] at this ⊢
      simp [sumF, List.length_append]
      try omega
    · have h1 : spineHead 5 l = l := (spine_of_ne 5 l hl).1
      have h2 : spineArgs 5 l = [] := (spine_of_ne 5 l hl).2
      simp only [fsize, spineHead, spineArgs, reduceIte, h1, h2]
      simp [sumF]
      try omega

theorem spine_safe (p : Nat) (hp1 : 1 ≤ p) (hp5 : p ≤ 5) : ∀ f : Formula, prec f = p →
    rightAssocSafe f = true →
    rightAssocSafe (spineHead p f) = true ∧
    ∀ r ∈ spineArgs p f, rightAssocSafe r = true ∧ prec r ≠ p := by
  intro f
  induction f with
  | Atom n => intro h; simp [prec] at h; omega
  | Not g ih => intro h; simp [prec] at h; omega
  | Iff l r ihl ihr =>
    intro h hsafe
    have hp : p = 1 := by simp [prec] at h; omega
    subst hp
    simp only [rightAssocSafe, Bool.and_eq_true, Bool.not_eq_true', beq_eq_false_iff_ne] at hsafe
    obtain ⟨⟨hsl, hsr⟩, hrr⟩ := hsafe
    by_cases hl : prec l = 1
    · obtain ⟨hh, hargs⟩ := ihl hl hsl
      simp only [spineHead, spineArgs, reduceIte]
      refine ⟨hh, ?_⟩
      intro x hx
      rcases List.mem_append.1 hx with hx | hx
      · exact hargs x hx
      · rcases List.mem_singleton.1 hx with rfl
        exact ⟨hsr, fun hc => hrr hc⟩
    · have h1 : spineHead 1 l = l := (spine_of_ne 1 l hl).1
      have h2 : spineArgs 1 l = [] := (spine_of_ne 1 l hl).2
      simp only [spineHead, spineArgs, reduceIte, h1, h2]
      refine ⟨hsl, ?_⟩
      intro x hx
      rcases List.mem_singleton.1 (by simpa using hx) with rfl
      exact ⟨hsr, fun hc => hrr hc⟩
  | Implies l r ihl ihr =>
    intro h hsafe
    have hp : p = 2 := by simp [prec] at h; omega
    subst hp
    simp only [rightAssocSafe, Bool.and_eq_true, Bool.not_eq_true', beq_eq_false_iff_ne] at hsafe
    obtain ⟨⟨hsl, hsr⟩, hrr⟩ := hsafe
    by_cases hl : prec l = 2
    · obtain ⟨hh, hargs⟩ := ihl hl hsl
      simp only [spineHead, spineArgs, reduceIte]
      refine ⟨hh, ?_⟩
      intro x hx
      rcases List.mem_append.1 hx with hx | hx
      · exact hargs x hx
      · rcases List.mem_singleton.1 hx with rfl
        exact ⟨hsr, fun hc => hrr hc⟩
    · have h1 : spineHead 2 l = l := (spine_of_ne 2 l hl).1
      have h2 : spineArgs 2 l = [] := (spine_of_ne 2 l hl).2
      simp only [spineHead, spineArgs, reduceIte, h1, h2]
      refine ⟨hsl, ?_⟩
      intro x hx
      rcases List.mem_singleton.1 (by simpa using hx) with rfl
      exact ⟨hsr, fun hc => hrr hc⟩
  | Or l r ihl ihr =>
    intro h hsafe
    have hp : p = 3 := by simp [prec] at h; omega
    subst hp
    simp only [rightAssocSafe, Bool.and_eq_true, Bool.not_eq_true', beq_eq_false_iff_ne] at hsafe
    obtain ⟨⟨hsl, hsr⟩, hrr⟩ := hsafe
    by_cases hl : prec l = 3
    · obtain ⟨hh, hargs⟩ := ihl hl hsl
      simp only [spineHead, spineArgs, reduceIte]
      refine ⟨hh, ?_⟩
      intro x hx
      rcases List.mem_append.1 hx with hx | hx
      · exact hargs x hx
      · rcases List.mem_singleton.1 hx with rfl
        exact ⟨hsr, fun hc => hrr hc⟩
    · have h1 : spineHead 3 l = l := (spine_of_ne 3 l hl).1
      have h2 : spineArgs 3 l = [] := (spine_of_ne 3 l hl).2
      simp only [spineHead, spineArgs, reduceIte, h1, h2]
      refine ⟨hsl, ?_⟩
      intro x hx
      rcases List.mem_singleton.1 (by simpa using hx) with rfl
      exact ⟨hsr, fun hc => hrr hc⟩
  | Xor l r ihl ihr =>
    intro h hsafe
    have hp : p = 4 := by simp [prec] at h; omega
    subst hp
    simp only [rightAssocSafe, Bool.and_eq_true, Bool.not_eq_true', beq_eq_false_iff_ne] at hsafe
    obtain ⟨⟨hsl, hsr⟩, hrr⟩ := hsafe
    by_cases hl : prec l = 4
    · obtain ⟨hh, hargs⟩ := ihl hl hsl
      simp only [spineHead, spineArgs, reduceIte]
      refine ⟨hh, ?_⟩
      intro x hx
      rcases List.mem_append.1 hx with hx | hx
      · exact hargs x hx
      · rcases List.mem_singleton.1 hx with rfl
        exact ⟨hsr, fun hc => hrr hc⟩
    · have h1 : spineHead 4 l = l := (spine_of_ne 4 l hl).1
      have h2 : spineArgs 4 l = [] := (spine_of_ne 4 l hl).2
      simp only [spineHead, spineArgs, reduceIte, h1, h2]
      refine ⟨hsl, ?_⟩
      intro x hx
      rcases List.mem_singleton.1 (by simpa using hx) with rfl
      exact ⟨hsr, fun hc => hrr hc⟩
  | And l r ihl ihr =>
    intro h hsafe
    have hp : p = 5 := by simp [prec] at h; omega
    subst hp
    simp only [rightAssocSafe, Bool.and_eq_true, Bool.not_eq_true', beq_eq_false_iff_ne] at hsafe
    obtain ⟨⟨hsl, hsr⟩, hrr⟩ := hsafe
    by_cases hl : prec l = 5
    · obtain ⟨hh, hargs⟩ := ihl hl hsl
      simp only [spineHead, spineArgs, reduceIte]
      refine ⟨hh, ?_⟩
      intro x hx
      rcases List.mem_append.1 hx with hx | hx
      · exact hargs x hx
      · rcases List.mem_singleton.1 hx with rfl
        exact ⟨hsr, fun hc => hrr hc⟩
    · have h1 : spineHead 5 l = l := (spine_of_ne 5 l hl).1
      have h2 : spineArgs 5 l = [] := (spine_of_ne 5 l hl).2
      simp only [spineHead, spineArgs, reduceIte, h1, h2]
      refine ⟨hsl, ?_⟩
      intro x hx
      rcases List.mem_singleton.1 (by simpa using hx) with rfl
      exact ⟨hsr, fun hc => hrr hc⟩

theorem spineArgs_ne_nil (p : Nat) (f : Formula) (h : prec f = p) (hp5 : p ≤ 5) :
    spineArgs p f ≠ [] := by
  cases f with
  | Atom n => simp [prec] at h; omega
  | Not g => simp [prec] at h; omega
  | Iff l r =>
    have hp : p = 1 := by simp [prec] at h; omega
    subst hp
    simp only [spineArgs, reduceIte]
    simp
  | Implies l r =>
    have hp : p = 2 := by simp [prec] at h; omega
    subst hp
    simp only [spineArgs, reduceIte]
    simp
  | Or l r =>
    have hp : p = 3 := by simp [prec] at h; omega
    subst hp
    simp only [spineArgs, reduceIte]
    simp
  | Xor l r =>
    have hp : p = 4 := by simp [prec] at h; omega
    subst hp
    simp only [spineArgs, reduceIte]
    simp
  | And l r =>
    have hp : p = 5 := by simp [prec] at h; omega
    subst hp
    simp only [spineArgs, reduceIte]
    simp


/-- Unfolding one step of a binary level `n ≤ 5`: parse the next level,
then run this level's loop. -/
theorem parserGo_level_step (total fuel n : Nat) (ts : List Token) (hn : n ≤ 5) :
    parserGo total (fuel + 1) (.level n ts) =
      (parserGo total fuel (.level (n + 1) ts)).bind
        (fun x => parserGo total fuel (.loop n x.1 x.2)) := by
  cases ts with
  | nil =>
    rw [show parserGo total (fuel + 1) (.level n []) =
      (if n ≤ 5 then
        (parserGo total fuel (.level (n + 1) [])).bind
          (fun x => parserGo total fuel (.loop n x.1 x.2))
      else if n = 6 then parserGo total fuel (.level 7 [])
      else Except.error ⟨"Unexpected token '' where an atom or '(' was expected."⟩)
      from rfl]
    rw [if_pos hn]
  | cons t ts1 =>
    rw [show parserGo total (fuel + 1) (.level n (t :: ts1)) =
      (if n ≤ 5 then
        (parserGo total fuel (.level (n + 1) (t :: ts1))).bind
          (fun x => parserGo total fuel (.loop n x.1 x.2))
      else if n = 6 then
        (if t.kind = "NOT" then
          (parserGo total fuel (.level 6 ts1)).bind
            (fun x => Except.ok (Formula.Not x.1, x.2))
        else parserGo total fuel (.level 7 (t :: ts1)))
      else
        (if t.kind = "(" then
          (parserGo total fuel (.level 1 ts1)).bind
            (fun x =>
              match x.2 with
              | t2 :: ts3 =>
                if t2.kind = ")" then Except.ok (x.1, ts3)
                else Except.error ⟨"Expected ) but found " ++ t2.kind ++ " at position " ++
                  toString (total - (t2 :: ts3).length) ++ "."⟩
              | [] => Except.error ⟨"Expected ) but found EOF at position " ++
                  toString total ++ "."⟩)
        else if t.kind = "IDENT" then Except.ok (.Atom t.value, ts1)
        else Except.error ⟨"Unexpected token '" ++ t.value ++
          "' where an atom or '(' was expected."⟩)) from rfl]
    rw [if_pos hn]

/-- Unfolding `parse_unary` on a `NOT` token. -/
theorem parserGo_level6_not (total fuel : Nat) (t : Token) (ts1 : List Token)
    (ht : t.kind = "NOT") :
    parserGo total (fuel + 1) (.level 6 (t :: ts1)) =
      (parserGo total fuel (.level 6 ts1)).bind
        (fun x => Except.ok (Formula.Not x.1, x.2)) := by
  rw [show parserGo total (fuel + 1) (.level 6 (t :: ts1)) =
    (if t.kind = "NOT" then
      (parserGo total fuel (.level 6 ts1)).bind
        (fun x => Except.ok (Formula.Not x.1, x.2))
    else parserGo total fuel (.level 7 (t :: ts1))) from rfl]
  rw [if_pos ht]

/-- Unfolding `parse_unary` on a non-`NOT` token: defer to `parse_primary`. -/
theorem parserGo_level6_other (total fuel : Nat) (t : Token) (ts1 : List Token)
    (ht : ¬(t.kind = "NOT")) :
    parserGo total (fuel + 1) (.level 6 (t :: ts1)) =
      parserGo total fuel (.level 7 (t :: ts1)) := by
  rw [show parserGo total (fuel + 1) (.level 6 (t :: ts1)) =
    (if t.kind = "NOT" then
      (parserGo total fuel (.level 6 ts1)).bind
        (fun x => Except.ok (Formula.Not x.1, x.2))
    else parserGo total fuel (.level 7 (t :: ts1))) from rfl]
  rw [if_neg ht]

/-- Unfolding `parse_primary` on an opening parenthesis. -/
theorem parserGo_level7_lparen (total fuel : Nat) (t : Token) (ts1 : List Token)
    (ht : t.kind = "(") :
    parserGo total (fuel + 1) (.level 7 (t :: ts1)) =
      (parserGo total fuel (.level 1 ts1)).bind
        (fun x =>
          match x.2 with
          | t2 :: ts3 =>
            if t2.kind = ")" then Except.ok (x.1, ts3)
            else Except.error ⟨"Expected ) but found " ++ t2.kind ++ " at position " ++
              toString (total - (t2 :: ts3).length) ++ "."⟩
          | [] => Except.error ⟨"Expected ) but found EOF at position " ++
              toString total ++ "."⟩) := by
  rw [show parserGo total (fuel + 1) (.level 7 (t :: ts1)) =
    (if t.kind = "(" then
      (parserGo total fuel (.level 1 ts1)).bind
        (fun x =>
          match x.2 with
          | t2 :: ts3 =>
            if t2.kind = ")" then Except.ok (x.1, ts3)
            else Except.error ⟨"Expected ) but found " ++ t2.kind ++ " at position " ++
              toString (total - (t2 :: ts3).length) ++ "."⟩
          | [] => Except.error ⟨"Expected ) but found EOF at position " ++
              toString total ++ "."⟩)
    else if t.kind = "IDENT" then Except.ok (.Atom t.value, ts1)
    else Except.error ⟨"Unexpected token '" ++ t.value ++
      "' where an atom or '(' was expected."⟩) from rfl]
  rw [if_pos ht]

/-- Unfolding `parse_primary` on an identifier token. -/
theorem parserGo_level7_ident (total fuel : Nat) (t : Token) (ts1 : List Token)
    (h1 : ¬(t.kind = "(")) (h2 : t.kind = "IDENT") :
    parserGo total (fuel + 1) (.level 7 (t :: ts1)) =
      Except.ok (Formula.Atom t.value, ts1) := by
  rw [show parserGo total (fuel + 1) (.level 7 (t :: ts1)) =
    (if t.kind = "(" then
      (parserGo total fuel (.level 1 ts1)).bind
        (fun x =>
          match x.2 with
          | t2 :: ts3 =>
            if t2.kind = ")" then Except.ok (x.1, ts3)
            else Except.error ⟨"Expected ) but found " ++ t2.kind ++ " at position " ++
              toString (total - (t2 :: ts3).length) ++ "."⟩
          | [] => Except.error ⟨"Expected ) but found EOF at position " ++
              toString total ++ "."⟩)
    else if t.kind = "IDENT" then Except.ok (.Atom t.value, ts1)
    else Except.error ⟨"Unexpected token '" ++ t.value ++
      "' where an atom or '(' was expected."⟩) from rfl]
  rw [if_neg h1, if_pos h2]

/-- Unfolding the level-`n` loop on its operator token. -/
theorem parserGo_loop_op (total fuel n : Nat) (acc : Formula) (t : Token)
    (ts1 : List Token) (ht : t.kind = levelOpKind n) :
    parserGo total (fuel + 1) (.loop n acc (t :: ts1)) =
      (parserGo total fuel (.level (n + 1) ts1)).bind
        (fun x => parserGo total fuel (.loop n (levelBuild n acc x.1) x.2)) := by
  rw [show parserGo total (fuel + 1) (.loop n acc (t :: ts1)) =
    (if t.kind = levelOpKind n then
      (parserGo total fuel (.level (n + 1) ts1)).bind
        (fun x => parserGo total fuel (.loop n (levelBuild n acc x.1) x.2))
    else Except.ok (acc, t :: ts1)) from rfl]
  rw [if_pos ht]

/-- Unfolding the level-`n` loop on any other token: exit. -/
theorem parserGo_loop_exit (total fuel n : Nat) (acc : Formula) (t : Token)
    (ts1 : List Token) (ht : ¬(t.kind = levelOpKind n)) :
    parserGo total (fuel + 1) (.loop n acc (t :: ts1)) = Except.ok (acc, t :: ts1) := by
  rw [show parserGo total (fuel + 1) (.loop n acc (t :: ts1)) =
    (if t.kind = levelOpKind n then
      (parserGo total fuel (.level (n + 1) ts1)).bind
        (fun x => parserGo total fuel (.loop n (levelBuild n acc x.1) x.2))
    else Except.ok (acc, t :: ts1)) from rfl]
  rw [if_neg ht]

/-- The level-`n` loop on an empty token list: exit. -/
theorem parserGo_loop_nil (total fuel n : Nat) (acc : Formula) :
    parserGo total (fuel + 1) (.loop n acc []) = Except.ok (acc, []) := rfl


/-- The continuation after a completed level-`p` parse carries no operator
token of level `p` or looser at its head. -/
def noCont (p : Nat) : List Token → Prop
  | [] => True
  | t :: _ => ∀ q, p ≤ q → q ≤ 5 → t.kind ≠ levelOpKind q

theorem levelOpKind_cases (q : Nat) :
    levelOpKind q = "IFF" ∨ levelOpKind q = "IMPLIES" ∨ levelOpKind q = "OR" ∨
    levelOpKind q = "XOR" ∨ levelOpKind q = "AND" := by
  rcases q with _ | _ | _ | _ | _ | q <;> simp [levelOpKind]

theorem opToken_kind (p : Nat) : (opToken p).kind = levelOpKind p := by
  rcases p with _ | _ | _ | _ | _ | p <;> rfl

theorem levelOpKind_ne {p q : Nat} (hp1 : 1 ≤ p) (hp5 : p ≤ 5) (hq1 : 1 ≤ q)
    (hq5 : q ≤ 5) (hne : p ≠ q) : levelOpKind p ≠ levelOpKind q := by
  interval_cases p <;> interval_cases q <;> simp_all [levelOpKind]

theorem noCont_mono {p q : Nat} (hpq : p ≤ q) {rest : List Token}
    (h : noCont p rest) : noCont q rest := by
  cases rest with
  | nil => trivial
  | cons t ts =>
    intro r h1 h2
    exact h r (le_trans hpq h1) h2

theorem noCont_of_kind {t : Token} (ts : List Token)
    (h : t.kind = ")" ∨ t.kind = "EOF") (p : Nat) : noCont p (t :: ts) := by
  intro q h1 h2
  rcases levelOpKind_cases q with hk | hk | hk | hk | hk <;>
    rcases h with ht | ht <;> rw [ht, hk] <;> decide

theorem noCont_spineToks {p q : Nat} (hp1 : 1 ≤ p) (hp5 : p ≤ 5) (hpq : p < q)
    (rs : List Formula) (rest : List Token) (h : noCont q rest) :
    noCont q (spineToks p rs ++ rest) := by
  cases rs with
  | nil => simpa [spineToks] using h
  | cons r rs =>
    have hsh : spineToks p (r :: rs) ++ rest =
        opToken p :: (tokWrapIf (decide (prec r < p)) (toksF r) ++
          (spineToks p rs ++ rest)) := by
      simp [spineToks, List.append_assoc]
    rw [hsh]
    intro q' h1 h2
    rw [opToken_kind]
    exact levelOpKind_ne hp1 hp5 (by omega) h2 (by omega)

theorem tokWrapIf_length_ge (b : Bool) (ts : List Token) :
    ts.length ≤ (tokWrapIf b ts).length := by
  cases b <;> simp [tokWrapIf] <;> omega

theorem fsize_le_toksF_length : ∀ f : Formula, fsize f ≤ (toksF f).length := by
  intro f
  induction f with
  | Atom n => simp [toksF, fsize]
  | Not g ih =>
    have hg := tokWrapIf_length_ge (decide (prec g < 6)) (toksF g)
    simp only [toksF, fsize, List.length_cons]
    omega
  | Iff l r ihl ihr =>
    have hl := tokWrapIf_length_ge (decide (prec l < 1)) (toksF l)
    have hr := tokWrapIf_length_ge (decide (prec r < 1)) (toksF r)
    simp only [toksF, fsize, List.length_append, List.length_cons]
    omega
  | Implies l r ihl ihr =>
    have hl := tokWrapIf_length_ge (decide (prec l < 2)) (toksF l)
    have hr := tokWrapIf_length_ge (decide (prec r < 2)) (toksF r)
    simp only [toksF, fsize, List.length_append, List.length_cons]
    omega
  | Or l r ihl ihr =>
    have hl := tokWrapIf_length_ge (decide (prec l < 3)) (toksF l)
    have hr := tokWrapIf_length_ge (decide (prec r < 3)) (toksF r)
    simp only [toksF, fsize, List.length_append, List.length_cons]
    omega
  | Xor l r ihl ihr =>
    have hl := tokWrapIf_length_ge (decide (prec l < 4)) (toksF l)
    have hr := tokWrapIf_length_ge (decide (prec r < 4)) (toksF r)
    simp only [toksF, fsize, List.length_append, List.length_cons]
    omega
  | And l r ihl ihr =>
    have hl := tokWrapIf_length_ge (decide (prec l < 5)) (toksF l)
    have hr := tokWrapIf_length_ge (decide (prec r < 5)) (toksF r)
    simp only [toksF, fsize, List.length_append, List.length_cons]
    omega


theorem length_le_sumF : ∀ rs : List Formula, rs.length ≤ sumF rs := by
  intro rs
  induction rs with
  | nil => simp [sumF]
  | cons r rs ih =>
    have := fsize_pos r
    simp only [List.length_cons, sumF]
    omega

/-- The level-`p` loop folds in the operands whose tokens follow, given a
parse rule for each operand. -/
theorem parser_loop (total p : Nat) (hp1 : 1 ≤ p) (hp5 : p ≤ 5) :
    ∀ (rs : List Formula),
      (∀ r ∈ rs, ∀ (q : Nat) (rest : List Token) (fuel : Nat), 1 ≤ q → q ≤ 6 →
        noCont q rest → 8 * fsize r + 15 - q ≤ fuel →
        parserGo total fuel
          (.level q (tokWrapIf (decide (prec r < q)) (toksF r) ++ rest)) = .ok (r, rest)) →
      (∀ r ∈ rs, prec r ≠ p) →
      ∀ (acc : Formula) (rest : List Token) (fuel : Nat), noCont p rest →
        8 * sumF rs + 16 ≤ fuel →
        parserGo total fuel (.loop p acc (spineToks p rs ++ rest)) =
          .ok (rs.foldl (levelBuild p) acc, rest) := by
  intro rs
  induction rs with
  | nil =>
    intro _ _ acc rest fuel hnc hfuel
    obtain ⟨m, rfl⟩ : ∃ m, fuel = m + 1 := ⟨fuel - 1, by omega⟩
    cases rest with
    | nil => simpa [spineToks] using parserGo_loop_nil total m p acc
    | cons t ts =>
      have hne := hnc p le_rfl hp5
      simpa [spineToks] using parserGo_loop_exit total m p acc t ts hne
  | cons r rs ihrs =>
    intro CH hprec acc rest fuel hnc hfuel
    have hr1 := fsize_pos r
    have hf' : 8 * (fsize r + sumF rs) + 16 ≤ fuel := by
      simpa [sumF] using hfuel
    obtain ⟨m, rfl⟩ : ∃ m, fuel = m + 1 := ⟨fuel - 1, by omega⟩
    have hsh : spineToks p (r :: rs) ++ rest =
        opToken p :: (tokWrapIf (decide (prec r < p)) (toksF r) ++
          (spineToks p rs ++ rest)) := by
      simp [spineToks, List.append_assoc]
    rw [hsh]
    rw [parserGo_loop_op total m p acc (opToken p) _ (opToken_kind p)]
    have hdec : decide (prec r < p) = decide (prec r < p + 1) := by
      rw [decide_eq_decide]
      have := hprec r (by simp)
      omega
    rw [hdec]
    rw [CH r (by simp) (p + 1) (spineToks p rs ++ rest) m (by omega) (by omega)
        (noCont_spineToks hp1 hp5 (by omega) rs rest (noCont_mono (by omega) hnc))
        (by omega)]
    show parserGo total m (.loop p (levelBuild p acc r) (spineToks p rs ++ rest)) = _
    rw [ihrs (fun r2 hr2 => CH r2 (by simp [hr2]))
        (fun r2 hr2 => hprec r2 (by simp [hr2]))
        (levelBuild p acc r) rest m hnc (by omega)]
    rfl


/-- The recursive-descent parser reconstructs any right-assoc-safe formula
from its token rendering: the first conjunct parses the bare rendering at
any level at or above the formula's precedence, the second parses the
optionally parenthesised child rendering at any level. -/
theorem parser_correct :
    ∀ (M : Nat) (f : Formula), fsize f ≤ M → rightAssocSafe f = true →
      (∀ (p : Nat) (rest : List Token) (fuel total : Nat), 1 ≤ p → p ≤ 6 →
        p ≤ prec f → noCont p rest → 8 * fsize f + 8 - p ≤ fuel →
        parserGo total fuel (.level p (toksF f ++ rest)) = .ok (f, rest)) ∧
      (∀ (p : Nat) (rest : List Token) (fuel total : Nat), 1 ≤ p → p ≤ 6 →
        noCont p rest → 8 * fsize f + 15 - p ≤ fuel →
        parserGo total fuel
          (.level p (tokWrapIf (decide (prec f < p)) (toksF f) ++ rest)) = .ok (f, rest)) := by
  intro M
  induction M with
  | zero =>
    intro f hf
    have := fsize_pos f
    omega
  | succ M ih =>
    intro f hf hsafe
    have base6 : ∀ (rest : List Token) (fuel total : Nat), 6 ≤ prec f → noCont 6 rest →
        8 * fsize f + 2 ≤ fuel →
        parserGo total fuel (.level 6 (toksF f ++ rest)) = .ok (f, rest) := by
      intro rest fuel total hpf hnc hfuel
      cases f with
      | Atom n =>
        obtain ⟨m, rfl⟩ : ∃ m, fuel = m + 2 := ⟨fuel - 2, by simp [fsize] at hfuel; omega⟩
        rw [show toksF (Formula.Atom n) ++ rest = (⟨"IDENT", n⟩ : Token) :: rest from rfl]
        rw [show m + 2 = (m + 1) + 1 from rfl]
        rw [parserGo_level6_other total (m + 1) _ rest (by simp)]
        exact parserGo_level7_ident total m _ rest (by simp) rfl
      | Not g =>
        simp only [fsize] at hf hfuel
        have hszg : fsize g ≤ M := by omega
        have hsg : rightAssocSafe g = true := hsafe
        obtain ⟨m, rfl⟩ : ∃ m, fuel = m + 1 := ⟨fuel - 1, by omega⟩
        have hsh : toksF (Formula.Not g) ++ rest =
            (⟨"NOT", "NOT"⟩ : Token) :: (tokWrapIf (decide (prec g < 6)) (toksF g) ++ rest) := by
          simp [toksF, List.cons_append]
        rw [hsh]
        rw [parserGo_level6_not total m _ _ rfl]
        rw [(ih g hszg hsg).2 6 rest m total (by omega) le_rfl hnc (by omega)]
        rfl
      | Iff l r => simp [prec] at hpf
      | Implies l r => simp [prec] at hpf
      | Or l r => simp [prec] at hpf
      | Xor l r => simp [prec] at hpf
      | And l r => simp [prec] at hpf
    have main : ∀ (p : Nat) (rest : List Token) (fuel total : Nat), 1 ≤ p → p ≤ 6 →
        p ≤ prec f → noCont p rest → 8 * fsize f + 8 - p ≤ fuel →
        parserGo total fuel (.level p (toksF f ++ rest)) = .ok (f, rest) := by
      have desc : ∀ (d p : Nat), 6 - p ≤ d → 1 ≤ p → p ≤ 6 → p ≤ prec f →
          ∀ (rest : List Token) (fuel total : Nat), noCont p rest →
            8 * fsize f + 8 - p ≤ fuel →
            parserGo total fuel (.level p (toksF f ++ rest)) = .ok (f, rest) := by
        intro d
        induction d with
        | zero =>
          intro p hd hp1 hp6 hppf rest fuel total hnc hfuel
          have hp : p = 6 := by omega
          subst hp
          exact base6 rest fuel total hppf hnc (by omega)
        | succ d ihd =>
          intro p hd hp1 hp6 hppf rest fuel total hnc hfuel
          by_cases hp6' : p = 6
          · subst hp6'
            exact base6 rest fuel total hppf hnc (by omega)
          · have hp5 : p ≤ 5 := by omega
            have hF := fsize_pos f
            obtain ⟨m, rfl⟩ : ∃ m, fuel = m + 1 := ⟨fuel - 1, by omega⟩
            rw [parserGo_level_step total m p _ hp5]
            by_cases hpp : prec f = p
            · have hhead := spine_head_prec p hp5 f
              have hsz := spine_size p hp1 hp5 f hpp
              have hsaf := spine_safe p hp1 hp5 f hpp hsafe
              have hargs_ne := spineArgs_ne_nil p f hpp hp5
              have htoks := spine_toks p hp1 hp5 f hpp
              have hlen_pos : 1 ≤ (spineArgs p f).length := by
                cases h : spineArgs p f with
                | nil => exact absurd h hargs_ne
                | cons a l => simp
              have hsum_len := length_le_sumF (spineArgs p f)
              have hhpos := fsize_pos (spineHead p f)
              have hghsz : fsize (spineHead p f) ≤ M := by omega
              rw [htoks, List.append_assoc]
              have hdec : decide (prec (spineHead p f) < p) =
                  decide (prec (spineHead p f) < p + 1) := by
                rw [decide_eq_decide]
                omega
              rw [hdec]
              rw [(ih (spineHead p f) hghsz hsaf.1).2 (p + 1)
                  (spineToks p (spineArgs p f) ++ rest) m total (by omega) (by omega)
                  (noCont_spineToks hp1 hp5 (by omega) _ rest (noCont_mono (by omega) hnc))
                  (by omega)]
              show parserGo total m
                (.loop p (spineHead p f) (spineToks p (spineArgs p f) ++ rest)) = _
              rw [parser_loop total p hp1 hp5 (spineArgs p f)
                  (fun r2 hr2 q rest2 fuel2 hq1 hq6 hnc2 hfl2 =>
                    (ih r2 (by have := fsize_le_sumF (spineArgs p f) r2 hr2; omega)
                      ((hsaf.2 r2 hr2).1)).2 q rest2 fuel2 total hq1 hq6 hnc2 hfl2)
                  (fun r2 hr2 => (hsaf.2 r2 hr2).2)
                  (spineHead p f) rest m hnc (by omega)]
              rw [spine_foldl p f]
            · have hlt : p < prec f := by omega
              rw [ihd (p + 1) (by omega) (by omega) (by omega) (by omega) rest m total
                  (noCont_mono (by omega) hnc) (by omega)]
              show parserGo total m (.loop p f rest) = _
              obtain ⟨m2, rfl⟩ : ∃ m2, m = m2 + 1 := ⟨m - 1, by omega⟩
              cases rest with
              | nil => exact parserGo_loop_nil total m2 p f
              | cons t ts => exact parserGo_loop_exit total m2 p f t ts (hnc p le_rfl hp5)
      exact fun p rest fuel total hp1 hp6 hppf hnc hfuel =>
        desc (6 - p) p le_rfl hp1 hp6 hppf rest fuel total hnc hfuel
    refine ⟨main, ?_⟩
    intro p rest fuel total hp1 hp6 hnc hfuel
    by_cases hw : prec f < p
    · have hdw : decide (prec f < p) = true := by simp [hw]
      rw [hdw]
      have hsh : tokWrapIf true (toksF f) ++ rest =
          (⟨"(", "("⟩ : Token) :: (toksF f ++ ((⟨")", ")"⟩ : Token) :: rest)) := by
        simp [tokWrapIf, List.cons_append, List.append_assoc]
      rw [hsh]
      have wbase6 : ∀ (rest : List Token) (fuel : Nat), noCont 6 rest →
          8 * fsize f + 9 ≤ fuel →
          parserGo total fuel (.level 6 ((⟨"(", "("⟩ : Token) ::
            (toksF f ++ ((⟨")", ")"⟩ : Token) :: rest)))) = .ok (f, rest) := by
        intro rest2 fuel2 hnc2 hfuel2
        have hF := fsize_pos f
        obtain ⟨m, rfl⟩ : ∃ m, fuel2 = m + 2 := ⟨fuel2 - 2, by omega⟩
        rw [show m + 2 = (m + 1) + 1 from rfl]
        rw [parserGo_level6_other total (m + 1) _ _ (by decide)]
        rw [parserGo_level7_lparen total m _ _ rfl]
        rw [main 1 (((⟨")", ")"⟩ : Token)) :: rest2) m total (by omega) (by omega)
            (prec_pos f)
            (noCont_of_kind rest2 (Or.inl rfl) 1) (by omega)]
        rfl
      have wdesc : ∀ (d q : Nat), 6 - q ≤ d → 1 ≤ q → q ≤ 6 →
          ∀ (rest : List Token) (fuel : Nat), noCont q rest →
            8 * fsize f + 15 - q ≤ fuel →
            parserGo total fuel (.level q ((⟨"(", "("⟩ : Token) ::
              (toksF f ++ ((⟨")", ")"⟩ : Token) :: rest)))) = .ok (f, rest) := by
        intro d
        induction d with
        | zero =>
          intro q hd hq1 hq6 rest2 fuel2 hnc2 hfuel2
          have hq : q = 6 := by omega
          subst hq
          exact wbase6 rest2 fuel2 hnc2 (by omega)
        | succ d ihd =>
          intro q hd hq1 hq6 rest2 fuel2 hnc2 hfuel2
          by_cases hq6' : q = 6
          · subst hq6'
            exact wbase6 rest2 fuel2 hnc2 (by omega)
          · have hq5 : q ≤ 5 := by omega
            have hF := fsize_pos f
            obtain ⟨m, rfl⟩ : ∃ m, fuel2 = m + 1 := ⟨fuel2 - 1, by omega⟩
            rw [parserGo_level_step total m q _ hq5]
            rw [ihd (q + 1) (by omega) (by omega) (by omega) rest2 m
                (noCont_mono (by omega) hnc2) (by omega)]
            show parserGo total m (.loop q f rest2) = _
            obtain ⟨m2, rfl⟩ : ∃ m2, m = m2 + 1 := ⟨m - 1, by omega⟩
            cases rest2 with
            | nil => exact parserGo_loop_nil total m2 q f
            | cons t ts => exact parserGo_loop_exit total m2 q f t ts (hnc2 q le_rfl hq5)
      exact wdesc (6 - p) p le_rfl hp1 hp6 rest fuel hnc hfuel
    · have hdw : decide (prec f < p) = false := by simp [hw]
      rw [hdw]
      exact main p rest fuel total hp1 hp6 (by omega) hnc (by omega)


/-- `tokenize` on a printed formula yields exactly its token sequence
followed by the `EOF` token. -/
theorem tokenize_print (f : Formula) (hwf : wfAtoms f = true) :
    tokenize (formula_to_str f) = .ok (toksF f ++ [⟨"EOF", ""⟩]) := by
  have h := print_tokenizes (fsize f) f le_rfl hwf [] 0
    ((formula_to_str f ++ []).length + 1) 1 trivial (by omega) (by simp)
  rw [List.append_nil] at h
  rw [show tokenize (formula_to_str f) =
    tokenizeFuel ((formula_to_str f).length + 1) 0 (formula_to_str f) from rfl]
  rw [h]
  rfl

/-- C2 counterexample: the right-nested `A <-> (B <-> C)` is produced by
the parser from its parenthesised spelling, but `formula_to_str` prints
it as `A <-> B <-> C` — the strict `<` parenthesisation test omits the
parentheses around the right child of equal precedence — and the
left-associative parser reads that back as `(A <-> B) <-> C`, a
different tree. -/
theorem parse_print_right_assoc_counterexample :
    parse_formula ("A <-> (B <-> C)".data) =
      .ok (Formula.Iff (Formula.Atom "A")
        (Formula.Iff (Formula.Atom "B") (Formula.Atom "C"))) ∧
    formula_to_str (Formula.Iff (Formula.Atom "A")
        (Formula.Iff (Formula.Atom "B") (Formula.Atom "C"))) =
      "A <-> B <-> C".data ∧
    parse_formula (formula_to_str (Formula.Iff (Formula.Atom "A")
        (Formula.Iff (Formula.Atom "B") (Formula.Atom "C")))) =
      .ok (Formula.Iff (Formula.Iff (Formula.Atom "A") (Formula.Atom "B"))
        (Formula.Atom "C")) ∧
    Formula.Iff (Formula.Iff (Formula.Atom "A") (Formula.Atom "B")) (Formula.Atom "C") ≠
      Formula.Iff (Formula.Atom "A") (Formula.Iff (Formula.Atom "B") (Formula.Atom "C")) :=
  ⟨rfl, rfl, rfl, by decide⟩

/-- C2 (corrected): parsing the canonical rendering of a formula returns
an equal formula, provided every atom name reads back as a single
identifier token and no binary node has a right child of its own
precedence level. Without the latter restriction the round trip fails,
because `formula_to_str` parenthesises a child only when its precedence
is strictly lower than its parent's, so a right child of equal precedence
is printed bare and the left-associative parser regroups it (see
`parse_print_right_assoc_counterexample`). -/
theorem except_bind_ok {α β : Type} (a : α) (k : α → Except ParseError β) :
    (Except.ok a).bind k = k a := rfl

theorem parse_print_roundtrip (f : Formula) (hwf : wfAtoms f = true)
    (hsafe : rightAssocSafe f = true) :
    parse_formula (formula_to_str f) = .ok f := by
  have hM := (parser_correct (fsize f) f le_rfl hsafe).1 1 ([⟨"EOF", ""⟩] : List Token)
    (16 * (toksF f ++ ([⟨"EOF", ""⟩] : List Token)).length + 16)
    ((toksF f ++ ([⟨"EOF", ""⟩] : List Token)).length)
    (by omega) (by omega) (prec_pos f) (noCont_of_kind [] (Or.inr rfl) 1)
    (by simp only [List.length_append, List.length_cons, List.length_nil]
        have h1 := fsize_le_toksF_length f
        omega)
  rw [show parse_formula (formula_to_str f) =
    (tokenize (formula_to_str f)).bind (fun toks =>
      (parserGo toks.length (16 * toks.length + 16) (.level 1 toks)).bind (fun x =>
        match x.2 with
        | t :: _ =>
          if t.kind = "EOF" then Except.ok x.1
          else Except.error ⟨"Unexpected token '" ++ t.value ++ "' after end of formula."⟩
        | [] => Except.ok x.1)) from rfl]
  rw [tokenize_print f hwf, except_bind_ok]
  rw [hM, except_bind_ok]
  rfl

/-- C2 witness: the round trip held at the app's default rule formula
`Fever AND (Cough OR SoreThroat) -> Flu`. -/
theorem parse_print_roundtrip_witness :
    wfAtoms (Formula.Implies (Formula.And (Formula.Atom "Fever")
        (Formula.Or (Formula.Atom "Cough") (Formula.Atom "SoreThroat")))
      (Formula.Atom "Flu")) = true ∧
    rightAssocSafe (Formula.Implies (Formula.And (Formula.Atom "Fever")
        (Formula.Or (Formula.Atom "Cough") (Formula.Atom "SoreThroat")))
      (Formula.Atom "Flu")) = true ∧
    parse_formula (formula_to_str (Formula.Implies (Formula.And (Formula.Atom "Fever")
        (Formula.Or (Formula.Atom "Cough") (Formula.Atom "SoreThroat")))
      (Formula.Atom "Flu"))) = .ok (Formula.Implies (Formula.And (Formula.Atom "Fever")
        (Formula.Or (Formula.Atom "Cough") (Formula.Atom "SoreThroat")))
      (Formula.Atom "Flu")) :=
  ⟨by decide, by decide, parse_print_roundtrip (Formula.Implies (Formula.And (Formula.Atom "Fever")
        (Formula.Or (Formula.Atom "Cough") (Formula.Atom "SoreThroat")))
      (Formula.Atom "Flu")) (by decide) (by decide)⟩

end PDM
